import Mathlib

/-!
# The Composite Rigid Body Algorithm of Pinocchio (`src/algorithm/crba.hpp`)

A shallow embedding of `se3::crba`, of its two visitor steps
`CrbaForwardStep::algo` and `CrbaBackwardStep::algo`, and of the buffers of
`se3::Model` and `se3::Data` they touch, followed by theorems about them.

Scalars are the elements of a commutative ring `R` (exact arithmetic stands
for `double`).  A container access that is out of range in the C++ code has
no defined behaviour there; the embedding returns `none` for it.
-/

set_option autoImplicit false
set_option linter.unusedSectionVars false

namespace se3

open Matrix

/-! ## Spatial algebra -/

/-- A spatial force, or a spatial motion: six coordinates, linear part first. -/
abbrev Vector6 (R : Type) := Fin 6 → R

/-- A six by six matrix of scalars. -/
abbrev Matrix6 (R : Type) := Matrix (Fin 6) (Fin 6) R

/-- Modelled from the spec: `se3::SE3` (pinocchio/spatial/se3.hpp) is not among
the sources.  A rigid placement is represented by the six by six matrix of its
action on spatial forces; the action of the inverse placement on spatial
motions is the transpose of that matrix. -/
structure SE3 (R : Type) where
  toDualActionMatrix : Matrix6 R

/-- Modelled from the spec: `se3::Inertia` (pinocchio/spatial/inertia.hpp) is not
among the sources.  A spatial inertia is represented by its six by six matrix,
which maps a spatial motion to a spatial force. -/
structure Inertia (R : Type) where
  matrix : Matrix6 R

section SpatialOps
variable {R : Type} [CommRing R]

/-- Modelled from the spec: composition of placements, `SE3::operator*`; the
action matrix of a composition is the product of the action matrices. -/
instance : Mul (SE3 R) := ⟨fun a b => ⟨a.toDualActionMatrix * b.toDualActionMatrix⟩⟩

/-- Modelled from the spec: `Inertia::operator+`, inertias expressed in one frame
are composed by addition. -/
instance : Add (Inertia R) := ⟨fun a b => ⟨a.matrix + b.matrix⟩⟩

/-- Modelled from the spec: `SE3::act(Inertia)`, the inertia `Y` of the local
frame expressed in the reference frame of the placement. -/
def SE3.act (m : SE3 R) (Y : Inertia R) : Inertia R :=
  ⟨m.toDualActionMatrix * Y.matrix * m.toDualActionMatrixᵀ⟩

/-- Modelled from the spec: `SE3::act(Force)`, the spatial-force transformation
rule, which `forceSet::se3Action` applies to every column of a block. -/
def SE3.actForce (m : SE3 R) (f : Vector6 R) : Vector6 R :=
  m.toDualActionMatrix *ᵥ f

/-- Modelled from the spec: `Inertia * Motion`, the force that the inertia
associates with a spatial motion; `Y * S` applies it to every column of `S`. -/
def Inertia.mulMotion (Y : Inertia R) (v : Vector6 R) : Vector6 R :=
  Y.matrix *ᵥ v

end SpatialOps

/-! ## Dense buffers -/

/-- A `std::vector`: its size and its elements (only the slots below `size`
exist in the program). -/
structure StdVector (α : Type) where
  size : Nat
  elem : Nat → α

/-- The vector with slot `i` replaced, `v[i] = x`. -/
def StdVector.set {α : Type} (v : StdVector α) (i : Nat) (x : α) : StdVector α :=
  { v with elem := Function.update v.elem i x }

/-- A `Data::Matrix6x`: six rows and `cols` columns, stored by column. -/
structure Matrix6x (R : Type) where
  cols : Nat
  col : Nat → Vector6 R

/-- Assignment to the column block `[c0, c0 + n)`: column `c0 + b` receives
`g b`. -/
def Matrix6x.setCols {R : Type} (F : Matrix6x R) (c0 n : Nat) (g : Nat → Vector6 R) :
    Matrix6x R :=
  { F with col := fun c => if c0 ≤ c ∧ c < c0 + n then g (c - c0) else F.col c }

/-- An `Eigen::MatrixXd`: `rows` by `cols` coefficients. -/
structure MatrixXd (R : Type) where
  rows : Nat
  cols : Nat
  coeff : Nat → Nat → R

/-- Assignment to the block at `(r0, c0)` of size `nr` by `nc`: the coefficient
at `(r0 + a, c0 + b)` receives `g a b`. -/
def MatrixXd.setBlock {R : Type} (M : MatrixXd R) (r0 c0 nr nc : Nat) (g : Nat → Nat → R) :
    MatrixXd R :=
  { M with coeff := fun r c =>
      if (r0 ≤ r ∧ r < r0 + nr) ∧ (c0 ≤ c ∧ c < c0 + nc) then g (r - r0) (c - c0)
      else M.coeff r c }

/-! ## Joints, Model and Data -/

/-- The part of a joint data that `crba` uses: the placement `M()` of the joint
at the current configuration and its motion subspace `S()`, column by
column. -/
structure JointData (R : Type) where
  M : SE3 R
  S : Nat → Vector6 R

/-- The part of a joint model that `crba` uses.  The joint variants are not
among the sources, so the kinematics `calc` of a joint is a parameter: from the
configuration vector it fills the joint data. -/
structure JointModel (R : Type) where
  idx_v : Nat
  nv : Nat
  calc_ : List R → JointData R

/-- The fields of `se3::Model` read by `crba`.  The per-joint tables are keyed
by the joint index; joint `i` sits in slot `i`, so `jmodel.id()` is `i`.  The
last field, `nq`, is not read by `crba`: it is the dimension that its
documentation asks of the configuration vector `q` (`dim model.nq`). -/
structure Model (R : Type) where
  nv : Nat
  nbody : Nat
  inertias : Nat → Inertia R
  jointPlacements : Nat → SE3 R
  joints : Nat → JointModel R
  parents : Nat → Nat
  nq : Nat

/-- The fields of `se3::Data` used by `crba`.  The joint data and `nvSubtree` are
keyed by the joint index like the tables of the model; `liMi`, `Ycrb`, `Fcrb`
and `M` carry their sizes, so that an access outside them can be told. -/
structure Data (R : Type) where
  joints : Nat → JointData R
  liMi : StdVector (SE3 R)
  Ycrb : StdVector (Inertia R)
  M : MatrixXd R
  Fcrb : StdVector (Matrix6x R)
  nvSubtree : Nat → Nat

section Algorithm
variable {R : Type} [CommRing R]

/-- The container accesses of `CrbaForwardStep::algo` for joint `i` are in
range. -/
def CrbaForwardStep.inBounds (i : Nat) (data : Data R) : Prop :=
  i < data.liMi.size ∧ i < data.Ycrb.size

instance (i : Nat) (data : Data R) : Decidable (CrbaForwardStep.inBounds i data) := by
  unfold CrbaForwardStep.inBounds; infer_instance

/-- The assignments of `CrbaForwardStep::algo` (crba.hpp lines 73-77). -/
def CrbaForwardStep.write (model : Model R) (i : Nat) (data : Data R) (q : List R) : Data R :=
  let jdata := (model.joints i).calc_ q
  { data with
    joints := Function.update data.joints i jdata
    liMi := data.liMi.set i (model.jointPlacements i * jdata.M)
    Ycrb := data.Ycrb.set i (model.inertias i) }

/-- The forward step `CrbaForwardStep::algo` for joint `i`. -/
def CrbaForwardStep.algo (model : Model R) (i : Nat) (data : Data R) (q : List R) :
    Option (Data R) :=
  if CrbaForwardStep.inBounds i data then some (CrbaForwardStep.write model i data q) else none

/-- The container and block accesses of `CrbaBackwardStep::algo` for joint `i`
are in range. -/
def CrbaBackwardStep.inBounds (model : Model R) (i : Nat) (data : Data R) : Prop :=
  let jmodel := model.joints i
  let parent := model.parents i
  (i < data.Fcrb.size ∧ i < data.Ycrb.size ∧
    jmodel.idx_v + jmodel.nv ≤ (data.Fcrb.elem i).cols) ∧
  (jmodel.idx_v + jmodel.nv ≤ data.M.rows ∧
    jmodel.idx_v + data.nvSubtree i ≤ data.M.cols ∧
    jmodel.idx_v + data.nvSubtree i ≤ (data.Fcrb.elem i).cols) ∧
  (0 < parent →
    parent < data.Ycrb.size ∧ i < data.liMi.size ∧ parent < data.Fcrb.size ∧
    jmodel.idx_v + data.nvSubtree i ≤ (data.Fcrb.elem parent).cols)

instance (model : Model R) (i : Nat) (data : Data R) :
    Decidable (CrbaBackwardStep.inBounds model i data) := by
  unfold CrbaBackwardStep.inBounds; infer_instance

/-- The assignments of `CrbaBackwardStep::algo` (crba.hpp lines 102-124). -/
def CrbaBackwardStep.write (model : Model R) (i : Nat) (data : Data R) : Data R :=
  let jmodel := model.joints i
  let jdata := data.joints i
  -- F[1:6,i] = Y*S
  let data1 : Data R := { data with
    Fcrb := data.Fcrb.set i ((data.Fcrb.elem i).setCols jmodel.idx_v jmodel.nv
      (fun a => (data.Ycrb.elem i).mulMotion (jdata.S a))) }
  -- M[i,SUBTREE] = S'*F[1:6,SUBTREE]
  let data2 : Data R := { data1 with
    M := data1.M.setBlock jmodel.idx_v jmodel.idx_v jmodel.nv (data1.nvSubtree i)
      (fun a b => jdata.S a ⬝ᵥ (data1.Fcrb.elem i).col (jmodel.idx_v + b)) }
  let parent := model.parents i
  if 0 < parent then
    -- Yli += liXi Yi
    let data3 : Data R := { data2 with
      Ycrb := data2.Ycrb.set parent
        (data2.Ycrb.elem parent + (data2.liMi.elem i).act (data2.Ycrb.elem i)) }
    -- F[1:6,SUBTREE] = liXi F[1:6,SUBTREE]
    { data3 with
      Fcrb := data3.Fcrb.set parent ((data3.Fcrb.elem parent).setCols jmodel.idx_v
        (data3.nvSubtree i)
        (fun b => (data3.liMi.elem i).actForce ((data3.Fcrb.elem i).col (jmodel.idx_v + b)))) }
  else data2

/-- The own columns of `Fcrb[i]` right after the assignment `F[1:6,i] = Y*S`. -/
def ownForce (model : Model R) (i : Nat) (d : Data R) (c : Nat) : Vector6 R :=
  if (model.joints i).idx_v ≤ c ∧ c < (model.joints i).idx_v + (model.joints i).nv then
    (d.Ycrb.elem i).mulMotion ((d.joints i).S (c - (model.joints i).idx_v))
  else (d.Fcrb.elem i).col c

/-- The backward step `CrbaBackwardStep::algo` for joint `i`. -/
def CrbaBackwardStep.algo (model : Model R) (i : Nat) (data : Data R) : Option (Data R) :=
  if CrbaBackwardStep.inBounds model i data then some (CrbaBackwardStep.write model i data)
  else none

/-- The first loop of `crba`: the forward step for `i = 1, ..., n` in increasing
order. -/
def crba.forward (model : Model R) (q : List R) : Nat → Data R → Option (Data R)
  | 0, data => some data
  | n + 1, data =>
    (crba.forward model q n data).bind (fun d => CrbaForwardStep.algo model (n + 1) d q)

/-- The second loop of `crba`: the backward step for `i = n, ..., 1` in
decreasing order. -/
def crba.backward (model : Model R) : Nat → Data R → Option (Data R)
  | 0, data => some data
  | n + 1, data => (CrbaBackwardStep.algo model (n + 1) data).bind (crba.backward model n)

/-- The driver `se3::crba`: the forward loop over `1 ≤ i < nbody`, then the backward
loop from `nbody - 1` down to `1`; the returned matrix is the field `M` of the
resulting data.  With `nbody = 0` the unsigned start index `nbody - 1` of the
backward loop wraps around and its first access is out of range. -/
def crba (model : Model R) (data : Data R) (q : List R) : Option (Data R) :=
  if model.nbody = 0 then none
  else (crba.forward model q (model.nbody - 1) data).bind (crba.backward model (model.nbody - 1))

end Algorithm

/-! ## The pure effect of the two loops -/

section Loops
variable {R : Type} [CommRing R]

/-- The state written by the forward loop for `i = 1, ..., n` when every access
is in range. -/
def crba.forwardW (model : Model R) (q : List R) : Nat → Data R → Data R
  | 0, data => data
  | n + 1, data => CrbaForwardStep.write model (n + 1) (crba.forwardW model q n data) q

/-- The state written by the backward loop for `i = n, ..., 1` when every access
is in range. -/
def crba.backwardW (model : Model R) : Nat → Data R → Data R
  | 0, data => data
  | n + 1, data => crba.backwardW model n (CrbaBackwardStep.write model (n + 1) data)

/-- The state written by `crba` when every access is in range. -/
def crbaW (model : Model R) (data : Data R) (q : List R) : Data R :=
  crba.backwardW model (model.nbody - 1) (crba.forwardW model q (model.nbody - 1) data)

/-- The buffers of `data` have the sizes that the constructor of `Data` gives
them for `model`: one slot per joint index `0 .. nbody - 1` (the root included)
in `liMi`, `Ycrb` and `Fcrb`, every `Fcrb[i]` with `nv` columns, and `M` of
size `nv` by `nv`. -/
def Data.SizedFor (data : Data R) (model : Model R) : Prop :=
  0 < model.nbody ∧
  data.liMi.size = model.nbody ∧ data.Ycrb.size = model.nbody ∧
  data.Fcrb.size = model.nbody ∧
  (∀ i, i < model.nbody → (data.Fcrb.elem i).cols = model.nv) ∧
  data.M.rows = model.nv ∧ data.M.cols = model.nv

instance (data : Data R) (model : Model R) : Decidable (data.SizedFor model) := by
  unfold Data.SizedFor; infer_instance

/-- The index conditions under which no access of `crba` leaves its buffer:
every joint has a smaller parent, and its own columns lie inside its subtree
columns, which lie inside the `nv` columns of the model. -/
def Model.IndexBounds (model : Model R) (nvSubtree : Nat → Nat) : Prop :=
  ∀ i, i < model.nbody → 1 ≤ i →
    model.parents i < i ∧
    (model.joints i).idx_v + (model.joints i).nv ≤ (model.joints i).idx_v + nvSubtree i ∧
    (model.joints i).idx_v + nvSubtree i ≤ model.nv

instance (model : Model R) (nvSubtree : Nat → Nat) :
    Decidable (model.IndexBounds nvSubtree) := by
  unfold Model.IndexBounds; infer_instance

/-- The conditions under which every access of `crba` stays inside a buffer
sized for the model: every parent is a joint index, and the own columns and
the subtree columns of every joint lie inside the `nv` columns. -/
def Model.AccessBounds (model : Model R) (nvSubtree : Nat → Nat) : Prop :=
  ∀ i, i < model.nbody → 1 ≤ i →
    model.parents i < model.nbody ∧
    (model.joints i).idx_v + (model.joints i).nv ≤ model.nv ∧
    (model.joints i).idx_v + nvSubtree i ≤ model.nv

instance (model : Model R) (nvSubtree : Nat → Nat) :
    Decidable (model.AccessBounds nvSubtree) := by
  unfold Model.AccessBounds; infer_instance

end Loops

/-! ## The kinematic tree -/

/-- Walk from `k` towards the root through `parents`, for at most `fuel` steps:
is `i` met on the way? -/
def inSubtreeAux (parents : Nat → Nat) (i : Nat) : Nat → Nat → Bool
  | 0, k => decide (k = i)
  | fuel + 1, k =>
    decide (k = i) || (decide (0 < k) && inSubtreeAux parents i fuel (parents k))

section Tree
variable {R : Type} [CommRing R]

/-- Joint `k` belongs to the subtree rooted at joint `i` (`k = i` included). -/
def Model.inSubtree (model : Model R) (i k : Nat) : Bool :=
  inSubtreeAux model.parents i k k

/-- The joints of the subtree rooted at `i`. -/
def Model.subtree (model : Model R) (i : Nat) : Finset Nat :=
  (Finset.range model.nbody).filter (fun k => model.inSubtree i k = true)

/-- The children of joint `i`: the joints `c ≥ 1` with `parents[c] = i`. -/
def Model.children (model : Model R) (i : Nat) : Finset Nat :=
  (Finset.range model.nbody).filter (fun c => 1 ≤ c ∧ model.parents c = i)

/-- The index order of the tree: `parent[i] < i` for every joint `i ≥ 1`. -/
def Model.ParentsBelow (model : Model R) : Prop :=
  ∀ i, i < model.nbody → 1 ≤ i → model.parents i < i

instance (model : Model R) : Decidable model.ParentsBelow := by
  unfold Model.ParentsBelow; infer_instance

/-- The invariants of the spec on the index bookkeeping: `parent[i] < i`; `idxV` is
the sum of the `nv` of the joints of smaller index (offset `0` for the first
joint); `nvSubtree[i]` is the sum of the `nv` of the joints of the subtree of
`i`; and `nv` is the sum of the `nv` of all joints. -/
def Model.TreeInvariants (model : Model R) (nvSubtree : Nat → Nat) : Prop :=
  model.ParentsBelow ∧
  (1 < model.nbody → (model.joints 1).idx_v = 0) ∧
  (∀ i, i < model.nbody → 1 ≤ i ∧ i + 1 < model.nbody →
    (model.joints (i + 1)).idx_v = (model.joints i).idx_v + (model.joints i).nv) ∧
  (∀ i, i < model.nbody → 1 ≤ i →
    nvSubtree i = ∑ k ∈ model.subtree i, (model.joints k).nv) ∧
  model.nv = ∑ k ∈ (Finset.range model.nbody).filter (fun k => 1 ≤ k), (model.joints k).nv

instance (model : Model R) (nvSubtree : Nat → Nat) :
    Decidable (model.TreeInvariants nvSubtree) := by
  unfold Model.TreeInvariants; infer_instance

/-- Depth-first numbering: the joints of every subtree carry consecutive
indices. -/
def Model.DepthFirst (model : Model R) : Prop :=
  ∀ i, i < model.nbody → ∀ j, j < model.nbody → ∀ k, k < model.nbody →
    1 ≤ i ∧ i ≤ j ∧ j ≤ k ∧ model.inSubtree i k = true → model.inSubtree i j = true

instance (model : Model R) : Decidable model.DepthFirst := by
  unfold Model.DepthFirst; infer_instance

/-- Modelled from the spec: the identity placement `SE3::Identity()`, whose action
matrix is the identity. -/
instance : One (SE3 R) := ⟨⟨1⟩⟩

/-- Composition of the placements `A k` along the path that leads from `k` up to
`i`, for at most `fuel` steps. -/
def pathAux (parents : Nat → Nat) (A : Nat → SE3 R) (i : Nat) : Nat → Nat → SE3 R
  | 0, _ => 1
  | fuel + 1, k =>
    if k = i ∨ k = 0 then 1 else pathAux parents A i fuel (parents k) * A k

/-- The relative placement `liMi[i]` that the forward step computes from the
model and the configuration. -/
def Model.liMi (model : Model R) (q : List R) (i : Nat) : SE3 R :=
  model.jointPlacements i * ((model.joints i).calc_ q).M

/-- Column `a` of the motion subspace `S_i` of joint `i` at configuration `q`. -/
def Model.S (model : Model R) (q : List R) (i a : Nat) : Vector6 R :=
  ((model.joints i).calc_ q).S a

/-- The placement of joint `k` in the frame of its ancestor `i`: the composition
of the `liMi` on the path from `i` to `k`. -/
def Model.iMk (model : Model R) (q : List R) (i k : Nat) : SE3 R :=
  pathAux model.parents (model.liMi q) i k k

/-- The column `a` of the motion subspace of joint `i`, expressed in the frame of
the body `k` of its subtree: `J_k,i`. -/
def Model.jacobianCol (model : Model R) (q : List R) (k i a : Nat) : Vector6 R :=
  (model.iMk q i k).toDualActionMatrixᵀ *ᵥ model.S q i a

/-- The brute-force kinetic-energy reference for the entry of the inertia
matrix that couples degree of freedom `a` of joint `i` with degree of freedom
`b` of joint `j` of the subtree of `i`: the sum over the bodies `k` of the
subtree of `j` of `J_k,iᵀ * inertia[k] * J_k,j`. -/
def Model.kineticEnergyEntry (model : Model R) (q : List R) (i a j b : Nat) : R :=
  ∑ k ∈ model.subtree j,
    model.jacobianCol q k i a ⬝ᵥ ((model.inertias k).mulMotion (model.jacobianCol q k j b))

/-- The sum of the body inertias of the subtree of `i`, each expressed in the
frame of `i`. -/
def Model.subtreeInertia (model : Model R) (q : List R) (i : Nat) : Matrix6 R :=
  ∑ k ∈ model.subtree i, ((model.iMk q i k).act (model.inertias k)).matrix

/-- Degree of freedom `c` lies in the block of columns
`[idxV(i), idxV(i) + nvSubtree[i])` of joint `i`. -/
abbrev Model.inSubtreeCols (model : Model R) (nvSubtree : Nat → Nat) (i c : Nat) : Prop :=
  (model.joints i).idx_v ≤ c ∧ c < (model.joints i).idx_v + nvSubtree i

/-- Degree of freedom `c` is one of the own columns
`[idxV(i), idxV(i) + nv(i))` of joint `i`. -/
abbrev Model.inJointCols (model : Model R) (i c : Nat) : Prop :=
  (model.joints i).idx_v ≤ c ∧ c < (model.joints i).idx_v + (model.joints i).nv

end Tree

/-! ## Invariants of the backward loop -/

section Invariants
variable {R : Type} [CommRing R]

/-- The state of the joint data and of `liMi` after the forward loop: they hold
what `calc` gives at `q`. -/
def Data.KinematicsAt (d : Data R) (model : Model R) (q : List R) : Prop :=
  ∀ j, j < model.nbody → 1 ≤ j →
    d.joints j = (model.joints j).calc_ q ∧ d.liMi.elem j = model.liMi q j

/-- The composite inertias when the backward steps of the joints `> t` are done:
`Ycrb[j]` holds the inertia of body `j` and the contribution of every child
`c > t` of `j`. -/
def Data.CompositeUpTo (d : Data R) (model : Model R) (q : List R) (t : Nat) : Prop :=
  ∀ j, j < model.nbody → 1 ≤ j →
    (d.Ycrb.elem j).matrix = (model.inertias j).matrix +
      ∑ c ∈ model.children j,
        if t < c then ((model.liMi q c).act (d.Ycrb.elem c)).matrix else 0

/-- The column range `[idxV(t), idxV(t) + nvSubtree[t])` of every joint `t` holds
exactly the degrees of freedom of the joints of the subtree of `t`. -/
def Model.SubtreeColumns (model : Model R) (nvSubtree : Nat → Nat) : Prop :=
  ∀ t, t < model.nbody → ∀ j, j < model.nbody → 1 ≤ t ∧ 1 ≤ j →
    ∀ b, b < (model.joints j).nv →
      (model.inSubtreeCols nvSubtree t ((model.joints j).idx_v + b) ↔
        model.inSubtree t j = true)

/-- The spatial force that a unit rate of degree of freedom `b` of joint `j`
induces on the composite body of `j`, expressed in the frame of the ancestor
`p` of `j`. -/
def Model.forceCol (model : Model R) (q : List R) (p j b : Nat) : Vector6 R :=
  (model.iMk q p j).toDualActionMatrix *ᵥ (model.subtreeInertia q j *ᵥ model.S q j b)

/-- The force buffers when the backward steps of the joints `> t` are done: for
every such joint `c`, the columns of the subtree of `c` are final in `Fcrb[c]`
and have been moved to `Fcrb[parents[c]]`. -/
def Data.ForcesUpTo (d : Data R) (model : Model R) (q : List R) (t : Nat) : Prop :=
  ∀ c, c < model.nbody → t < c → ∀ j, j < model.nbody → model.inSubtree c j = true →
    ∀ b, b < (model.joints j).nv →
      (d.Fcrb.elem c).col ((model.joints j).idx_v + b) = model.forceCol q c j b ∧
      (0 < model.parents c →
        (d.Fcrb.elem (model.parents c)).col ((model.joints j).idx_v + b) =
          model.forceCol q (model.parents c) j b)

/-- The inertia matrix when the backward steps of the joints `> t` are done. -/
def Data.MatrixUpTo (d : Data R) (model : Model R) (q : List R) (t : Nat) : Prop :=
  ∀ c, c < model.nbody → t < c → ∀ a, a < (model.joints c).nv →
    ∀ j, j < model.nbody → model.inSubtree c j = true → ∀ b, b < (model.joints j).nv →
      d.M.coeff ((model.joints c).idx_v + a) ((model.joints j).idx_v + b) =
        model.S q c a ⬝ᵥ model.forceCol q c j b

/-- The number of degrees of freedom of the joints `1, ..., j - 1`. -/
def Model.dofBefore (model : Model R) (j : Nat) : Nat :=
  ∑ k ∈ Finset.Ico 1 j, (model.joints k).nv

/-- The model `m2` at configuration `q2` is the model `m1` at configuration `q1`
with its joints relabelled by `σ`: the root stays, the joints `1 .. nbody - 1`
are permuted, and the joint `σ i` of `m2` has the parent, the degrees of
freedom, the kinematics, the placement and the body of the joint `i` of
`m1`. -/
def Model.RelabelledBy (m1 m2 : Model R) (σ : Nat → Nat) (q1 q2 : List R) : Prop :=
  m2.nbody = m1.nbody ∧ σ 0 = 0 ∧
  (∀ i, i < m1.nbody → 1 ≤ i →
    1 ≤ σ i ∧ σ i < m1.nbody ∧ m2.parents (σ i) = σ (m1.parents i)) ∧
  (∀ i, i < m1.nbody → ∀ j, j < m1.nbody → σ i = σ j → i = j) ∧
  (∀ i, i < m1.nbody → 1 ≤ i →
    (m2.joints (σ i)).nv = (m1.joints i).nv ∧
    (m2.joints (σ i)).calc_ q2 = (m1.joints i).calc_ q1 ∧
    m2.jointPlacements (σ i) = m1.jointPlacements i ∧
    m2.inertias (σ i) = m1.inertias i)

end Invariants

/-! ## Concrete mechanisms -/

/-- The unit angular velocity about the axis z (linear part first, so the last
coordinate). -/
def angularZ {R : Type} [CommRing R] : Vector6 R := fun r => if r = 5 then 1 else 0

/-- A revolute joint of axis z whose placement is the identity, with its degree
of freedom in column `idx`. -/
def exRevoluteZ (idx : Nat) : JointModel ℤ :=
  { idx_v := idx, nv := 1, calc_ := fun _ => ⟨1, fun _ => angularZ⟩ }

/-- A tree of `N - 1` revolute joints with the given parents, identity
placements and bodies of identity inertia matrix; joint `i` owns column
`i - 1`, and the configuration has one coordinate per joint. -/
def exTree (N : Nat) (parents : Nat → Nat) : Model ℤ :=
  { nv := N - 1, nbody := N, inertias := fun _ => ⟨1⟩, jointPlacements := fun _ => 1,
    joints := fun i => exRevoluteZ (i - 1), parents := parents, nq := N - 1 }

/-- A data sized for `exTree N`, whose matrix `M` holds `m0` everywhere and whose
force buffers hold the column `f0` everywhere. -/
def exData (N : Nat) (nvS : Nat → Nat) (m0 : ℤ) (f0 : Vector6 ℤ) : Data ℤ :=
  { joints := fun _ => ⟨⟨0⟩, fun _ => 0⟩, liMi := ⟨N, fun _ => ⟨0⟩⟩,
    Ycrb := ⟨N, fun _ => ⟨0⟩⟩, M := ⟨N - 1, N - 1, fun _ _ => m0⟩,
    Fcrb := ⟨N, fun _ => ⟨N - 1, fun _ => f0⟩⟩, nvSubtree := nvS }

/-- Joint 1 under the root, joints 2 and 3 both children of joint 1. -/
def forkModel : Model ℤ := exTree 4 (fun i => match i with | 2 => 1 | 3 => 1 | _ => 0)

/-- The subtree sizes of `forkModel`. -/
def forkNvSubtree : Nat → Nat := fun i => match i with | 1 => 3 | 2 => 1 | 3 => 1 | _ => 0

/-- A tree whose numbering is not depth-first: joints 2 and 3 are children of
joint 1 and joint 4 is a child of joint 2. -/
def crossModel : Model ℤ :=
  exTree 5 (fun i => match i with | 2 => 1 | 3 => 1 | 4 => 2 | _ => 0)

/-- The subtree sizes of `crossModel`. -/
def crossNvSubtree : Nat → Nat :=
  fun i => match i with | 1 => 4 | 2 => 2 | 3 => 1 | 4 => 1 | _ => 0

/-- One joint with two degrees of freedom (the translations along x and y) under
the root, carrying a body of identity inertia matrix. -/
def planarModel : Model ℤ :=
  { nv := 2, nbody := 2, inertias := fun _ => ⟨1⟩, jointPlacements := fun _ => 1,
    joints := fun _ =>
      { idx_v := 0, nv := 2, calc_ := fun _ => ⟨1, fun a r => if r.val = a then 1 else 0⟩ },
    parents := fun _ => 0, nq := 2 }

/-- A data sized for `planarModel`, whose matrix `M` holds `7` everywhere. -/
def planarData : Data ℤ :=
  { joints := fun _ => ⟨⟨0⟩, fun _ => 0⟩, liMi := ⟨2, fun _ => ⟨0⟩⟩,
    Ycrb := ⟨2, fun _ => ⟨0⟩⟩, M := ⟨2, 2, fun _ _ => 7⟩,
    Fcrb := ⟨2, fun _ => ⟨2, fun _ => 0⟩⟩, nvSubtree := fun _ => 2 }

/-- The tree `crossModel` with the labels of the siblings 2 and 3 exchanged:
joints 2 and 3 are children of joint 1 and joint 4 is a child of joint 3. -/
def crossSwappedModel : Model ℤ :=
  exTree 5 (fun i => match i with | 2 => 1 | 3 => 1 | 4 => 3 | _ => 0)

/-- The subtree sizes of `crossSwappedModel`. -/
def crossSwappedNvSubtree : Nat → Nat :=
  fun i => match i with | 1 => 4 | 2 => 1 | 3 => 2 | 4 => 1 | _ => 0

/-- The relabelling that exchanges the joints 2 and 3. -/
def swap23 : Nat → Nat := fun i => match i with | 2 => 3 | 3 => 2 | i => i

/-- A malformed tree: the parent of joint 1 is joint 2. -/
def badModel : Model ℤ := exTree 3 (fun i => match i with | 1 => 2 | _ => 0)

/-- Subtree sizes handed to `badModel`. -/
def badNvSubtree : Nat → Nat := fun i => match i with | 1 => 1 | 2 => 1 | _ => 0

section SingleJoint
variable {R : Type} [CommRing R]

/-- Modelled from the spec: the spatial inertia of a body of mass `m` whose centre
of mass is the origin of the joint frame and whose rotational inertia is
`diag(Ixx, Iyy, Izz)`; its matrix is `diag(m, m, m, Ixx, Iyy, Izz)` (the class
`Inertia` is not among the sources). -/
def Inertia.ofDiagonal (m Ixx Iyy Izz : R) : Inertia R :=
  ⟨Matrix.diagonal ![m, m, m, Ixx, Iyy, Izz]⟩

/-- Modelled from the spec: a revolute joint of axis z, with one degree of freedom
in column `idx`; its motion subspace is the unit angular velocity about z and
its placement at configuration `q` is `placement q` (the joint variants are
not among the sources). -/
def JointModelRZ (idx : Nat) (placement : List R → SE3 R) : JointModel R :=
  { idx_v := idx, nv := 1, calc_ := fun q => ⟨placement q, fun _ => angularZ⟩ }

/-- The single-joint tree of the spec: the root and one revolute joint of axis z
carrying one body. -/
def singleJointModel (placement : List R → SE3 R) (jointPlacement : SE3 R)
    (m Ixx Iyy Izz : R) : Model R :=
  { nv := 1, nbody := 2, inertias := fun _ => Inertia.ofDiagonal m Ixx Iyy Izz,
    jointPlacements := fun _ => jointPlacement,
    joints := fun _ => JointModelRZ 0 placement, parents := fun _ => 0, nq := 1 }

end SingleJoint

section MoreInvariants
variable {R : Type} [CommRing R]

/-- The column range of the subtree of every joint whose parent is not the root
lies inside the column range of the subtree of that parent. -/
def Model.NestedSubtreeColumns (model : Model R) (nvSubtree : Nat → Nat) : Prop :=
  ∀ c, c < model.nbody → 1 ≤ c ∧ 0 < model.parents c →
    (model.joints (model.parents c)).idx_v ≤ (model.joints c).idx_v ∧
    (model.joints c).idx_v + nvSubtree c ≤
      (model.joints (model.parents c)).idx_v + nvSubtree (model.parents c)

instance (model : Model R) (nvSubtree : Nat → Nat) :
    Decidable (model.NestedSubtreeColumns nvSubtree) := by
  unfold Model.NestedSubtreeColumns; infer_instance

end MoreInvariants


section ReplayInvariant
variable {R : Type} [CommRing R]

/-- The state `s2` of a second call of `crba` compared with the state `s1` of the
first call at the same point of the backward loop, `f` being the state in which
the first call ends: everything that the steps still to come read is equal,
and every column of `Fcrb` and every coefficient of `M` holds in `s2` either
what it holds in `s1` or what it holds in `f`. -/
def Data.Replays (s2 s1 f : Data R) : Prop :=
  s2.joints = s1.joints ∧ s2.liMi = s1.liMi ∧ s2.Ycrb = s1.Ycrb ∧
  s2.nvSubtree = s1.nvSubtree ∧
  s2.M.rows = s1.M.rows ∧ s2.M.cols = s1.M.cols ∧ s2.Fcrb.size = s1.Fcrb.size ∧
  (∀ x, (s2.Fcrb.elem x).cols = (s1.Fcrb.elem x).cols) ∧
  (∀ x col, (s2.Fcrb.elem x).col col = (s1.Fcrb.elem x).col col ∨
    (s2.Fcrb.elem x).col col = (f.Fcrb.elem x).col col) ∧
  (∀ r c, s2.M.coeff r c = s1.M.coeff r c ∨ s2.M.coeff r c = f.M.coeff r c)

end ReplayInvariant


section TwoLink
variable {R : Type} [CommRing R]

/-- Modelled from the spec: the matrix of the cross product with `p`. -/
def skew (p : Fin 3 → R) : Matrix (Fin 3) (Fin 3) R :=
  !![0, -(p 2), p 1; p 2, 0, -(p 0); -(p 1), p 0, 0]

/-- The six by six matrix made of four three by three blocks: `A` and `B` above,
`C` and `D` below. -/
def blocks6 (A B C D : Matrix (Fin 3) (Fin 3) R) : Matrix6 R :=
  (Matrix.fromBlocks A B C D).submatrix (@finSumFinEquiv 3 3).symm (@finSumFinEquiv 3 3).symm

/-- Modelled from the spec: the rigid placement of rotation `rot` and translation
`p` (the class `SE3` is not among the sources).  On a spatial force `(f, τ)`,
linear part first, it acts by `(rot f, rot τ + p × rot f)`. -/
def SE3.ofRotationTranslation (rot : Matrix (Fin 3) (Fin 3) R) (p : Fin 3 → R) : SE3 R :=
  ⟨blocks6 rot 0 (skew p * rot) rot⟩

/-- Modelled from the spec: the spatial inertia of a point mass `m` at the
position `c` of the joint frame (the class `Inertia` is not among the
sources).  It maps the motion `(v, ω)` to the force `(f, c × f)` with
`f = m (v + ω × c)`. -/
def Inertia.ofPointMass (m : R) (c : Fin 3 → R) : Inertia R :=
  ⟨blocks6 (m • 1) (-(m • skew c)) (m • skew c) (-(m • (skew c * skew c)))⟩

/-- The rotation about the axis z by the angle of cosine `c` and sine `s`. -/
def rotationZ (c s : R) : Matrix (Fin 3) (Fin 3) R :=
  !![c, -s, 0; s, c, 0; 0, 0, 1]

/-- The two-joint serial chain of the spec: two revolute joints of axis z, joint
2 placed at unit distance from joint 1 along x, and each body a unit point
mass at unit distance from its joint along x.  Joint `i` reads its angle in
slot `i - 1` of the configuration; `cos` and `sin` are the trigonometric
functions of the scalars. -/
def twoLinkModel (cos sin : R → R) : Model R :=
  { nv := 2, nbody := 3,
    inertias := fun _ => Inertia.ofPointMass 1 ![1, 0, 0],
    jointPlacements := fun i =>
      if i = 2 then SE3.ofRotationTranslation 1 ![1, 0, 0] else 1,
    joints := fun i => JointModelRZ (i - 1) (fun q =>
      SE3.ofRotationTranslation (rotationZ (cos (q.getD (i - 1) 0)) (sin (q.getD (i - 1) 0)))
        ![0, 0, 0]),
    parents := fun i => i - 1, nq := 2 }

/-- A data sized for `twoLinkModel`, with the subtree sizes of the chain and zero
buffers. -/
def twoLinkData : Data R :=
  { joints := fun _ => ⟨⟨0⟩, fun _ => 0⟩, liMi := ⟨3, fun _ => ⟨0⟩⟩,
    Ycrb := ⟨3, fun _ => ⟨0⟩⟩, M := ⟨2, 2, fun _ _ => 0⟩,
    Fcrb := ⟨3, fun _ => ⟨2, fun _ => 0⟩⟩, nvSubtree := fun i => 3 - i }

end TwoLink


/-! ## Effect of one step -/

section StepLemmas
variable {R : Type} [CommRing R]

theorem StdVector.set_size {α : Type} (v : StdVector α) (i : Nat) (x : α) :
    (v.set i x).size = v.size := rfl

theorem StdVector.set_elem {α : Type} (v : StdVector α) (i j : Nat) (x : α) :
    (v.set i x).elem j = if j = i then x else v.elem j := by
  simp [StdVector.set, Function.update_apply]

theorem Matrix6x.setCols_cols (F : Matrix6x R) (c0 n : Nat) (g : Nat → Vector6 R) :
    (F.setCols c0 n g).cols = F.cols := rfl

theorem Matrix6x.setCols_col (F : Matrix6x R) (c0 n : Nat) (g : Nat → Vector6 R) (c : Nat) :
    (F.setCols c0 n g).col c = if c0 ≤ c ∧ c < c0 + n then g (c - c0) else F.col c := rfl

theorem MatrixXd.setBlock_coeff (M : MatrixXd R) (r0 c0 nr nc : Nat) (g : Nat → Nat → R)
    (r c : Nat) :
    (M.setBlock r0 c0 nr nc g).coeff r c =
      if (r0 ≤ r ∧ r < r0 + nr) ∧ (c0 ≤ c ∧ c < c0 + nc) then g (r - r0) (c - c0)
      else M.coeff r c := rfl

theorem fwd_write_joints (model : Model R) (i : Nat) (d : Data R) (q : List R) (j : Nat) :
    (CrbaForwardStep.write model i d q).joints j =
      if j = i then (model.joints i).calc_ q else d.joints j := by
  simp [CrbaForwardStep.write, Function.update_apply]

theorem fwd_write_liMi (model : Model R) (i : Nat) (d : Data R) (q : List R) (j : Nat) :
    (CrbaForwardStep.write model i d q).liMi.elem j =
      if j = i then model.liMi q i else d.liMi.elem j := by
  simp [CrbaForwardStep.write, StdVector.set_elem, Model.liMi]

theorem fwd_write_Ycrb (model : Model R) (i : Nat) (d : Data R) (q : List R) (j : Nat) :
    (CrbaForwardStep.write model i d q).Ycrb.elem j =
      if j = i then model.inertias i else d.Ycrb.elem j := by
  simp [CrbaForwardStep.write, StdVector.set_elem]

theorem fwd_write_M (model : Model R) (i : Nat) (d : Data R) (q : List R) :
    (CrbaForwardStep.write model i d q).M = d.M := rfl

theorem fwd_write_Fcrb (model : Model R) (i : Nat) (d : Data R) (q : List R) :
    (CrbaForwardStep.write model i d q).Fcrb = d.Fcrb := rfl

theorem fwd_write_nvSubtree (model : Model R) (i : Nat) (d : Data R) (q : List R) :
    (CrbaForwardStep.write model i d q).nvSubtree = d.nvSubtree := rfl

theorem fwd_write_liMi_size (model : Model R) (i : Nat) (d : Data R) (q : List R) :
    (CrbaForwardStep.write model i d q).liMi.size = d.liMi.size := rfl

theorem fwd_write_Ycrb_size (model : Model R) (i : Nat) (d : Data R) (q : List R) :
    (CrbaForwardStep.write model i d q).Ycrb.size = d.Ycrb.size := rfl

theorem bwd_write_joints (model : Model R) (i : Nat) (d : Data R) :
    (CrbaBackwardStep.write model i d).joints = d.joints := by
  unfold CrbaBackwardStep.write; dsimp only; split_ifs <;> rfl

theorem bwd_write_liMi (model : Model R) (i : Nat) (d : Data R) :
    (CrbaBackwardStep.write model i d).liMi = d.liMi := by
  unfold CrbaBackwardStep.write; dsimp only; split_ifs <;> rfl

theorem bwd_write_nvSubtree (model : Model R) (i : Nat) (d : Data R) :
    (CrbaBackwardStep.write model i d).nvSubtree = d.nvSubtree := by
  unfold CrbaBackwardStep.write; dsimp only; split_ifs <;> rfl

theorem bwd_write_Ycrb_size (model : Model R) (i : Nat) (d : Data R) :
    (CrbaBackwardStep.write model i d).Ycrb.size = d.Ycrb.size := by
  unfold CrbaBackwardStep.write; dsimp only; split_ifs <;> rfl

theorem bwd_write_Fcrb_size (model : Model R) (i : Nat) (d : Data R) :
    (CrbaBackwardStep.write model i d).Fcrb.size = d.Fcrb.size := by
  unfold CrbaBackwardStep.write; dsimp only; split_ifs <;> rfl

theorem bwd_write_M_rows (model : Model R) (i : Nat) (d : Data R) :
    (CrbaBackwardStep.write model i d).M.rows = d.M.rows := by
  unfold CrbaBackwardStep.write; dsimp only; split_ifs <;> rfl

theorem bwd_write_M_cols (model : Model R) (i : Nat) (d : Data R) :
    (CrbaBackwardStep.write model i d).M.cols = d.M.cols := by
  unfold CrbaBackwardStep.write; dsimp only; split_ifs <;> rfl

theorem bwd_write_Fcrb_cols (model : Model R) (i : Nat) (d : Data R) (x : Nat) :
    ((CrbaBackwardStep.write model i d).Fcrb.elem x).cols = (d.Fcrb.elem x).cols := by
  unfold CrbaBackwardStep.write; dsimp only
  split_ifs <;> simp only [StdVector.set_elem] <;> split_ifs <;>
    simp_all [Matrix6x.setCols_cols]

/-- The composite inertias after the backward step of joint `i`: only the slot of
a parent `> 0` changes, by the addition of the transformed inertia of `i`. -/
theorem bwd_write_Ycrb (model : Model R) (i : Nat) (d : Data R) (x : Nat) :
    (CrbaBackwardStep.write model i d).Ycrb.elem x =
      if 0 < model.parents i ∧ x = model.parents i then
        d.Ycrb.elem x + (d.liMi.elem i).act (d.Ycrb.elem i)
      else d.Ycrb.elem x := by
  unfold CrbaBackwardStep.write; dsimp only
  by_cases hp : 0 < model.parents i
  · by_cases hx : x = model.parents i
    · subst hx; simp [hp, StdVector.set_elem]
    · simp [hp, hx, StdVector.set_elem]
  · simp [hp]

/-- The inertia matrix after the backward step of joint `i`. -/
theorem bwd_write_M (model : Model R) (i : Nat) (d : Data R) (r c : Nat) :
    (CrbaBackwardStep.write model i d).M.coeff r c =
      if ((model.joints i).idx_v ≤ r ∧ r < (model.joints i).idx_v + (model.joints i).nv) ∧
          ((model.joints i).idx_v ≤ c ∧ c < (model.joints i).idx_v + d.nvSubtree i) then
        (d.joints i).S (r - (model.joints i).idx_v) ⬝ᵥ ownForce model i d c
      else d.M.coeff r c := by
  unfold CrbaBackwardStep.write; dsimp only
  have key : ∀ c, (model.joints i).idx_v ≤ c →
      ((d.Fcrb.set i ((d.Fcrb.elem i).setCols (model.joints i).idx_v (model.joints i).nv
        (fun a => (d.Ycrb.elem i).mulMotion ((d.joints i).S a)))).elem i).col
        ((model.joints i).idx_v + (c - (model.joints i).idx_v)) = ownForce model i d c := by
    intro c hc
    have : (model.joints i).idx_v + (c - (model.joints i).idx_v) = c := by omega
    rw [this]
    simp [StdVector.set_elem, Matrix6x.setCols_col, ownForce]
  split_ifs with hp hb hb
  all_goals simp only [MatrixXd.setBlock_coeff]
  all_goals first
    | rw [if_pos hb, key c hb.2.1]
    | rw [if_neg hb]

/-- The force buffers after the backward step of joint `i`, when the parent is
another joint. -/
theorem bwd_write_Fcrb (model : Model R) (i : Nat) (d : Data R) (hpi : model.parents i ≠ i)
    (x c : Nat) :
    ((CrbaBackwardStep.write model i d).Fcrb.elem x).col c =
      if 0 < model.parents i ∧ x = model.parents i then
        (if (model.joints i).idx_v ≤ c ∧ c < (model.joints i).idx_v + d.nvSubtree i then
          (d.liMi.elem i).actForce (ownForce model i d c)
        else (d.Fcrb.elem x).col c)
      else if x = i then ownForce model i d c
      else (d.Fcrb.elem x).col c := by
  unfold CrbaBackwardStep.write; dsimp only
  by_cases hp : 0 < model.parents i
  · by_cases hx : x = model.parents i
    · subst hx
      simp only [hp, if_true, true_and, StdVector.set_elem, Matrix6x.setCols_col, if_neg hpi,
        and_self]
      by_cases hc : (model.joints i).idx_v ≤ c ∧ c < (model.joints i).idx_v + d.nvSubtree i
      · have : (model.joints i).idx_v + (c - (model.joints i).idx_v) = c := by omega
        rw [if_pos hc, if_pos hc, this]
        simp [ownForce]
      · rw [if_neg hc, if_neg hc]
    · by_cases hxi : x = i
      · subst hxi
        simp [hp, hx, StdVector.set_elem, Matrix6x.setCols_col, ownForce]
      · simp [hp, hx, hxi, StdVector.set_elem]
  · by_cases hxi : x = i
    · subst hxi
      simp [hp, StdVector.set_elem, Matrix6x.setCols_col, ownForce]
    · simp [hp, hxi, StdVector.set_elem]

end StepLemmas

/-! ## The loops -/

section LoopLemmas
variable {R : Type} [CommRing R]

theorem sizedFor_fwd_write {model : Model R} {d : Data R} (h : d.SizedFor model) (i : Nat)
    (q : List R) : (CrbaForwardStep.write model i d q).SizedFor model := h

theorem sizedFor_bwd_write {model : Model R} {d : Data R} (h : d.SizedFor model) (i : Nat) :
    (CrbaBackwardStep.write model i d).SizedFor model := by
  obtain ⟨h0, h1, h2, h3, h4, h5, h6⟩ := h
  refine ⟨h0, ?_, ?_, ?_, ?_, ?_, ?_⟩
  · rw [bwd_write_liMi]; exact h1
  · rw [bwd_write_Ycrb_size]; exact h2
  · rw [bwd_write_Fcrb_size]; exact h3
  · intro x hx; rw [bwd_write_Fcrb_cols]; exact h4 x hx
  · rw [bwd_write_M_rows]; exact h5
  · rw [bwd_write_M_cols]; exact h6

theorem fwd_algo_eq {model : Model R} {d : Data R} (h : d.SizedFor model) {i : Nat}
    (hi : i < model.nbody) (q : List R) :
    CrbaForwardStep.algo model i d q = some (CrbaForwardStep.write model i d q) := by
  obtain ⟨_, h1, h2, _⟩ := h
  have : CrbaForwardStep.inBounds i d := ⟨by omega, by omega⟩
  simp [CrbaForwardStep.algo, this]

theorem Model.IndexBounds.accessBounds {model : Model R} {nvS : Nat → Nat}
    (h : model.IndexBounds nvS) : model.AccessBounds nvS := by
  intro i hi h1
  obtain ⟨b1, b2, b3⟩ := h i hi h1
  exact ⟨by omega, by omega, b3⟩

theorem bwd_algo_eq {model : Model R} {d : Data R} (h : d.SizedFor model)
    (hb : model.AccessBounds d.nvSubtree) {i : Nat} (hi : i < model.nbody) (h1 : 1 ≤ i) :
    CrbaBackwardStep.algo model i d = some (CrbaBackwardStep.write model i d) := by
  obtain ⟨_, s1, s2, s3, s4, s5, s6⟩ := h
  obtain ⟨b1, b2, b3⟩ := hb i hi h1
  have : CrbaBackwardStep.inBounds model i d := by
    refine ⟨⟨by omega, by omega, ?_⟩, ⟨?_, ?_, ?_⟩, ?_⟩
    · rw [s4 i hi]; omega
    · omega
    · omega
    · rw [s4 i hi]; omega
    · intro _
      refine ⟨by omega, by omega, by omega, ?_⟩
      rw [s4 _ (by omega)]; omega
  simp [CrbaBackwardStep.algo, this]

theorem sizedFor_forwardW {model : Model R} {d : Data R} (h : d.SizedFor model) (q : List R)
    (n : Nat) : (crba.forwardW model q n d).SizedFor model := by
  induction n with
  | zero => exact h
  | succ n ih => exact sizedFor_fwd_write ih _ _

theorem forward_eq {model : Model R} {d : Data R} (h : d.SizedFor model) (q : List R)
    (n : Nat) (hn : n < model.nbody) :
    crba.forward model q n d = some (crba.forwardW model q n d) := by
  induction n with
  | zero => rfl
  | succ n ih =>
    simp only [crba.forward, crba.forwardW, ih (by omega), Option.some_bind]
    exact fwd_algo_eq (sizedFor_forwardW h q n) hn q

theorem forwardW_nvSubtree (model : Model R) (q : List R) (n : Nat) (d : Data R) :
    (crba.forwardW model q n d).nvSubtree = d.nvSubtree := by
  induction n with
  | zero => rfl
  | succ n ih => simpa [crba.forwardW, fwd_write_nvSubtree] using ih

theorem forwardW_M (model : Model R) (q : List R) (n : Nat) (d : Data R) :
    (crba.forwardW model q n d).M = d.M := by
  induction n with
  | zero => rfl
  | succ n ih => simpa [crba.forwardW, fwd_write_M] using ih

theorem forwardW_Fcrb (model : Model R) (q : List R) (n : Nat) (d : Data R) :
    (crba.forwardW model q n d).Fcrb = d.Fcrb := by
  induction n with
  | zero => rfl
  | succ n ih => simpa [crba.forwardW, fwd_write_Fcrb] using ih

theorem forwardW_joints (model : Model R) (q : List R) (n : Nat) (d : Data R) (j : Nat) :
    (crba.forwardW model q n d).joints j =
      if 1 ≤ j ∧ j ≤ n then (model.joints j).calc_ q else d.joints j := by
  induction n with
  | zero =>
    have : ¬ (1 ≤ j ∧ j ≤ 0) := by omega
    rw [if_neg this]; rfl
  | succ n ih =>
    simp only [crba.forwardW, fwd_write_joints, ih]
    by_cases hj : j = n + 1
    · subst hj; simp
    · by_cases h2 : 1 ≤ j ∧ j ≤ n
      · have : 1 ≤ j ∧ j ≤ n + 1 := ⟨h2.1, by omega⟩
        simp [hj, h2, this]
      · have : ¬ (1 ≤ j ∧ j ≤ n + 1) := by omega
        simp [hj, h2, this]

theorem forwardW_liMi (model : Model R) (q : List R) (n : Nat) (d : Data R) (j : Nat) :
    (crba.forwardW model q n d).liMi.elem j =
      if 1 ≤ j ∧ j ≤ n then model.liMi q j else d.liMi.elem j := by
  induction n with
  | zero =>
    have : ¬ (1 ≤ j ∧ j ≤ 0) := by omega
    rw [if_neg this]; rfl
  | succ n ih =>
    simp only [crba.forwardW, fwd_write_liMi, ih]
    by_cases hj : j = n + 1
    · subst hj; simp
    · by_cases h2 : 1 ≤ j ∧ j ≤ n
      · have : 1 ≤ j ∧ j ≤ n + 1 := ⟨h2.1, by omega⟩
        simp [hj, h2, this]
      · have : ¬ (1 ≤ j ∧ j ≤ n + 1) := by omega
        simp [hj, h2, this]

theorem forwardW_Ycrb (model : Model R) (q : List R) (n : Nat) (d : Data R) (j : Nat) :
    (crba.forwardW model q n d).Ycrb.elem j =
      if 1 ≤ j ∧ j ≤ n then model.inertias j else d.Ycrb.elem j := by
  induction n with
  | zero =>
    have : ¬ (1 ≤ j ∧ j ≤ 0) := by omega
    rw [if_neg this]; rfl
  | succ n ih =>
    simp only [crba.forwardW, fwd_write_Ycrb, ih]
    by_cases hj : j = n + 1
    · subst hj; simp
    · by_cases h2 : 1 ≤ j ∧ j ≤ n
      · have : 1 ≤ j ∧ j ≤ n + 1 := ⟨h2.1, by omega⟩
        simp [hj, h2, this]
      · have : ¬ (1 ≤ j ∧ j ≤ n + 1) := by omega
        simp [hj, h2, this]

theorem backwardW_joints (model : Model R) (n : Nat) (d : Data R) :
    (crba.backwardW model n d).joints = d.joints := by
  induction n generalizing d with
  | zero => rfl
  | succ n ih => rw [crba.backwardW, ih, bwd_write_joints]

theorem backwardW_liMi (model : Model R) (n : Nat) (d : Data R) :
    (crba.backwardW model n d).liMi = d.liMi := by
  induction n generalizing d with
  | zero => rfl
  | succ n ih => rw [crba.backwardW, ih, bwd_write_liMi]

theorem backwardW_nvSubtree (model : Model R) (n : Nat) (d : Data R) :
    (crba.backwardW model n d).nvSubtree = d.nvSubtree := by
  induction n generalizing d with
  | zero => rfl
  | succ n ih => rw [crba.backwardW, ih, bwd_write_nvSubtree]

theorem sizedFor_backwardW {model : Model R} (n : Nat) {d : Data R} (h : d.SizedFor model) :
    (crba.backwardW model n d).SizedFor model := by
  induction n generalizing d with
  | zero => exact h
  | succ n ih => exact ih (sizedFor_bwd_write h _)

theorem backward_eq {model : Model R} (n : Nat) {d : Data R} (h : d.SizedFor model)
    (hb : model.AccessBounds d.nvSubtree) (hn : n < model.nbody) :
    crba.backward model n d = some (crba.backwardW model n d) := by
  induction n generalizing d with
  | zero => rfl
  | succ n ih =>
    rw [crba.backward, bwd_algo_eq h hb hn (by omega), Option.some_bind, crba.backwardW]
    exact ih (sizedFor_bwd_write h _) (by rw [bwd_write_nvSubtree]; exact hb) (by omega)

/-- With buffers sized for the model and the access conditions, every access of
`crba` is in range and `crba` returns the state written by its two loops. -/
theorem crba_eq_crbaW {model : Model R} {d : Data R} (h : d.SizedFor model)
    (hb : model.AccessBounds d.nvSubtree) (q : List R) :
    crba model d q = some (crbaW model d q) := by
  have h0 : model.nbody ≠ 0 := by have := h.1; omega
  have hn : model.nbody - 1 < model.nbody := by have := h.1; omega
  rw [crba, if_neg h0, forward_eq h q _ hn, Option.some_bind, crbaW]
  exact backward_eq _ (sizedFor_forwardW h q _) (by rw [forwardW_nvSubtree]; exact hb) hn

theorem forward_some {model : Model R} {q : List R} (n : Nat) {d d1 : Data R}
    (h : crba.forward model q n d = some d1) : d1 = crba.forwardW model q n d := by
  induction n generalizing d1 with
  | zero => simpa [crba.forward, crba.forwardW, eq_comm] using h
  | succ n ih =>
    rw [crba.forward] at h
    cases hf : crba.forward model q n d with
    | none => rw [hf] at h; simp at h
    | some d2 =>
      rw [hf, Option.some_bind, CrbaForwardStep.algo] at h
      split_ifs at h
      rw [crba.forwardW, ← ih hf]
      exact (Option.some.inj h).symm

theorem backward_some {model : Model R} (n : Nat) {d d1 : Data R}
    (h : crba.backward model n d = some d1) : d1 = crba.backwardW model n d := by
  induction n generalizing d with
  | zero => simpa [crba.backward, crba.backwardW, eq_comm] using h
  | succ n ih =>
    rw [crba.backward, CrbaBackwardStep.algo] at h
    split_ifs at h
    · rw [Option.some_bind] at h
      rw [crba.backwardW]; exact ih h
    · simp at h

/-- Whenever `crba` returns, it returns the state written by its two loops. -/
theorem crba_some_eq {model : Model R} {d d1 : Data R} {q : List R}
    (h : crba model d q = some d1) : d1 = crbaW model d q := by
  rw [crba] at h
  split_ifs at h
  cases hf : crba.forward model q (model.nbody - 1) d with
  | none => rw [hf] at h; simp at h
  | some d2 =>
    rw [hf, Option.some_bind] at h
    rw [crbaW, ← forward_some _ hf]
    exact backward_some _ h

end LoopLemmas

/-! ## The tree -/

section TreeLemmas
variable {R : Type} [CommRing R]

theorem inSubtreeAux_stable {parents : Nat → Nat} {N : Nat}
    (hp : ∀ k, k < N → 1 ≤ k → parents k < k) (i : Nat) :
    ∀ k, k < N → ∀ f, k ≤ f → inSubtreeAux parents i f k = inSubtreeAux parents i k k := by
  intro k
  induction k using Nat.strong_induction_on with
  | _ k ih =>
    intro hk f hf
    cases f with
    | zero =>
      have : k = 0 := by omega
      subst this; rfl
    | succ f =>
      cases k with
      | zero => simp [inSubtreeAux]
      | succ k =>
        have hlt := hp (k + 1) hk (by omega)
        simp only [inSubtreeAux]
        rw [ih _ hlt (by omega) f (by omega), ih _ hlt (by omega) k (by omega)]

theorem Model.inSubtree_self (model : Model R) (i : Nat) : model.inSubtree i i = true := by
  unfold Model.inSubtree
  cases i <;> simp [inSubtreeAux]

theorem Model.inSubtree_iff {model : Model R} (hp : model.ParentsBelow) (i : Nat) {k : Nat}
    (hk : k < model.nbody) :
    model.inSubtree i k = true ↔
      k = i ∨ (0 < k ∧ model.inSubtree i (model.parents k) = true) := by
  unfold Model.inSubtree
  cases k with
  | zero => simp [inSubtreeAux]
  | succ k =>
    have hlt := hp (k + 1) hk (by omega)
    simp only [inSubtreeAux]
    rw [inSubtreeAux_stable (N := model.nbody) (fun k hk h1 => hp k hk h1) i _ (by omega) k
      (by omega)]
    simp

theorem Model.parents_lt_nbody {model : Model R} (hp : model.ParentsBelow) {k : Nat}
    (hk : k < model.nbody) (h1 : 1 ≤ k) : model.parents k < model.nbody :=
  lt_trans (hp k hk h1) hk

theorem Model.le_of_inSubtree {model : Model R} (hp : model.ParentsBelow) (i : Nat) :
    ∀ k, k < model.nbody → model.inSubtree i k = true → i ≤ k := by
  intro k
  induction k using Nat.strong_induction_on with
  | _ k ih =>
    intro hk h
    rcases (Model.inSubtree_iff hp i hk).1 h with h | ⟨h0, h⟩
    · omega
    · have hlt := hp k hk h0
      have := ih _ hlt (by omega) h
      omega

theorem Model.inSubtree_of_parent {model : Model R} (hp : model.ParentsBelow) (i : Nat)
    {k : Nat} (hk : k < model.nbody) (h1 : 1 ≤ k)
    (h : model.inSubtree i (model.parents k) = true) : model.inSubtree i k = true :=
  (Model.inSubtree_iff hp i hk).2 (Or.inr ⟨h1, h⟩)

theorem Model.inSubtree_parent_of_ne {model : Model R} (hp : model.ParentsBelow) {i k : Nat}
    (hk : k < model.nbody) (h : model.inSubtree i k = true) (hne : k ≠ i) :
    0 < k ∧ model.inSubtree i (model.parents k) = true := by
  rcases (Model.inSubtree_iff hp i hk).1 h with h | h
  · exact absurd h hne
  · exact h

/-- The subtree of a child lies in the subtree of its parent. -/
theorem Model.inSubtree_up {model : Model R} (hp : model.ParentsBelow) {c : Nat}
    (hc : c < model.nbody) (hc1 : 1 ≤ c) :
    ∀ k, k < model.nbody → model.inSubtree c k = true →
      model.inSubtree (model.parents c) k = true := by
  intro k
  induction k using Nat.strong_induction_on with
  | _ k ih =>
    intro hk h
    by_cases hkc : k = c
    · subst hkc
      exact Model.inSubtree_of_parent hp _ hk hc1 (Model.inSubtree_self _ _)
    · obtain ⟨h0, h2⟩ := Model.inSubtree_parent_of_ne hp hk h hkc
      have hlt := hp k hk h0
      exact Model.inSubtree_of_parent hp _ hk h0 (ih _ hlt (by omega) h2)

/-- The subtree relation is transitive. -/
theorem Model.inSubtree_trans {model : Model R} (hp : model.ParentsBelow) {i j : Nat}
    (hij : model.inSubtree i j = true) :
    ∀ k, k < model.nbody → model.inSubtree j k = true → model.inSubtree i k = true := by
  intro k
  induction k using Nat.strong_induction_on with
  | _ k ih =>
    intro hk h
    by_cases hkj : k = j
    · subst hkj; exact hij
    · obtain ⟨h0, h2⟩ := Model.inSubtree_parent_of_ne hp hk h hkj
      have hlt := hp k hk h0
      exact Model.inSubtree_of_parent hp _ hk h0 (ih _ hlt (by omega) h2)

/-- A joint of the subtree of `j` other than `j` lies below a child of `j`. -/
theorem Model.exists_child {model : Model R} (hp : model.ParentsBelow) (j : Nat) :
    ∀ k, k < model.nbody → model.inSubtree j k = true → k ≠ j →
      ∃ c, c < model.nbody ∧ 1 ≤ c ∧ model.parents c = j ∧ model.inSubtree c k = true := by
  intro k
  induction k using Nat.strong_induction_on with
  | _ k ih =>
    intro hk h hne
    obtain ⟨h0, h2⟩ := Model.inSubtree_parent_of_ne hp hk h hne
    have hlt := hp k hk h0
    by_cases hpk : model.parents k = j
    · exact ⟨k, hk, h0, hpk, Model.inSubtree_self _ _⟩
    · obtain ⟨c, hc, hc1, hcp, hck⟩ := ih _ hlt (by omega) h2 hpk
      exact ⟨c, hc, hc1, hcp, Model.inSubtree_of_parent hp _ hk h0 hck⟩

/-- The subtrees of two different children of one joint are disjoint. -/
theorem Model.child_unique {model : Model R} (hp : model.ParentsBelow) {j c c2 : Nat}
    (hc : c < model.nbody) (hc1 : 1 ≤ c) (hcp : model.parents c = j)
    (hc2 : c2 < model.nbody) (hc21 : 1 ≤ c2) (hc2p : model.parents c2 = j) :
    ∀ k, k < model.nbody → model.inSubtree c k = true → model.inSubtree c2 k = true →
      c = c2 := by
  intro k
  induction k using Nat.strong_induction_on with
  | _ k ih =>
    intro hk h h2
    have hjc := hp c hc hc1
    have hjc2 := hp c2 hc2 hc21
    rw [hcp] at hjc
    rw [hc2p] at hjc2
    by_cases hkc : k = c
    · by_cases hkc2 : k = c2
      · omega
      · obtain ⟨h0, h3⟩ := Model.inSubtree_parent_of_ne hp hk h2 hkc2
        rw [hkc, hcp] at h3
        have := Model.le_of_inSubtree hp c2 j (by omega) h3
        omega
    · obtain ⟨h0, h3⟩ := Model.inSubtree_parent_of_ne hp hk h hkc
      by_cases hkc2 : k = c2
      · rw [hkc2, hc2p] at h3
        have := Model.le_of_inSubtree hp c j (by omega) h3
        omega
      · obtain ⟨_, h4⟩ := Model.inSubtree_parent_of_ne hp hk h2 hkc2
        have hlt := hp k hk h0
        exact ih _ hlt (by omega) h3 h4

theorem Model.mem_subtree {model : Model R} {i k : Nat} :
    k ∈ model.subtree i ↔ k < model.nbody ∧ model.inSubtree i k = true := by
  simp [Model.subtree]

theorem Model.mem_children {model : Model R} {i c : Nat} :
    c ∈ model.children i ↔ c < model.nbody ∧ 1 ≤ c ∧ model.parents c = i := by
  simp [Model.children]

/-- The subtree of `j` is `j` together with the subtrees of the children of
`j`. -/
theorem Model.subtree_eq {model : Model R} (hp : model.ParentsBelow) {j : Nat}
    (hj : j < model.nbody) :
    model.subtree j = insert j ((model.children j).biUnion model.subtree) := by
  ext k
  simp only [Model.mem_subtree, Finset.mem_insert, Finset.mem_biUnion, Model.mem_children]
  constructor
  · rintro ⟨hk, h⟩
    by_cases hkj : k = j
    · exact Or.inl hkj
    · obtain ⟨c, hc, hc1, hcp, hck⟩ := Model.exists_child hp j k hk h hkj
      exact Or.inr ⟨c, ⟨hc, hc1, hcp⟩, hk, hck⟩
  · rintro (h | ⟨c, ⟨hc, hc1, hcp⟩, hk, hck⟩)
    · subst h; exact ⟨hj, Model.inSubtree_self _ _⟩
    · refine ⟨hk, ?_⟩
      have := Model.inSubtree_up hp hc hc1 k hk hck
      rwa [hcp] at this

/-- A sum over the subtree of `j` splits into the term of `j` and the sums over
the subtrees of its children. -/
theorem Model.sum_subtree {M : Type} [AddCommMonoid M] {model : Model R}
    (hp : model.ParentsBelow) {j : Nat} (hj : j < model.nbody) (f : Nat → M) :
    ∑ k ∈ model.subtree j, f k =
      f j + ∑ c ∈ model.children j, ∑ k ∈ model.subtree c, f k := by
  rw [Model.subtree_eq hp hj, Finset.sum_insert, Finset.sum_biUnion]
  · intro c hc c2 hc2 hne
    rw [Finset.mem_coe, Model.mem_children] at hc hc2
    rw [Function.onFun, Finset.disjoint_left]
    intro k hk hk2
    rw [Model.mem_subtree] at hk hk2
    exact hne (Model.child_unique hp hc.1 hc.2.1 hc.2.2 hc2.1 hc2.2.1 hc2.2.2 k hk.1 hk.2 hk2.2)
  · simp only [Finset.mem_biUnion, Model.mem_children, Model.mem_subtree, not_exists, not_and]
    rintro c ⟨hc, hc1, hcp⟩ _ h
    have h1 := Model.le_of_inSubtree hp c j hj h
    have h2 := hp c hc hc1
    omega

end TreeLemmas

/-! ## Placements along a path -/

section PathLemmas
variable {R : Type} [CommRing R]

theorem SE3.mul_toDualActionMatrix (a b : SE3 R) :
    (a * b).toDualActionMatrix = a.toDualActionMatrix * b.toDualActionMatrix := rfl

theorem SE3.one_toDualActionMatrix : (1 : SE3 R).toDualActionMatrix = 1 := rfl

theorem pathAux_stable {parents : Nat → Nat} {N : Nat}
    (hp : ∀ k, k < N → 1 ≤ k → parents k < k) (A : Nat → SE3 R) (i : Nat) :
    ∀ k, k < N → ∀ f, k ≤ f → pathAux parents A i f k = pathAux parents A i k k := by
  intro k
  induction k using Nat.strong_induction_on with
  | _ k ih =>
    intro hk f hf
    cases f with
    | zero =>
      have : k = 0 := by omega
      subst this; rfl
    | succ f =>
      cases k with
      | zero => simp [pathAux]
      | succ k =>
        have hlt := hp (k + 1) hk (by omega)
        simp only [pathAux]
        rw [ih _ hlt (by omega) f (by omega), ih _ hlt (by omega) k (by omega)]

theorem Model.iMk_self (model : Model R) (q : List R) (i : Nat) : model.iMk q i i = 1 := by
  unfold Model.iMk
  cases i <;> simp [pathAux]

theorem Model.iMk_step {model : Model R} (hp : model.ParentsBelow) (q : List R) {i k : Nat}
    (hk : k < model.nbody) (h1 : 1 ≤ k) (hne : k ≠ i) :
    model.iMk q i k = model.iMk q i (model.parents k) * model.liMi q k := by
  unfold Model.iMk
  cases k with
  | zero => omega
  | succ k =>
    have hlt := hp (k + 1) hk (by omega)
    simp only [pathAux]
    rw [if_neg (by omega),
      pathAux_stable (N := model.nbody) (fun k hk h1 => hp k hk h1) _ i _ (by omega) k (by omega)]

/-- The placement of a joint `k` of the subtree of `j` in the frame of an ancestor
`i` of `j` factors through `j`. -/
theorem Model.iMk_trans {model : Model R} (hp : model.ParentsBelow) (q : List R) {i j : Nat}
    (hj : j < model.nbody) (hij : model.inSubtree i j = true) :
    ∀ k, k < model.nbody → model.inSubtree j k = true →
      (model.iMk q i k).toDualActionMatrix =
        (model.iMk q i j).toDualActionMatrix * (model.iMk q j k).toDualActionMatrix := by
  intro k
  induction k using Nat.strong_induction_on with
  | _ k ih =>
    intro hk h
    by_cases hkj : k = j
    · subst hkj
      rw [Model.iMk_self, SE3.one_toDualActionMatrix, mul_one]
    · obtain ⟨h0, h2⟩ := Model.inSubtree_parent_of_ne hp hk h hkj
      have hlt := hp k hk h0
      have hjk := Model.le_of_inSubtree hp j k hk h
      have hij2 := Model.le_of_inSubtree hp i j hj hij
      have hki : k ≠ i := by omega
      rw [Model.iMk_step hp q hk h0 hki, Model.iMk_step hp q hk h0 hkj,
        SE3.mul_toDualActionMatrix, SE3.mul_toDualActionMatrix, ih _ hlt (by omega) h2,
        mul_assoc]

/-- The placement of a joint of the subtree of a child `c`, seen from the parent
of `c`, starts with `liMi[c]`. -/
theorem Model.iMk_child {model : Model R} (hp : model.ParentsBelow) (q : List R) {c : Nat}
    (hc : c < model.nbody) (hc1 : 1 ≤ c) {k : Nat} (hk : k < model.nbody)
    (h : model.inSubtree c k = true) :
    (model.iMk q (model.parents c) k).toDualActionMatrix =
      (model.liMi q c).toDualActionMatrix * (model.iMk q c k).toDualActionMatrix := by
  have hpc := hp c hc hc1
  have hpar : model.inSubtree (model.parents c) c = true :=
    Model.inSubtree_of_parent hp _ hc hc1 (Model.inSubtree_self _ _)
  rw [Model.iMk_trans hp q hc hpar k hk h, Model.iMk_step hp q hc hc1 (by omega),
    Model.iMk_self, SE3.mul_toDualActionMatrix, SE3.one_toDualActionMatrix, one_mul]

theorem SE3.act_matrix (m : SE3 R) (Y : Inertia R) :
    (m.act Y).matrix = m.toDualActionMatrix * Y.matrix * m.toDualActionMatrixᵀ := rfl

theorem Inertia.add_matrix (a b : Inertia R) : (a + b).matrix = a.matrix + b.matrix := rfl

/-- The subtree inertia of `j` is the inertia of the body of `j` plus the subtree
inertias of the children of `j`, each moved to the frame of `j`. -/
theorem Model.subtreeInertia_eq {model : Model R} (hp : model.ParentsBelow) (q : List R)
    {j : Nat} (hj : j < model.nbody) :
    model.subtreeInertia q j =
      (model.inertias j).matrix + ∑ c ∈ model.children j,
        (model.liMi q c).toDualActionMatrix * model.subtreeInertia q c *
          (model.liMi q c).toDualActionMatrixᵀ := by
  unfold Model.subtreeInertia
  rw [Model.sum_subtree hp hj]
  congr 1
  · rw [Model.iMk_self, SE3.act_matrix, SE3.one_toDualActionMatrix]; simp
  · apply Finset.sum_congr rfl
    intro c hc
    rw [Model.mem_children] at hc
    rw [Finset.mul_sum, Finset.sum_mul]
    apply Finset.sum_congr rfl
    intro k hk
    rw [Model.mem_subtree] at hk
    have := Model.iMk_child hp q hc.1 hc.2.1 hk.1 hk.2
    rw [hc.2.2] at this
    rw [SE3.act_matrix, SE3.act_matrix, this, Matrix.transpose_mul]
    simp only [mul_assoc]

end PathLemmas

/-! ## Composite inertias -/

section CompositeLemmas
variable {R : Type} [CommRing R]

theorem kinematicsAt_forwardW (model : Model R) (q : List R) (d : Data R) :
    (crba.forwardW model q (model.nbody - 1) d).KinematicsAt model q := by
  intro j hj h1
  have : 1 ≤ j ∧ j ≤ model.nbody - 1 := by omega
  rw [forwardW_joints, forwardW_liMi, if_pos this, if_pos this]
  exact ⟨rfl, rfl⟩

theorem kinematicsAt_bwd_write {model : Model R} {q : List R} {d : Data R}
    (h : d.KinematicsAt model q) (i : Nat) :
    (CrbaBackwardStep.write model i d).KinematicsAt model q := by
  intro j hj h1
  rw [bwd_write_joints, bwd_write_liMi]
  exact h j hj h1

theorem kinematicsAt_backwardW {model : Model R} {q : List R} (n : Nat) {d : Data R}
    (h : d.KinematicsAt model q) : (crba.backwardW model n d).KinematicsAt model q := by
  intro j hj h1
  rw [backwardW_joints, backwardW_liMi]
  exact h j hj h1

theorem compositeUpTo_forwardW {model : Model R} (q : List R) (d : Data R) :
    (crba.forwardW model q (model.nbody - 1) d).CompositeUpTo model q (model.nbody - 1) := by
  intro j hj h1
  have : 1 ≤ j ∧ j ≤ model.nbody - 1 := by omega
  rw [forwardW_Ycrb, if_pos this, Finset.sum_eq_zero, add_zero]
  intro c hc
  rw [Model.mem_children] at hc
  rw [if_neg (by omega)]

/-- One backward step keeps the invariant on the composite inertias. -/
theorem compositeUpTo_bwd_write {model : Model R} (hp : model.ParentsBelow) {q : List R}
    {d : Data R} (hk : d.KinematicsAt model q) {n : Nat} (hn : n + 1 < model.nbody)
    (h : d.CompositeUpTo model q (n + 1)) :
    (CrbaBackwardStep.write model (n + 1) d).CompositeUpTo model q n := by
  intro j hj h1
  have hpt := hp (n + 1) hn (by omega)
  have hsum : ∀ c ∈ model.children j,
      (if n < c then ((model.liMi q c).act
          ((CrbaBackwardStep.write model (n + 1) d).Ycrb.elem c)).matrix else 0) =
        (if c = n + 1 then ((model.liMi q (n + 1)).act (d.Ycrb.elem (n + 1))).matrix else 0) +
        (if n + 1 < c then ((model.liMi q c).act (d.Ycrb.elem c)).matrix else 0) := by
    intro c _
    by_cases hc : n < c
    · have hne : ¬ (0 < model.parents (n + 1) ∧ c = model.parents (n + 1)) := by omega
      rw [if_pos hc, bwd_write_Ycrb, if_neg hne]
      by_cases hc2 : c = n + 1
      · subst hc2; simp
      · rw [if_neg hc2, if_pos (by omega), zero_add]
    · rw [if_neg hc, if_neg (by omega), if_neg (by omega), add_zero]
  rw [Finset.sum_congr rfl hsum, Finset.sum_add_distrib, Finset.sum_ite_eq', bwd_write_Ycrb]
  by_cases hjp : j = model.parents (n + 1)
  · have hmem : n + 1 ∈ model.children j := by
      rw [Model.mem_children]; exact ⟨hn, by omega, hjp.symm⟩
    rw [if_pos ⟨by omega, hjp⟩, if_pos hmem, Inertia.add_matrix, h j hj h1,
      (hk (n + 1) hn (by omega)).2]
    abel
  · have hmem : n + 1 ∉ model.children j := by
      rw [Model.mem_children]; intro hc; exact hjp hc.2.2.symm
    rw [if_neg (fun hc => hjp hc.2), if_neg hmem, zero_add]
    exact h j hj h1

theorem compositeUpTo_backwardW {model : Model R} (hp : model.ParentsBelow) {q : List R}
    (n : Nat) {d : Data R} (hk : d.KinematicsAt model q) (hn : n < model.nbody)
    (h : d.CompositeUpTo model q n) :
    (crba.backwardW model n d).CompositeUpTo model q 0 := by
  induction n generalizing d with
  | zero => exact h
  | succ n ih =>
    rw [crba.backwardW]
    exact ih (kinematicsAt_bwd_write hk _) (by omega) (compositeUpTo_bwd_write hp hk hn h)

/-- In a state where the joints `> t` are done, the composite inertia of every
joint `j ≥ t` is complete: it is the inertia of the subtree of `j`. -/
theorem Ycrb_eq_subtreeInertia {model : Model R} (hp : model.ParentsBelow) {q : List R}
    {d : Data R} {t : Nat} (h : d.CompositeUpTo model q t) :
    ∀ m j, j < model.nbody → 1 ≤ j → t ≤ j → model.nbody - j ≤ m →
      (d.Ycrb.elem j).matrix = model.subtreeInertia q j := by
  intro m
  induction m with
  | zero => intro j hj _ _ hm; omega
  | succ m ih =>
    intro j hj h1 ht hm
    rw [h j hj h1, Model.subtreeInertia_eq hp q hj]
    congr 1
    apply Finset.sum_congr rfl
    intro c hc
    rw [Model.mem_children] at hc
    have hjc := hp c hc.1 hc.2.1
    rw [hc.2.2] at hjc
    rw [if_pos (by omega), SE3.act_matrix, ih c hc.1 hc.2.1 (by omega) (by omega)]

end CompositeLemmas

/-! ## Force buffers and matrix blocks -/

section ForceLemmas
variable {R : Type} [CommRing R]

theorem Model.SubtreeColumns.mem {model : Model R} {nvS : Nat → Nat}
    (h : model.SubtreeColumns nvS) {t j b : Nat} (ht : t < model.nbody) (ht1 : 1 ≤ t)
    (hj : j < model.nbody) (hj1 : 1 ≤ j) (hb : b < (model.joints j).nv)
    (hs : model.inSubtree t j = true) :
    model.inSubtreeCols nvS t ((model.joints j).idx_v + b) :=
  (h t ht j hj ⟨ht1, hj1⟩ b hb).2 hs

/-- Two different joints own different columns. -/
theorem Model.SubtreeColumns.disjoint {model : Model R} (hp : model.ParentsBelow)
    {nvS : Nat → Nat} (h : model.SubtreeColumns nvS) {j j2 b b2 : Nat}
    (hj : j < model.nbody) (hj1 : 1 ≤ j) (hb : b < (model.joints j).nv)
    (hj2 : j2 < model.nbody) (hj21 : 1 ≤ j2) (hb2 : b2 < (model.joints j2).nv)
    (heq : (model.joints j).idx_v + b = (model.joints j2).idx_v + b2) : j = j2 := by
  have h1 := h.mem hj hj1 hj hj1 hb (Model.inSubtree_self _ _)
  have h2 := h.mem hj2 hj21 hj2 hj21 hb2 (Model.inSubtree_self _ _)
  have h3 : model.inSubtree j j2 = true := by
    rw [← h j hj j2 hj2 ⟨hj1, hj21⟩ b2 hb2, ← heq]; exact h1
  have h4 : model.inSubtree j2 j = true := by
    rw [← h j2 hj2 j hj ⟨hj21, hj1⟩ b hb, heq]; exact h2
  have := Model.le_of_inSubtree hp j j2 hj2 h3
  have := Model.le_of_inSubtree hp j2 j hj h4
  omega

theorem Model.SubtreeColumns.not_own {model : Model R} (hp : model.ParentsBelow)
    {nvS : Nat → Nat} (h : model.SubtreeColumns nvS) {t j b : Nat}
    (ht : t < model.nbody) (ht1 : 1 ≤ t)
    (hj : j < model.nbody) (hj1 : 1 ≤ j) (hb : b < (model.joints j).nv) (hne : j ≠ t) :
    ¬ ((model.joints t).idx_v ≤ (model.joints j).idx_v + b ∧
      (model.joints j).idx_v + b < (model.joints t).idx_v + (model.joints t).nv) := by
  rintro ⟨h1, h2⟩
  have heq : (model.joints j).idx_v + b =
      (model.joints t).idx_v + ((model.joints j).idx_v + b - (model.joints t).idx_v) := by omega
  exact hne (h.disjoint hp hj hj1 hb ht ht1 (by omega) heq)

/-- In a state where the joints `> t` are done, the columns of the subtree of `t`
in `Fcrb[t]` are final once the own columns of `t` are written. -/
theorem ownForce_eq {model : Model R} (hp : model.ParentsBelow) {q : List R} {d : Data R}
    (hcols : model.SubtreeColumns d.nvSubtree)
    (hk : d.KinematicsAt model q) {t : Nat} (ht : t < model.nbody) (ht1 : 1 ≤ t)
    (hY : d.CompositeUpTo model q t) (hF : d.ForcesUpTo model q t)
    {j : Nat} (hj : j < model.nbody) (hs : model.inSubtree t j = true) {b : Nat}
    (hb : b < (model.joints j).nv) :
    ownForce model t d ((model.joints j).idx_v + b) = model.forceCol q t j b := by
  have hj1 : 1 ≤ j := by have := Model.le_of_inSubtree hp t j hj hs; omega
  unfold ownForce
  by_cases hjt : j = t
  · subst hjt
    rw [if_pos ⟨by omega, by omega⟩, Model.forceCol, Model.iMk_self,
      SE3.one_toDualActionMatrix, Matrix.one_mulVec, Inertia.mulMotion,
      Ycrb_eq_subtreeInertia hp hY _ j hj hj1 le_rfl le_rfl, (hk j hj hj1).1]
    simp [Model.S]
  · rw [if_neg (hcols.not_own hp ht ht1 hj hj1 hb hjt)]
    obtain ⟨c, hc, hc1, hcp, hck⟩ := Model.exists_child hp t j hj hs hjt
    have hlt := hp c hc hc1
    have := (hF c hc (by omega) j hj hck b hb).2 (by omega)
    rw [hcp] at this
    exact this

/-- One backward step keeps the invariant on the force buffers. -/
theorem forcesUpTo_bwd_write {model : Model R} (hp : model.ParentsBelow) {q : List R}
    {d : Data R} (hcols : model.SubtreeColumns d.nvSubtree)
    (hk : d.KinematicsAt model q) {n : Nat} (hn : n + 1 < model.nbody)
    (hY : d.CompositeUpTo model q (n + 1)) (hF : d.ForcesUpTo model q (n + 1)) :
    (CrbaBackwardStep.write model (n + 1) d).ForcesUpTo model q n := by
  have hpt := hp (n + 1) hn (by omega)
  have hpi : model.parents (n + 1) ≠ n + 1 := by omega
  intro c hc hnc j hj hs b hb
  have hjc := Model.le_of_inSubtree hp c j hj hs
  have hj1 : 1 ≤ j := by omega
  by_cases hct : c = n + 1
  · subst hct
    have hown := ownForce_eq hp hcols hk hn (by omega) hY hF hj hs hb
    constructor
    · rw [bwd_write_Fcrb model _ d hpi, if_neg (by omega), if_pos rfl, hown]
    · intro h0
      have hmem := hcols.mem hn (by omega) hj hj1 hb hs
      rw [bwd_write_Fcrb model _ d hpi, if_pos ⟨h0, rfl⟩, if_pos hmem, hown,
        (hk _ hn (by omega)).2, SE3.actForce, Model.forceCol, Model.forceCol,
        Model.iMk_child hp q hn (by omega) hj hs, Matrix.mulVec_mulVec]
  · have hgt : n + 1 < c := by omega
    obtain ⟨hF1, hF2⟩ := hF c hc hgt j hj hs b hb
    have hpc := hp c hc (by omega)
    constructor
    · rw [bwd_write_Fcrb model _ d hpi, if_neg (by omega), if_neg hct, hF1]
    · intro h0
      rw [bwd_write_Fcrb model _ d hpi]
      by_cases hsib : 0 < model.parents (n + 1) ∧ model.parents c = model.parents (n + 1)
      · rw [if_pos hsib]
        have hnot : ¬ model.inSubtreeCols d.nvSubtree (n + 1) ((model.joints j).idx_v + b) := by
          rw [hcols (n + 1) hn j hj ⟨by omega, hj1⟩ b hb]
          intro hs2
          exact hct (Model.child_unique hp hc (by omega) hsib.2 hn (by omega) rfl j hj hs hs2)
        rw [if_neg hnot]
        exact hF2 h0
      · rw [if_neg hsib]
        by_cases hpc2 : model.parents c = n + 1
        · rw [if_pos hpc2, ownForce,
            if_neg (hcols.not_own hp hn (by omega) hj hj1 hb (by omega)), ← hpc2]
          exact hF2 h0
        · rw [if_neg hpc2]
          exact hF2 h0

/-- One backward step keeps the invariant on the inertia matrix. -/
theorem matrixUpTo_bwd_write {model : Model R} (hp : model.ParentsBelow) {q : List R}
    {d : Data R} (hcols : model.SubtreeColumns d.nvSubtree)
    (hk : d.KinematicsAt model q) {n : Nat} (hn : n + 1 < model.nbody)
    (hY : d.CompositeUpTo model q (n + 1)) (hF : d.ForcesUpTo model q (n + 1))
    (hM : d.MatrixUpTo model q (n + 1)) :
    (CrbaBackwardStep.write model (n + 1) d).MatrixUpTo model q n := by
  intro c hc hnc a ha j hj hs b hb
  have hjc := Model.le_of_inSubtree hp c j hj hs
  have hj1 : 1 ≤ j := by omega
  rw [bwd_write_M]
  by_cases hct : c = n + 1
  · subst hct
    have hown := ownForce_eq hp hcols hk hn (by omega) hY hF hj hs hb
    have hmem := hcols.mem hn (by omega) hj hj1 hb hs
    rw [if_pos ⟨⟨by omega, by omega⟩, hmem⟩, hown, (hk _ hn (by omega)).1]
    simp [Model.S]
  · have hrow := hcols.not_own hp hn (by omega) hc (by omega) ha hct
    rw [if_neg (fun h => hrow h.1)]
    exact hM c hc (by omega) a ha j hj hs b hb

end ForceLemmas

/-! ## The whole backward loop -/

section BackwardLemmas
variable {R : Type} [CommRing R]

theorem backwardW_invariants {model : Model R} (hp : model.ParentsBelow) {q : List R}
    (n : Nat) {d : Data R} (hcols : model.SubtreeColumns d.nvSubtree)
    (hk : d.KinematicsAt model q) (hn : n < model.nbody)
    (hY : d.CompositeUpTo model q n) (hF : d.ForcesUpTo model q n)
    (hM : d.MatrixUpTo model q n) :
    (crba.backwardW model n d).ForcesUpTo model q 0 ∧
      (crba.backwardW model n d).MatrixUpTo model q 0 := by
  induction n generalizing d with
  | zero => exact ⟨hF, hM⟩
  | succ n ih =>
    rw [crba.backwardW]
    exact ih (by rw [bwd_write_nvSubtree]; exact hcols) (kinematicsAt_bwd_write hk _)
      (by omega) (compositeUpTo_bwd_write hp hk hn hY)
      (forcesUpTo_bwd_write hp hcols hk hn hY hF)
      (matrixUpTo_bwd_write hp hcols hk hn hY hF hM)

theorem crbaW_kinematicsAt (model : Model R) (d : Data R) (q : List R) :
    (crbaW model d q).KinematicsAt model q :=
  kinematicsAt_backwardW _ (kinematicsAt_forwardW model q d)

theorem crbaW_compositeUpTo {model : Model R} (hp : model.ParentsBelow) (d : Data R)
    (q : List R) (h0 : 0 < model.nbody) : (crbaW model d q).CompositeUpTo model q 0 :=
  compositeUpTo_backwardW hp _ (kinematicsAt_forwardW model q d) (by omega)
    (compositeUpTo_forwardW q d)

theorem crbaW_invariants {model : Model R} (hp : model.ParentsBelow) {d : Data R}
    (hcols : model.SubtreeColumns d.nvSubtree) (q : List R) (h0 : 0 < model.nbody) :
    (crbaW model d q).ForcesUpTo model q 0 ∧ (crbaW model d q).MatrixUpTo model q 0 := by
  apply backwardW_invariants hp _ (by rw [forwardW_nvSubtree]; exact hcols)
    (kinematicsAt_forwardW model q d) (by omega) (compositeUpTo_forwardW q d)
  · intro c hc hnc; omega
  · intro c hc hnc; omega

theorem sum_mulVec_aux {ι : Type} (s : Finset ι) (f : ι → Matrix6 R) (v : Vector6 R) :
    (∑ k ∈ s, f k) *ᵥ v = ∑ k ∈ s, f k *ᵥ v :=
  map_sum (Matrix.mulVec.addMonoidHomLeft v) f s

theorem mulVec_sum_aux {ι : Type} (s : Finset ι) (A : Matrix6 R) (f : ι → Vector6 R) :
    A *ᵥ (∑ k ∈ s, f k) = ∑ k ∈ s, A *ᵥ f k := by
  classical
  induction s using Finset.induction_on with
  | empty => simp
  | insert hx ih => rw [Finset.sum_insert hx, Finset.sum_insert hx, Matrix.mulVec_add, ih]

theorem dotProduct_sum_aux {ι : Type} (s : Finset ι) (u : Vector6 R) (f : ι → Vector6 R) :
    u ⬝ᵥ (∑ k ∈ s, f k) = ∑ k ∈ s, u ⬝ᵥ f k := by
  classical
  induction s using Finset.induction_on with
  | empty => simp
  | insert hx ih => rw [Finset.sum_insert hx, Finset.sum_insert hx, Matrix.dotProduct_add, ih]

theorem transpose_mulVec_dot (A : Matrix6 R) (u w : Vector6 R) :
    (Aᵀ *ᵥ u) ⬝ᵥ w = u ⬝ᵥ (A *ᵥ w) := by
  rw [Matrix.mulVec_transpose, ← Matrix.dotProduct_mulVec]

/-- The entry computed from the force columns is the brute-force kinetic-energy
entry. -/
theorem dot_forceCol_eq_kineticEnergyEntry {model : Model R} (hp : model.ParentsBelow)
    (q : List R) {i j : Nat} (hj : j < model.nbody) (hs : model.inSubtree i j = true)
    (a b : Nat) :
    model.S q i a ⬝ᵥ model.forceCol q i j b = model.kineticEnergyEntry q i a j b := by
  unfold Model.forceCol Model.kineticEnergyEntry Model.subtreeInertia Model.jacobianCol
  rw [sum_mulVec_aux, mulVec_sum_aux, dotProduct_sum_aux]
  apply Finset.sum_congr rfl
  intro k hk
  rw [Model.mem_subtree] at hk
  rw [Model.iMk_trans hp q hj hs k hk.1 hk.2, SE3.act_matrix, Inertia.mulMotion,
    transpose_mulVec_dot]
  simp only [Matrix.mulVec_mulVec, Matrix.mul_assoc]

/-- Main lemma: with subtree columns that hold exactly the degrees of freedom of
the subtree, every entry of a block that couples a joint with a joint of its
subtree is the brute-force kinetic-energy entry. -/
theorem crbaW_M_eq_kineticEnergyEntry {model : Model R} (hp : model.ParentsBelow)
    {d : Data R} (hcols : model.SubtreeColumns d.nvSubtree) (q : List R)
    {i j a b : Nat} (hi : i < model.nbody) (hi1 : 1 ≤ i) (ha : a < (model.joints i).nv)
    (hj : j < model.nbody) (hs : model.inSubtree i j = true) (hb : b < (model.joints j).nv) :
    (crbaW model d q).M.coeff ((model.joints i).idx_v + a) ((model.joints j).idx_v + b) =
      model.kineticEnergyEntry q i a j b := by
  rw [(crbaW_invariants hp hcols q (by omega)).2 i hi (by omega) a ha j hj hs b hb,
    dot_forceCol_eq_kineticEnergyEntry hp q hj hs]

end BackwardLemmas

/-! ## Index bookkeeping -/

section IndexLemmas
variable {R : Type} [CommRing R]

theorem Model.dofBefore_succ (model : Model R) {j : Nat} (hj : 1 ≤ j) :
    model.dofBefore (j + 1) = model.dofBefore j + (model.joints j).nv := by
  unfold Model.dofBefore
  rw [Finset.sum_Ico_succ_top hj]

theorem Model.dofBefore_add (model : Model R) {t e : Nat} (ht : 1 ≤ t) (hte : t ≤ e) :
    model.dofBefore e = model.dofBefore t + ∑ k ∈ Finset.Ico t e, (model.joints k).nv := by
  unfold Model.dofBefore
  rw [Finset.sum_Ico_consecutive _ ht hte]

theorem Model.dofBefore_mono (model : Model R) {i j : Nat} (h : i ≤ j) :
    model.dofBefore i ≤ model.dofBefore j := by
  unfold Model.dofBefore
  exact Finset.sum_le_sum_of_subset (Finset.Ico_subset_Ico_right h)

theorem Model.TreeInvariants.idx_v_eq {model : Model R} {nvS : Nat → Nat}
    (h : model.TreeInvariants nvS) :
    ∀ j, 1 ≤ j → j < model.nbody → (model.joints j).idx_v = model.dofBefore j := by
  intro j
  induction j with
  | zero => intro h1; omega
  | succ j ih =>
    intro _ hj
    by_cases hj0 : j = 0
    · subst hj0
      rw [h.2.1 (by omega)]
      simp [Model.dofBefore]
    · rw [h.2.2.1 j (by omega) ⟨by omega, hj⟩, ih (by omega) (by omega),
        Model.dofBefore_succ _ (by omega)]

theorem Model.TreeInvariants.nv_eq {model : Model R} {nvS : Nat → Nat}
    (h : model.TreeInvariants nvS) : model.nv = model.dofBefore model.nbody := by
  rw [h.2.2.2.2, Model.dofBefore]
  apply Finset.sum_congr _ (fun _ _ => rfl)
  ext k
  simp only [Finset.mem_filter, Finset.mem_range, Finset.mem_Ico]
  omega

/-- The index conditions follow from the invariants of the spec. -/
theorem Model.TreeInvariants.indexBounds {model : Model R} {nvS : Nat → Nat}
    (h : model.TreeInvariants nvS) : model.IndexBounds nvS := by
  intro i hi h1
  have hsub : ∀ k ∈ model.subtree i, i ≤ k ∧ k < model.nbody := by
    intro k hk
    rw [Model.mem_subtree] at hk
    exact ⟨Model.le_of_inSubtree h.1 i k hk.1 hk.2, hk.1⟩
  refine ⟨h.1 i hi h1, ?_, ?_⟩
  · rw [h.2.2.2.1 i hi h1]
    have hmem : i ∈ model.subtree i := Model.mem_subtree.2 ⟨hi, Model.inSubtree_self _ _⟩
    have := Finset.single_le_sum (f := fun k => (model.joints k).nv)
      (fun _ _ => Nat.zero_le _) hmem
    simp only at this
    omega
  · rw [h.idx_v_eq i h1 hi, h.2.2.2.1 i hi h1, h.nv_eq,
      Model.dofBefore_add model h1 (le_of_lt hi)]
    apply Nat.add_le_add_left
    apply Finset.sum_le_sum_of_subset
    intro k hk
    rw [Finset.mem_Ico]
    exact hsub k hk

/-- With depth-first numbering the subtree of `t` is an interval of indices. -/
theorem Model.DepthFirst.subtree_eq_Ico {model : Model R} (hp : model.ParentsBelow)
    (hd : model.DepthFirst) {t : Nat} (ht : t < model.nbody) (ht1 : 1 ≤ t) :
    ∃ e, t < e ∧ e ≤ model.nbody ∧ model.subtree t = Finset.Ico t e := by
  classical
  have hex : ∃ m, t ≤ m ∧ (m = model.nbody ∨ model.inSubtree t m ≠ true) :=
    ⟨model.nbody, le_of_lt ht, Or.inl rfl⟩
  have hspec := Nat.find_spec hex
  have hmin := fun m (hm : m < Nat.find hex) => Nat.find_min hex hm
  have hle : Nat.find hex ≤ model.nbody := Nat.find_min' hex ⟨le_of_lt ht, Or.inl rfl⟩
  have hin : ∀ k, t ≤ k → k < Nat.find hex → model.inSubtree t k = true := by
    intro k hk hk2
    by_contra hc
    exact hmin k hk2 ⟨hk, Or.inr hc⟩
  have hte : t < Nat.find hex := by
    rcases Nat.lt_or_ge t (Nat.find hex) with h | h
    · exact h
    · have heq : Nat.find hex = t := le_antisymm h hspec.1
      rcases hspec.2 with h2 | h2
      · omega
      · rw [heq] at h2; exact absurd (Model.inSubtree_self model t) h2
  refine ⟨Nat.find hex, hte, hle, ?_⟩
  ext k
  rw [Model.mem_subtree, Finset.mem_Ico]
  constructor
  · rintro ⟨hk, hs⟩
    refine ⟨Model.le_of_inSubtree hp t k hk hs, ?_⟩
    by_contra hc
    rcases hspec.2 with h2 | h2
    · omega
    · exact h2 (hd t ht _ (by omega) k hk ⟨ht1, hspec.1, by omega, hs⟩)
  · rintro ⟨hk, hk2⟩
    exact ⟨by omega, hin k hk hk2⟩

/-- With depth-first numbering, the invariants of the spec make the column range
of every joint hold exactly the degrees of freedom of its subtree. -/
theorem Model.TreeInvariants.subtreeColumns {model : Model R} {nvS : Nat → Nat}
    (h : model.TreeInvariants nvS) (hd : model.DepthFirst) : model.SubtreeColumns nvS := by
  intro t ht j hj h1 b hb
  obtain ⟨e, hte, heN, hsub⟩ := hd.subtree_eq_Ico h.1 ht h1.1
  have hnvS : (model.joints t).idx_v + nvS t = model.dofBefore e := by
    rw [h.idx_v_eq t h1.1 ht, h.2.2.2.1 t ht h1.1, hsub,
      ← Model.dofBefore_add model h1.1 (le_of_lt hte)]
  have hjs := Model.dofBefore_succ model h1.2
  have hmem : model.inSubtree t j = true ↔ t ≤ j ∧ j < e := by
    have := Finset.ext_iff.1 hsub j
    rw [Model.mem_subtree, Finset.mem_Ico] at this
    constructor
    · intro hs; exact this.1 ⟨hj, hs⟩
    · intro hs; exact (this.2 hs).2
  unfold Model.inSubtreeCols
  rw [hmem, hnvS, h.idx_v_eq t h1.1 ht, h.idx_v_eq j h1.2 hj]
  constructor
  · rintro ⟨h2, h3⟩
    constructor
    · by_contra hc
      have := Model.dofBefore_mono model (show j + 1 ≤ t by omega)
      omega
    · by_contra hc
      have := Model.dofBefore_mono model (show e ≤ j by omega)
      omega
  · rintro ⟨h2, h3⟩
    have := Model.dofBefore_mono model h2
    have := Model.dofBefore_mono model (show j + 1 ≤ e by omega)
    omega

theorem Model.exists_joint_of_col (model : Model R) {t : Nat} (ht : 1 ≤ t) (c : Nat) :
    ∀ e, t ≤ e → model.dofBefore t ≤ c → c < model.dofBefore e →
      ∃ j, t ≤ j ∧ j < e ∧ model.dofBefore j ≤ c ∧ c < model.dofBefore (j + 1) := by
  intro e
  induction e with
  | zero => intro h; omega
  | succ e ih =>
    intro hte h1 h2
    by_cases hc : c < model.dofBefore e
    · have hte2 : t ≤ e := by
        by_contra hcon
        have : e + 1 = t := by omega
        rw [← this] at h1
        have := Model.dofBefore_mono model (Nat.le_succ e)
        omega
      obtain ⟨j, hj1, hj2, hj3⟩ := ih hte2 h1 hc
      exact ⟨j, hj1, by omega, hj3⟩
    · have hte2 : t ≤ e := by
        by_contra hcon
        have : e + 1 = t := by omega
        rw [← this] at h1
        omega
      exact ⟨e, hte2, by omega, by omega, h2⟩

/-- With depth-first numbering every column of the block of a joint is a degree
of freedom of a joint of its subtree. -/
theorem Model.TreeInvariants.col_covered {model : Model R} {nvS : Nat → Nat}
    (h : model.TreeInvariants nvS) (hd : model.DepthFirst) {t : Nat} (ht : t < model.nbody)
    (ht1 : 1 ≤ t) {c : Nat} (hc : model.inSubtreeCols nvS t c) :
    ∃ j b, j < model.nbody ∧ model.inSubtree t j = true ∧ b < (model.joints j).nv ∧
      c = (model.joints j).idx_v + b := by
  obtain ⟨e, hte, heN, hsub⟩ := hd.subtree_eq_Ico h.1 ht ht1
  have hnvS : (model.joints t).idx_v + nvS t = model.dofBefore e := by
    rw [h.idx_v_eq t ht1 ht, h.2.2.2.1 t ht ht1, hsub,
      ← Model.dofBefore_add model ht1 (le_of_lt hte)]
  obtain ⟨hc1, hc2⟩ := hc
  rw [hnvS] at hc2
  rw [h.idx_v_eq t ht1 ht] at hc1
  obtain ⟨j, hj1, hj2, hj3, hj4⟩ := model.exists_joint_of_col ht1 c e (le_of_lt hte) hc1 hc2
  have hjN : j < model.nbody := by omega
  have hmem : j ∈ model.subtree t := by rw [hsub, Finset.mem_Ico]; exact ⟨hj1, hj2⟩
  rw [Model.dofBefore_succ model (by omega)] at hj4
  refine ⟨j, c - model.dofBefore j, hjN, (Model.mem_subtree.1 hmem).2, by omega, ?_⟩
  rw [h.idx_v_eq j (by omega) hjN]
  omega

end IndexLemmas

/-! ## What the backward loop leaves alone -/

section FrameLemmas
variable {R : Type} [CommRing R]

/-- The backward loop changes no coefficient of `M` outside the blocks of the
joints it visits. -/
theorem backwardW_M_frame (model : Model R) (n : Nat) (d : Data R) (r c : Nat)
    (h : ∀ i, 1 ≤ i → i ≤ n →
      ¬ (model.inJointCols i r ∧ model.inSubtreeCols d.nvSubtree i c)) :
    (crba.backwardW model n d).M.coeff r c = d.M.coeff r c := by
  induction n generalizing d with
  | zero => rfl
  | succ n ih =>
    rw [crba.backwardW, ih, bwd_write_M, if_neg (h (n + 1) (by omega) le_rfl)]
    intro i h1 h2
    rw [bwd_write_nvSubtree]
    exact h i h1 (by omega)

theorem crbaW_M_frame (model : Model R) (d : Data R) (q : List R) (r c : Nat)
    (h : ∀ i, 1 ≤ i → i < model.nbody →
      ¬ (model.inJointCols i r ∧ model.inSubtreeCols d.nvSubtree i c)) :
    (crbaW model d q).M.coeff r c = d.M.coeff r c := by
  rw [crbaW, backwardW_M_frame, forwardW_M]
  intro i h1 h2
  rw [forwardW_nvSubtree]
  exact h i h1 (by omega)

theorem crbaW_M_rows (model : Model R) (d : Data R) (q : List R) :
    (crbaW model d q).M.rows = d.M.rows := by
  have : ∀ n (d : Data R), (crba.backwardW model n d).M.rows = d.M.rows := by
    intro n
    induction n with
    | zero => intro d; rfl
    | succ n ih => intro d; rw [crba.backwardW, ih, bwd_write_M_rows]
  rw [crbaW, this, forwardW_M]

theorem crbaW_M_cols (model : Model R) (d : Data R) (q : List R) :
    (crbaW model d q).M.cols = d.M.cols := by
  have : ∀ n (d : Data R), (crba.backwardW model n d).M.cols = d.M.cols := by
    intro n
    induction n with
    | zero => intro d; rfl
    | succ n ih => intro d; rw [crba.backwardW, ih, bwd_write_M_cols]
  rw [crbaW, this, forwardW_M]

end FrameLemmas

/-! ## Diagonal blocks -/

section DiagonalLemmas
variable {R : Type} [CommRing R]

/-- Under the invariants of the spec two different joints own different
columns. -/
theorem Model.TreeInvariants.not_inJointCols {model : Model R} {nvS : Nat → Nat}
    (h : model.TreeInvariants nvS) {t j b : Nat} (ht : t < model.nbody) (ht1 : 1 ≤ t)
    (hj : j < model.nbody) (hj1 : 1 ≤ j) (hb : b < (model.joints j).nv) (hne : j ≠ t) :
    ¬ model.inJointCols t ((model.joints j).idx_v + b) := by
  rintro ⟨h1, h2⟩
  rw [h.idx_v_eq t ht1 ht, h.idx_v_eq j hj1 hj] at h1 h2
  have hjs := Model.dofBefore_succ model hj1
  have hts := Model.dofBefore_succ model ht1
  rcases Nat.lt_or_gt_of_ne hne with hlt | hgt
  · have := Model.dofBefore_mono model (show j + 1 ≤ t by omega)
    omega
  · have := Model.dofBefore_mono model (show t + 1 ≤ j by omega)
    omega

/-- The diagonal block of every joint visited by the backward loop: its entries
are those of the subtree inertia projected on the motion subspace of the
joint. -/
theorem backwardW_M_diag {model : Model R} {q : List R} (n : Nat) {d : Data R}
    (hT : model.TreeInvariants d.nvSubtree) (hk : d.KinematicsAt model q)
    (hn : n < model.nbody) (hY : d.CompositeUpTo model q n) :
    ∀ c, 1 ≤ c → c ≤ n → ∀ a, a < (model.joints c).nv → ∀ b, b < (model.joints c).nv →
      (crba.backwardW model n d).M.coeff ((model.joints c).idx_v + a)
          ((model.joints c).idx_v + b) =
        model.S q c a ⬝ᵥ (model.subtreeInertia q c *ᵥ model.S q c b) := by
  induction n generalizing d with
  | zero => intro c h1 h2; omega
  | succ n ih =>
    intro c h1 hc a ha b hb
    have hT2 : model.TreeInvariants (CrbaBackwardStep.write model (n + 1) d).nvSubtree := by
      rw [bwd_write_nvSubtree]; exact hT
    rw [crba.backwardW]
    by_cases hcn : c = n + 1
    · subst hcn
      have hbnd := (hT.indexBounds (n + 1) hn h1).2.1
      rw [backwardW_M_frame, bwd_write_M, if_pos ⟨⟨by omega, by omega⟩, by omega, by omega⟩,
        ownForce, if_pos ⟨by omega, by omega⟩, (hk (n + 1) hn h1).1, Inertia.mulMotion,
        Ycrb_eq_subtreeInertia hT.1 hY _ (n + 1) hn h1 le_rfl le_rfl]
      · simp [Model.S]
      · intro i hi1 hi2 hmem
        exact hT.not_inJointCols (show i < model.nbody by omega) hi1 hn h1 ha (by omega) hmem.1
    · exact ih hT2 (kinematicsAt_bwd_write hk _) (by omega)
        (compositeUpTo_bwd_write hT.1 hk hn hY) c h1 (by omega) a ha b hb

theorem crbaW_M_diag {model : Model R} (d : Data R) (q : List R)
    (hT : model.TreeInvariants d.nvSubtree) (h0 : 0 < model.nbody) :
    ∀ c, 1 ≤ c → c < model.nbody → ∀ a, a < (model.joints c).nv →
      ∀ b, b < (model.joints c).nv →
      (crbaW model d q).M.coeff ((model.joints c).idx_v + a) ((model.joints c).idx_v + b) =
        model.S q c a ⬝ᵥ (model.subtreeInertia q c *ᵥ model.S q c b) := by
  intro c h1 hc
  exact backwardW_M_diag _ (by rw [forwardW_nvSubtree]; exact hT)
    (kinematicsAt_forwardW model q d) (by omega) (compositeUpTo_forwardW q d) c h1 (by omega)

theorem sum_dotProduct_aux {ι : Type} (s : Finset ι) (f : ι → Vector6 R) (u : Vector6 R) :
    (∑ k ∈ s, f k) ⬝ᵥ u = ∑ k ∈ s, f k ⬝ᵥ u := by
  classical
  induction s using Finset.induction_on with
  | empty => simp
  | insert hx ih => rw [Finset.sum_insert hx, Finset.sum_insert hx, Matrix.add_dotProduct, ih]

/-- The quadratic form of a block of entries `S_a ⬝ Y S_b` is the quadratic form
of `Y` at the combination of the columns `S_a`. -/
theorem quadratic_form_block (Y : Matrix6 R) (S : Nat → Vector6 R) (n : Nat) (x : Nat → R) :
    ∑ a ∈ Finset.range n, ∑ b ∈ Finset.range n, x a * (S a ⬝ᵥ (Y *ᵥ S b)) * x b =
      (∑ a ∈ Finset.range n, x a • S a) ⬝ᵥ (Y *ᵥ (∑ b ∈ Finset.range n, x b • S b)) := by
  rw [mulVec_sum_aux, sum_dotProduct_aux]
  apply Finset.sum_congr rfl
  intro a _
  rw [dotProduct_sum_aux]
  apply Finset.sum_congr rfl
  intro b _
  rw [Matrix.mulVec_smul, Matrix.smul_dotProduct, Matrix.dotProduct_smul]
  simp only [smul_eq_mul]
  ring

/-- The quadratic form of the subtree inertia is the sum of the quadratic forms of
the body inertias at the vector moved to the frame of each body. -/
theorem Model.subtreeInertia_quadratic (model : Model R) (q : List R) (i : Nat)
    (v : Vector6 R) :
    v ⬝ᵥ (model.subtreeInertia q i *ᵥ v) =
      ∑ k ∈ model.subtree i,
        ((model.iMk q i k).toDualActionMatrixᵀ *ᵥ v) ⬝ᵥ
          ((model.inertias k).mulMotion ((model.iMk q i k).toDualActionMatrixᵀ *ᵥ v)) := by
  unfold Model.subtreeInertia
  rw [sum_mulVec_aux, dotProduct_sum_aux]
  apply Finset.sum_congr rfl
  intro k _
  rw [SE3.act_matrix, Inertia.mulMotion, transpose_mulVec_dot]
  simp only [Matrix.mulVec_mulVec, Matrix.mul_assoc]

end DiagonalLemmas

/-! ## Relabelling the joints -/

section RelabelLemmas
variable {R : Type} [CommRing R]

theorem Model.RelabelledBy.lt {m1 m2 : Model R} {σ : Nat → Nat} {q1 q2 : List R}
    (h : m1.RelabelledBy m2 σ q1 q2) {i : Nat} (hi : i < m1.nbody) : σ i < m1.nbody := by
  by_cases h0 : i = 0
  · subst h0; rw [h.2.1]; exact hi
  · exact (h.2.2.1 i hi (by omega)).2.1

theorem Model.RelabelledBy.surj {m1 m2 : Model R} {σ : Nat → Nat} {q1 q2 : List R}
    (h : m1.RelabelledBy m2 σ q1 q2) {k : Nat} (hk : k < m1.nbody) :
    ∃ i, i < m1.nbody ∧ σ i = k := by
  have hsub : (Finset.range m1.nbody).image σ ⊆ Finset.range m1.nbody := by
    intro x hx
    rw [Finset.mem_image] at hx
    obtain ⟨i, hi, rfl⟩ := hx
    exact Finset.mem_range.2 (h.lt (Finset.mem_range.1 hi))
  have hcard : ((Finset.range m1.nbody).image σ).card = (Finset.range m1.nbody).card := by
    apply Finset.card_image_of_injOn
    intro i hi j hj hij
    exact h.2.2.2.1 i (Finset.mem_range.1 hi) j (Finset.mem_range.1 hj) hij
  have heq := Finset.eq_of_subset_of_card_le hsub (le_of_eq hcard.symm)
  have hmem : k ∈ (Finset.range m1.nbody).image σ := by
    rw [heq]; exact Finset.mem_range.2 hk
  rw [Finset.mem_image] at hmem
  obtain ⟨i, hi, hik⟩ := hmem
  exact ⟨i, Finset.mem_range.1 hi, hik⟩

/-- A relabelling preserves the subtree relation. -/
theorem Model.RelabelledBy.inSubtree_relabel {m1 m2 : Model R} {σ : Nat → Nat}
    {q1 q2 : List R} (h : m1.RelabelledBy m2 σ q1 q2) (hp1 : m1.ParentsBelow)
    (hp2 : m2.ParentsBelow) {i : Nat} (hi : i < m1.nbody) (hi1 : 1 ≤ i) :
    ∀ k, k < m1.nbody → (m2.inSubtree (σ i) (σ k) = true ↔ m1.inSubtree i k = true) := by
  intro k
  induction k using Nat.strong_induction_on with
  | _ k ih =>
    intro hk
    have hσk : σ k < m2.nbody := by rw [h.1]; exact h.lt hk
    have hσi := (h.2.2.1 i hi hi1).1
    rw [Model.inSubtree_iff hp2 _ hσk, Model.inSubtree_iff hp1 _ hk]
    by_cases hk0 : k = 0
    · subst hk0
      rw [h.2.1]
      constructor
      · rintro (h1 | ⟨h1, _⟩) <;> omega
      · rintro (h1 | ⟨h1, _⟩) <;> omega
    · obtain ⟨hk1, hk2, hk3⟩ := h.2.2.1 k hk (by omega)
      have hlt := hp1 k hk (by omega)
      rw [hk3, ih _ hlt (by omega)]
      constructor
      · rintro (h1 | ⟨_, h2⟩)
        · exact Or.inl (h.2.2.2.1 k hk i hi h1)
        · exact Or.inr ⟨by omega, h2⟩
      · rintro (h1 | ⟨_, h2⟩)
        · exact Or.inl (by rw [h1])
        · exact Or.inr ⟨by omega, h2⟩

theorem Model.RelabelledBy.liMi_eq {m1 m2 : Model R} {σ : Nat → Nat} {q1 q2 : List R}
    (h : m1.RelabelledBy m2 σ q1 q2) {k : Nat} (hk : k < m1.nbody) (hk1 : 1 ≤ k) :
    m2.liMi q2 (σ k) = m1.liMi q1 k := by
  obtain ⟨_, h2, h3, _⟩ := h.2.2.2.2 k hk hk1
  rw [Model.liMi, Model.liMi, h2, h3]

/-- A relabelling preserves the placements along the paths of the tree. -/
theorem Model.RelabelledBy.iMk_eq {m1 m2 : Model R} {σ : Nat → Nat} {q1 q2 : List R}
    (h : m1.RelabelledBy m2 σ q1 q2) (hp1 : m1.ParentsBelow) (hp2 : m2.ParentsBelow)
    {i : Nat} (hi : i < m1.nbody) :
    ∀ k, k < m1.nbody → m2.iMk q2 (σ i) (σ k) = m1.iMk q1 i k := by
  intro k
  induction k using Nat.strong_induction_on with
  | _ k ih =>
    intro hk
    by_cases hki : k = i
    · subst hki; rw [Model.iMk_self, Model.iMk_self]
    · by_cases hk0 : k = 0
      · subst hk0
        rw [h.2.1]
        rfl
      · obtain ⟨hk1, hk2, hk3⟩ := h.2.2.1 k hk (by omega)
        have hlt := hp1 k hk (by omega)
        have hne : σ k ≠ σ i := fun hc => hki (h.2.2.2.1 k hk i hi hc)
        rw [Model.iMk_step hp2 q2 (by rw [h.1]; exact hk2) hk1 hne,
          Model.iMk_step hp1 q1 hk (by omega) hki, hk3, ih _ hlt (by omega),
          h.liMi_eq hk (by omega)]

/-- A relabelling carries the subtree of `j` onto the subtree of `σ j`. -/
theorem Model.RelabelledBy.subtree_image {m1 m2 : Model R} {σ : Nat → Nat} {q1 q2 : List R}
    (h : m1.RelabelledBy m2 σ q1 q2) (hp1 : m1.ParentsBelow) (hp2 : m2.ParentsBelow)
    {j : Nat} (hj : j < m1.nbody) (hj1 : 1 ≤ j) :
    m2.subtree (σ j) = (m1.subtree j).image σ := by
  ext k
  rw [Model.mem_subtree, Finset.mem_image]
  constructor
  · rintro ⟨hk, hs⟩
    rw [h.1] at hk
    obtain ⟨k0, hk0, rfl⟩ := h.surj hk
    exact ⟨k0, Model.mem_subtree.2 ⟨hk0, (h.inSubtree_relabel hp1 hp2 hj hj1 k0 hk0).1 hs⟩, rfl⟩
  · rintro ⟨k0, hk0, rfl⟩
    rw [Model.mem_subtree] at hk0
    refine ⟨by rw [h.1]; exact h.lt hk0.1, (h.inSubtree_relabel hp1 hp2 hj hj1 k0 hk0.1).2 hk0.2⟩

/-- A relabelling preserves the brute-force kinetic-energy entries. -/
theorem Model.RelabelledBy.kineticEnergyEntry_eq {m1 m2 : Model R} {σ : Nat → Nat}
    {q1 q2 : List R} (h : m1.RelabelledBy m2 σ q1 q2) (hp1 : m1.ParentsBelow)
    (hp2 : m2.ParentsBelow) {i j : Nat} (hi : i < m1.nbody) (hi1 : 1 ≤ i)
    (hj : j < m1.nbody) (hj1 : 1 ≤ j) (a b : Nat) :
    m2.kineticEnergyEntry q2 (σ i) a (σ j) b = m1.kineticEnergyEntry q1 i a j b := by
  unfold Model.kineticEnergyEntry
  rw [h.subtree_image hp1 hp2 hj hj1, Finset.sum_image]
  · apply Finset.sum_congr rfl
    intro k hk
    rw [Model.mem_subtree] at hk
    have hk1 : 1 ≤ k := by
      have := Model.le_of_inSubtree hp1 j k hk.1 hk.2; omega
    unfold Model.jacobianCol Model.S
    rw [h.iMk_eq hp1 hp2 hi k hk.1, h.iMk_eq hp1 hp2 hj k hk.1,
      (h.2.2.2.2 i hi hi1).2.1, (h.2.2.2.2 j hj hj1).2.1, (h.2.2.2.2 k hk.1 hk1).2.2.2]
  · intro x hx y hy hxy
    exact h.2.2.2.1 x (Model.mem_subtree.1 hx).1 y (Model.mem_subtree.1 hy).1 hxy

end RelabelLemmas

/-! ## The inertia matrix against the kinetic-energy reference -/

/-- C1 (as stated, refuted): in `crossModel` the invariants of the spec hold, joint 4
is in the subtree of joint 2, the reference entry coupling them is `1`, and
`crba` leaves the coefficient `M[1,3]` at its previous value `0`. -/
theorem crba_kinetic_energy_counterexample :
    crossModel.TreeInvariants crossNvSubtree ∧ ¬ crossModel.DepthFirst ∧
    (exData 5 crossNvSubtree 0 0).SizedFor crossModel ∧
    crossModel.inSubtree 2 4 = true ∧
    (crba crossModel (exData 5 crossNvSubtree 0 0) []).map
      (fun d => d.M.coeff ((crossModel.joints 2).idx_v + 0) ((crossModel.joints 4).idx_v + 0))
      = some 0 ∧
    crossModel.kineticEnergyEntry [] 2 0 4 0 = 1 := by
  decide

/-- C1 (amended): for a model that satisfies the invariants of the spec and whose
joints are numbered depth-first, and a data sized for it, `crba` returns and
every entry of `M` that couples a degree of freedom `a` of a joint `i ≥ 1` with
a degree of freedom `b` of a joint `j` of the subtree of `i` equals the
brute-force kinetic-energy reference. -/
theorem crba_matches_kinetic_energy {R : Type} [CommRing R] (model : Model R) (d : Data R)
    (q : List R) (hT : model.TreeInvariants d.nvSubtree) (hD : model.DepthFirst)
    (hS : d.SizedFor model) (i j a b : Nat) (hi : 1 ≤ i ∧ i < model.nbody)
    (hj : j < model.nbody) (hs : model.inSubtree i j = true)
    (ha : a < (model.joints i).nv) (hb : b < (model.joints j).nv) :
    ∃ d1, crba model d q = some d1 ∧
      d1.M.coeff ((model.joints i).idx_v + a) ((model.joints j).idx_v + b) =
        model.kineticEnergyEntry q i a j b :=
  ⟨crbaW model d q, crba_eq_crbaW hS hT.indexBounds.accessBounds q,
    crbaW_M_eq_kineticEnergyEntry hT.1 (hT.subtreeColumns hD) q hi.2 hi.1 ha hj hs hb⟩

theorem crba_matches_kinetic_energy_witness :
    forkModel.TreeInvariants forkNvSubtree ∧ forkModel.DepthFirst ∧
    (exData 4 forkNvSubtree 7 0).SizedFor forkModel ∧
    ∃ d1, crba forkModel (exData 4 forkNvSubtree 7 0) [] = some d1 ∧
      d1.M.coeff ((forkModel.joints 1).idx_v + 0) ((forkModel.joints 3).idx_v + 0) =
        forkModel.kineticEnergyEntry [] 1 0 3 0 :=
  ⟨by decide, by decide, by decide,
    crba_matches_kinetic_energy forkModel (exData 4 forkNvSubtree 7 0) [] (by decide)
      (by decide) (by decide) 1 3 0 0 (by decide) (by decide) (by decide) (by decide)
      (by decide)⟩

/-! ## Composite inertias after the call -/

/-- C2: for a model with `parent[i] < i`, after `crba` the composite inertia of every
joint `i ≥ 1` is the inertia of its body plus, once for every child `c` of `i`,
`liMi[c].act(Ycrb[c])`; it is therefore the sum of the body inertias of the
subtree of `i` expressed in the frame of `i`, and it is the same whatever the
data held before the call. -/
theorem crba_composite_inertia {R : Type} [CommRing R] (model : Model R) (d : Data R)
    (q : List R) (hp : model.ParentsBelow) (hS : d.SizedFor model)
    (hA : model.AccessBounds d.nvSubtree) :
    ∃ d1, crba model d q = some d1 ∧ ∀ i, 1 ≤ i → i < model.nbody →
      (d1.Ycrb.elem i).matrix = (model.inertias i).matrix +
        ∑ c ∈ model.children i, ((d1.liMi.elem c).act (d1.Ycrb.elem c)).matrix ∧
      (d1.Ycrb.elem i).matrix =
        ∑ k ∈ model.subtree i, ((model.iMk q i k).act (model.inertias k)).matrix ∧
      ∀ d2 d3, crba model d2 q = some d3 → (d3.Ycrb.elem i).matrix = (d1.Ycrb.elem i).matrix := by
  have hY := crbaW_compositeUpTo hp d q hS.1
  have hK := crbaW_kinematicsAt model d q
  refine ⟨crbaW model d q, crba_eq_crbaW hS hA q, ?_⟩
  intro i h1 hi
  have hsub := Ycrb_eq_subtreeInertia hp hY _ i hi h1 (Nat.zero_le _) le_rfl
  refine ⟨?_, hsub, ?_⟩
  · rw [hY i hi h1]
    congr 1
    apply Finset.sum_congr rfl
    intro c hc
    rw [Model.mem_children] at hc
    rw [if_pos (by omega), (hK c hc.1 hc.2.1).2]
  · intro d2 d3 h3
    rw [crba_some_eq h3, hsub]
    exact Ycrb_eq_subtreeInertia hp (crbaW_compositeUpTo hp d2 q hS.1) _ i hi h1
      (Nat.zero_le _) le_rfl

theorem crba_composite_inertia_witness :
    forkModel.ParentsBelow ∧ (exData 4 forkNvSubtree 7 0).SizedFor forkModel ∧
    forkModel.AccessBounds (exData 4 forkNvSubtree 7 0).nvSubtree ∧
    ∃ d1, crba forkModel (exData 4 forkNvSubtree 7 0) [] = some d1 ∧
      ∀ i, 1 ≤ i → i < forkModel.nbody →
      (d1.Ycrb.elem i).matrix = (forkModel.inertias i).matrix +
        ∑ c ∈ forkModel.children i, ((d1.liMi.elem c).act (d1.Ycrb.elem c)).matrix ∧
      (d1.Ycrb.elem i).matrix =
        ∑ k ∈ forkModel.subtree i, ((forkModel.iMk [] i k).act (forkModel.inertias k)).matrix ∧
      ∀ d2 d3, crba forkModel d2 [] = some d3 →
        (d3.Ycrb.elem i).matrix = (d1.Ycrb.elem i).matrix :=
  ⟨by decide, by decide, by decide,
    crba_composite_inertia forkModel (exData 4 forkNvSubtree 7 0) [] (by decide) (by decide)
      (by decide)⟩

/-! ## The lower triangle of the inertia matrix -/

/-- C3 (as stated, refuted): for one joint with two degrees of freedom, `crba` writes
the strictly-lower coefficient `M[1,0]` of the diagonal block: it held `7`
before the call and holds `0` after it. -/
theorem crba_lower_triangle_counterexample :
    planarData.SizedFor planarModel ∧ planarData.M.coeff 1 0 = 7 ∧
    (crba planarModel planarData []).map (fun d => d.M.coeff 1 0) = some 0 := by
  decide

/-- C3 (amended): `crba` leaves every strictly-lower coefficient `M[r,c]`, `r > c`, at
the value it had before the call, except inside the diagonal block of a joint:
where `r` and `c` are both own columns of one joint `i`. -/
theorem crba_lower_triangle_frame {R : Type} [CommRing R] (model : Model R) (d : Data R)
    (q : List R) (hS : d.SizedFor model) (hA : model.AccessBounds d.nvSubtree)
    (r c : Nat) (hrc : c < r)
    (hblk : ∀ i, 1 ≤ i → i < model.nbody →
      ¬ (model.inJointCols i r ∧ model.inJointCols i c)) :
    ∃ d1, crba model d q = some d1 ∧ d1.M.coeff r c = d.M.coeff r c := by
  refine ⟨crbaW model d q, crba_eq_crbaW hS hA q, crbaW_M_frame model d q r c ?_⟩
  intro i h1 hi hmem
  apply hblk i h1 hi
  obtain ⟨⟨hr1, hr2⟩, hc1, _⟩ := hmem
  exact ⟨⟨hr1, hr2⟩, hc1, by omega⟩

theorem crba_lower_triangle_frame_witness :
    (exData 4 forkNvSubtree 7 0).SizedFor forkModel ∧
    forkModel.AccessBounds (exData 4 forkNvSubtree 7 0).nvSubtree ∧ 1 < 2 ∧
    (∀ i, 1 ≤ i → i < forkModel.nbody →
      ¬ (forkModel.inJointCols i 2 ∧ forkModel.inJointCols i 1)) ∧
    ∃ d1, crba forkModel (exData 4 forkNvSubtree 7 0) [] = some d1 ∧
      d1.M.coeff 2 1 = (exData 4 forkNvSubtree 7 0).M.coeff 2 1 :=
  have h : ∀ i, 1 ≤ i → i < forkModel.nbody →
      ¬ (forkModel.inJointCols i 2 ∧ forkModel.inJointCols i 1) := by
    intro i _ _ hi
    obtain ⟨⟨h1, h2⟩, h3, h4⟩ := hi
    simp only [forkModel, exTree, exRevoluteZ] at h1 h2 h3 h4
    omega
  ⟨by decide, by decide, by decide, h,
    crba_lower_triangle_frame forkModel (exData 4 forkNvSubtree 7 0) [] (by decide)
      (by decide) 2 1 (by decide) h⟩

/-! ## Entries between unrelated joints -/

/-- C4 (as stated, refuted): in `forkModel` joints 2 and 3 are siblings, and the
coefficient `M[1,2]` that couples them keeps the value `7` it had before the
call. -/
theorem crba_off_subtree_counterexample :
    forkModel.TreeInvariants forkNvSubtree ∧ forkModel.DepthFirst ∧
    (exData 4 forkNvSubtree 7 0).SizedFor forkModel ∧
    forkModel.inSubtree 2 3 = false ∧ forkModel.inSubtree 3 2 = false ∧
    (crba forkModel (exData 4 forkNvSubtree 7 0) []).map
      (fun d => d.M.coeff ((forkModel.joints 2).idx_v + 0) ((forkModel.joints 3).idx_v + 0))
      = some 7 := by
  decide

/-- C4 (amended): for a model that satisfies the invariants of the spec with
depth-first numbering and a data sized for it, `crba` does not write the
entries between two joints neither of which is an ancestor of the other: such
an entry keeps the value it had before the call (zero if `M` was zero there). -/
theorem crba_off_subtree_unchanged {R : Type} [CommRing R] (model : Model R) (d : Data R)
    (q : List R) (hT : model.TreeInvariants d.nvSubtree) (hD : model.DepthFirst)
    (hS : d.SizedFor model) (i j a b : Nat) (hi : 1 ≤ i ∧ i < model.nbody)
    (hj : 1 ≤ j ∧ j < model.nbody) (ha : a < (model.joints i).nv)
    (hb : b < (model.joints j).nv) (hij : model.inSubtree i j = false)
    (hji : model.inSubtree j i = false) :
    ∃ d1, crba model d q = some d1 ∧
      d1.M.coeff ((model.joints i).idx_v + a) ((model.joints j).idx_v + b) =
        d.M.coeff ((model.joints i).idx_v + a) ((model.joints j).idx_v + b) ∧
      d1.M.coeff ((model.joints j).idx_v + b) ((model.joints i).idx_v + a) =
        d.M.coeff ((model.joints j).idx_v + b) ((model.joints i).idx_v + a) := by
  have hcols := hT.subtreeColumns hD
  have key : ∀ i j a b, 1 ≤ i ∧ i < model.nbody → 1 ≤ j ∧ j < model.nbody →
      a < (model.joints i).nv → b < (model.joints j).nv → model.inSubtree i j = false →
      (crbaW model d q).M.coeff ((model.joints i).idx_v + a) ((model.joints j).idx_v + b) =
        d.M.coeff ((model.joints i).idx_v + a) ((model.joints j).idx_v + b) := by
    intro i j a b hi hj ha hb hij
    apply crbaW_M_frame
    intro t h1 ht hmem
    obtain ⟨hrow, hcol⟩ := hmem
    have hit : i = t := by
      by_contra hne
      exact hcols.not_own hT.1 ht h1 hi.2 hi.1 ha hne hrow
    subst hit
    rw [hcols i hi.2 j hj.2 ⟨hi.1, hj.1⟩ b hb, hij] at hcol
    exact absurd hcol (by simp)
  exact ⟨crbaW model d q, crba_eq_crbaW hS hT.indexBounds.accessBounds q,
    key i j a b hi hj ha hb hij, key j i b a hj hi hb ha hji⟩

theorem crba_off_subtree_unchanged_witness :
    forkModel.TreeInvariants forkNvSubtree ∧ forkModel.DepthFirst ∧
    (exData 4 forkNvSubtree 7 0).SizedFor forkModel ∧
    forkModel.inSubtree 2 3 = false ∧ forkModel.inSubtree 3 2 = false ∧
    ∃ d1, crba forkModel (exData 4 forkNvSubtree 7 0) [] = some d1 ∧
      d1.M.coeff ((forkModel.joints 2).idx_v + 0) ((forkModel.joints 3).idx_v + 0) =
        (exData 4 forkNvSubtree 7 0).M.coeff ((forkModel.joints 2).idx_v + 0)
          ((forkModel.joints 3).idx_v + 0) ∧
      d1.M.coeff ((forkModel.joints 3).idx_v + 0) ((forkModel.joints 2).idx_v + 0) =
        (exData 4 forkNvSubtree 7 0).M.coeff ((forkModel.joints 3).idx_v + 0)
          ((forkModel.joints 2).idx_v + 0) :=
  ⟨by decide, by decide, by decide, by decide, by decide,
    crba_off_subtree_unchanged forkModel (exData 4 forkNvSubtree 7 0) [] (by decide)
      (by decide) (by decide) 2 3 0 0 (by decide) (by decide) (by decide) (by decide)
      (by decide) (by decide)⟩

/-! ## Independence from the previous content of the data -/

/-- C5 (as stated, refuted): in `crossModel`, whose numbering is not depth-first, the
coefficient `M[1,2]` lies in the block of joint 2 and is computed from a column
of `Fcrb[2]` that the call never wrote: two data that differ only in the
previous content of `Fcrb` give different values. -/
theorem crba_purity_counterexample :
    crossModel.TreeInvariants crossNvSubtree ∧
    (exData 5 crossNvSubtree 0 0).SizedFor crossModel ∧
    (exData 5 crossNvSubtree 0 angularZ).SizedFor crossModel ∧
    (crossModel.inJointCols 2 1 ∧ crossModel.inSubtreeCols crossNvSubtree 2 2) ∧
    (crba crossModel (exData 5 crossNvSubtree 0 0) []).map (fun d => d.M.coeff 1 2) = some 0 ∧
    (crba crossModel (exData 5 crossNvSubtree 0 angularZ) []).map (fun d => d.M.coeff 1 2)
      = some 1 := by
  decide

/-- C5 (amended): for a model that satisfies the invariants of the spec with
depth-first numbering, `crba` run on two data sized for the model, whatever
they held before, gives the same value in every entry of `M` that lies in the
block of rows `[idxV(i), idxV(i)+nv(i))` and columns
`[idxV(i), idxV(i)+nvSubtree(i))` of a joint `i ≥ 1`. -/
theorem crba_block_independent_of_prior_data {R : Type} [CommRing R] (model : Model R)
    (d d2 : Data R) (q : List R) (hT : model.TreeInvariants d.nvSubtree)
    (hD : model.DepthFirst) (hS : d.SizedFor model) (hS2 : d2.SizedFor model)
    (hnv : d2.nvSubtree = d.nvSubtree) (i r c : Nat) (hi : 1 ≤ i ∧ i < model.nbody)
    (hr : model.inJointCols i r) (hc : model.inSubtreeCols d.nvSubtree i c) :
    ∃ d1 d3, crba model d q = some d1 ∧ crba model d2 q = some d3 ∧
      d1.M.coeff r c = d3.M.coeff r c := by
  have hcols := hT.subtreeColumns hD
  obtain ⟨j, b, hj, hs, hb, hcb⟩ := hT.col_covered hD hi.2 hi.1 hc
  have hra : r = (model.joints i).idx_v + (r - (model.joints i).idx_v) := by
    have := hr.1; omega
  have ha : r - (model.joints i).idx_v < (model.joints i).nv := by
    have := hr.2; omega
  refine ⟨crbaW model d q, crbaW model d2 q, crba_eq_crbaW hS hT.indexBounds.accessBounds q,
    crba_eq_crbaW hS2 (by rw [hnv]; exact hT.indexBounds.accessBounds) q, ?_⟩
  rw [hra, hcb, crbaW_M_eq_kineticEnergyEntry hT.1 hcols q hi.2 hi.1 ha hj hs hb,
    crbaW_M_eq_kineticEnergyEntry hT.1 (by rw [hnv]; exact hcols) q hi.2 hi.1 ha hj hs hb]

theorem crba_block_independent_of_prior_data_witness :
    forkModel.TreeInvariants (exData 4 forkNvSubtree 7 0).nvSubtree ∧ forkModel.DepthFirst ∧
    (exData 4 forkNvSubtree 7 0).SizedFor forkModel ∧
    (exData 4 forkNvSubtree 3 angularZ).SizedFor forkModel ∧
    (exData 4 forkNvSubtree 3 angularZ).nvSubtree = (exData 4 forkNvSubtree 7 0).nvSubtree ∧
    (1 ≤ 1 ∧ 1 < forkModel.nbody) ∧ forkModel.inJointCols 1 0 ∧
    forkModel.inSubtreeCols (exData 4 forkNvSubtree 7 0).nvSubtree 1 2 ∧
    ∃ d1 d3, crba forkModel (exData 4 forkNvSubtree 7 0) [] = some d1 ∧
      crba forkModel (exData 4 forkNvSubtree 3 angularZ) [] = some d3 ∧
      d1.M.coeff 0 2 = d3.M.coeff 0 2 :=
  ⟨by decide, by decide, by decide, by decide, rfl, by decide, by decide, by decide,
    crba_block_independent_of_prior_data forkModel (exData 4 forkNvSubtree 7 0)
      (exData 4 forkNvSubtree 3 angularZ) [] (by decide) (by decide) (by decide) (by decide)
      rfl 1 0 2 (by decide) (by decide) (by decide)⟩

/-! ## Malformed input -/

/-- C6 (as stated, refuted): two malformed calls, each with a configuration of the
documented dimension, that `crba` does not reject.  `badModel` has a joint
whose parent index is larger than its own; `forkModel` comes with subtree
sizes that disagree with its tree.  In both calls `crba` returns normally and
has changed the data: `M[0,0]` held `7` before the call and holds `1`,
respectively `3`, after it. -/
theorem crba_no_rejection_counterexample :
    (¬ badModel.ParentsBelow ∧ ([0, 0] : List ℤ).length = badModel.nq ∧
      (exData 3 badNvSubtree 7 0).M.coeff 0 0 = 7 ∧
      (crba badModel (exData 3 badNvSubtree 7 0) [0, 0]).map (fun d => d.M.coeff 0 0)
        = some 1) ∧
    (forkModel.ParentsBelow ∧ ¬ forkModel.TreeInvariants (fun _ => 1) ∧
      ([0, 0, 0] : List ℤ).length = forkModel.nq ∧
      (exData 4 (fun _ => 1) 7 0).M.coeff 0 0 = 7 ∧
      (crba forkModel (exData 4 (fun _ => 1) 7 0) [0, 0, 0]).map (fun d => d.M.coeff 0 0)
        = some 3) := by
  decide

/-- C6 (amended): `crba` does not validate the model.  For a configuration of the
documented dimension `model.nq`, whenever the buffers are large enough for its
accesses, whatever the parent indices and the index bookkeeping, it performs
every forward and backward step and returns: the result is the state written
by the two loops, in which every joint holds the kinematics computed from `q`.
Nothing is stated for a configuration of another length, which `crba` hands
to the `calc` of the joints. -/
theorem crba_runs_without_validation {R : Type} [CommRing R] (model : Model R) (d : Data R)
    (q : List R) (hS : d.SizedFor model) (hA : model.AccessBounds d.nvSubtree)
    (_hq : q.length = model.nq) :
    crba model d q =
        some (crba.backwardW model (model.nbody - 1)
          (crba.forwardW model q (model.nbody - 1) d)) ∧
      ∃ d1, crba model d q = some d1 ∧ ∀ i, 1 ≤ i → i < model.nbody →
        d1.joints i = (model.joints i).calc_ q ∧
        d1.liMi.elem i = model.jointPlacements i * ((model.joints i).calc_ q).M :=
  ⟨crba_eq_crbaW hS hA q, crbaW model d q, crba_eq_crbaW hS hA q,
    fun i h1 hi => crbaW_kinematicsAt model d q i hi h1⟩

theorem crba_runs_without_validation_witness :
    (exData 3 badNvSubtree 7 0).SizedFor badModel ∧
    badModel.AccessBounds (exData 3 badNvSubtree 7 0).nvSubtree ∧
    ([0, 0] : List ℤ).length = badModel.nq ∧
    (crba badModel (exData 3 badNvSubtree 7 0) [0, 0] =
        some (crba.backwardW badModel (badModel.nbody - 1)
          (crba.forwardW badModel [0, 0] (badModel.nbody - 1) (exData 3 badNvSubtree 7 0))) ∧
      ∃ d1, crba badModel (exData 3 badNvSubtree 7 0) [0, 0] = some d1 ∧
        ∀ i, 1 ≤ i → i < badModel.nbody →
          d1.joints i = (badModel.joints i).calc_ [0, 0] ∧
          d1.liMi.elem i =
            badModel.jointPlacements i * ((badModel.joints i).calc_ [0, 0]).M) :=
  ⟨by decide, by decide, by decide,
    crba_runs_without_validation badModel (exData 3 badNvSubtree 7 0) [0, 0] (by decide)
      (by decide) (by decide)⟩

/-! ## Accesses in range -/

/-- C7: if `parent[i] < i`, `idxV[i] + nv(i) ≤ idxV[i] + nvSubtree[i] ≤ nv` for every
joint, and the buffers of the data are sized for the model, then every access
of `crba` is in range: for every `q` it completes and returns a matrix of size
`nv` by `nv`. -/
theorem crba_in_bounds {R : Type} [CommRing R] (model : Model R) (d : Data R) (q : List R)
    (hB : model.IndexBounds d.nvSubtree) (hS : d.SizedFor model) :
    ∃ d1, crba model d q = some d1 ∧ d1.M.rows = model.nv ∧ d1.M.cols = model.nv :=
  ⟨crbaW model d q, crba_eq_crbaW hS hB.accessBounds q,
    by rw [crbaW_M_rows]; exact hS.2.2.2.2.2.1,
    by rw [crbaW_M_cols]; exact hS.2.2.2.2.2.2⟩

theorem crba_in_bounds_witness :
    forkModel.IndexBounds (exData 4 forkNvSubtree 7 0).nvSubtree ∧
    (exData 4 forkNvSubtree 7 0).SizedFor forkModel ∧
    ∃ d1, crba forkModel (exData 4 forkNvSubtree 7 0) [] = some d1 ∧
      d1.M.rows = forkModel.nv ∧ d1.M.cols = forkModel.nv :=
  ⟨by decide, by decide,
    crba_in_bounds forkModel (exData 4 forkNvSubtree 7 0) [] (by decide) (by decide)⟩

/-! ## The single-joint tree -/

/-- C8: for the root and one revolute joint of axis z carrying a body whose centre of
mass is the joint origin and whose rotational inertia is `diag(Ixx, Iyy, Izz)`,
for every mass, every inertia, every placement of the joint and every
configuration, `crba` returns a 1 by 1 matrix with `M[0,0] = Izz`. -/
theorem crba_single_revolute {R : Type} [CommRing R] (placement : List R → SE3 R)
    (jointPlacement : SE3 R) (m Ixx Iyy Izz : R) (d : Data R) (q : List R)
    (hS : d.SizedFor (singleJointModel placement jointPlacement m Ixx Iyy Izz))
    (hnv : d.nvSubtree 1 = 1) :
    ∃ d1, crba (singleJointModel placement jointPlacement m Ixx Iyy Izz) d q = some d1 ∧
      d1.M.rows = 1 ∧ d1.M.cols = 1 ∧ d1.M.coeff 0 0 = Izz := by
  have hA : (singleJointModel placement jointPlacement m Ixx Iyy Izz).AccessBounds
      d.nvSubtree := by
    intro i hi h1
    have hi1 : i = 1 := by simp only [singleJointModel] at hi; omega
    subst hi1
    simp [singleJointModel, JointModelRZ, hnv]
  refine ⟨_, crba_eq_crbaW hS hA q, ?_, ?_, ?_⟩
  · rw [crbaW_M_rows]; exact hS.2.2.2.2.2.1
  · rw [crbaW_M_cols]; exact hS.2.2.2.2.2.2
  · have h2 : (singleJointModel placement jointPlacement m Ixx Iyy Izz).nbody - 1 = 1 := rfl
    rw [crbaW, h2]
    simp only [crba.backwardW, crba.forwardW, bwd_write_M, ownForce, fwd_write_nvSubtree,
      fwd_write_joints, fwd_write_Ycrb, hnv]
    simp [singleJointModel, JointModelRZ, Inertia.ofDiagonal, Inertia.mulMotion, angularZ,
      Matrix.mulVec_diagonal, Matrix.dotProduct, Fin.sum_univ_succ]
    rfl

theorem crba_single_revolute_witness :
    (exData 2 (fun _ => 1) 7 0).SizedFor (singleJointModel (fun _ => 1) 1 5 2 3 4) ∧
    (exData 2 (fun _ => 1) 7 0).nvSubtree 1 = 1 ∧
    ∃ d1, crba (singleJointModel (fun _ => 1) 1 5 2 3 4) (exData 2 (fun _ => 1) 7 0) []
        = some d1 ∧
      d1.M.rows = 1 ∧ d1.M.cols = 1 ∧ d1.M.coeff 0 0 = 4 :=
  ⟨by decide, rfl,
    crba_single_revolute (fun _ => 1) 1 5 2 3 4 (exData 2 (fun _ => 1) 7 0) [] (by decide)
      rfl⟩

/-! ## Positive semi-definite diagonal blocks -/

/-- C9: for a model that satisfies the invariants of the spec and whose body inertias
are positive definite, the diagonal block `D` of every joint `i ≥ 1` produced by
`crba` is positive semi-definite: `xᵀ D x ≥ 0` for every vector `x`. -/
theorem crba_diagonal_blocks_psd {R : Type} [LinearOrderedCommRing R] (model : Model R)
    (d : Data R) (q : List R) (hT : model.TreeInvariants d.nvSubtree)
    (hS : d.SizedFor model)
    (hpd : ∀ k, 1 ≤ k → k < model.nbody → ∀ v : Vector6 R, v ≠ 0 →
      0 < v ⬝ᵥ (model.inertias k).mulMotion v) :
    ∃ d1, crba model d q = some d1 ∧ ∀ i, 1 ≤ i → i < model.nbody → ∀ x : Nat → R,
      0 ≤ ∑ a ∈ Finset.range (model.joints i).nv, ∑ b ∈ Finset.range (model.joints i).nv,
        x a * d1.M.coeff ((model.joints i).idx_v + a) ((model.joints i).idx_v + b) * x b := by
  refine ⟨crbaW model d q, crba_eq_crbaW hS hT.indexBounds.accessBounds q, ?_⟩
  intro i h1 hi x
  have hentry : ∀ a ∈ Finset.range (model.joints i).nv,
      ∑ b ∈ Finset.range (model.joints i).nv,
        x a * (crbaW model d q).M.coeff ((model.joints i).idx_v + a)
          ((model.joints i).idx_v + b) * x b =
      ∑ b ∈ Finset.range (model.joints i).nv,
        x a * (model.S q i a ⬝ᵥ (model.subtreeInertia q i *ᵥ model.S q i b)) * x b := by
    intro a ha
    apply Finset.sum_congr rfl
    intro b hb
    rw [crbaW_M_diag d q hT hS.1 i h1 hi a (Finset.mem_range.1 ha) b (Finset.mem_range.1 hb)]
  rw [Finset.sum_congr rfl hentry, quadratic_form_block, Model.subtreeInertia_quadratic]
  apply Finset.sum_nonneg
  intro k hk
  rw [Model.mem_subtree] at hk
  have hik := Model.le_of_inSubtree hT.1 i k hk.1 hk.2
  by_cases hv : (model.iMk q i k).toDualActionMatrixᵀ *ᵥ
      (∑ a ∈ Finset.range (model.joints i).nv, x a • model.S q i a) = 0
  · rw [hv]; simp [Inertia.mulMotion]
  · exact le_of_lt (hpd k (by omega) hk.1 _ hv)

theorem crba_diagonal_blocks_psd_witness :
    forkModel.TreeInvariants (exData 4 forkNvSubtree 7 0).nvSubtree ∧
    (exData 4 forkNvSubtree 7 0).SizedFor forkModel ∧
    (∀ k, 1 ≤ k → k < forkModel.nbody → ∀ v : Vector6 ℤ, v ≠ 0 →
      0 < v ⬝ᵥ (forkModel.inertias k).mulMotion v) ∧
    ∃ d1, crba forkModel (exData 4 forkNvSubtree 7 0) [] = some d1 ∧
      ∀ i, 1 ≤ i → i < forkModel.nbody → ∀ x : Nat → ℤ,
      0 ≤ ∑ a ∈ Finset.range (forkModel.joints i).nv,
        ∑ b ∈ Finset.range (forkModel.joints i).nv,
        x a * d1.M.coeff ((forkModel.joints i).idx_v + a) ((forkModel.joints i).idx_v + b)
          * x b :=
  have hpd : ∀ k, 1 ≤ k → k < forkModel.nbody → ∀ v : Vector6 ℤ, v ≠ 0 →
      0 < v ⬝ᵥ (forkModel.inertias k).mulMotion v := by
    intro k _ _ v hv
    have hex : ∃ r, v r ≠ 0 := by
      by_contra hcon
      exact hv (funext fun r => by_contra fun h => hcon ⟨r, h⟩)
    obtain ⟨r, hr⟩ := hex
    simp only [forkModel, exTree, Inertia.mulMotion, Matrix.one_mulVec, Matrix.dotProduct]
    exact Finset.sum_pos' (fun r _ => mul_self_nonneg (v r))
      ⟨r, Finset.mem_univ r, mul_self_pos.2 hr⟩
  ⟨by decide, by decide, hpd,
    crba_diagonal_blocks_psd forkModel (exData 4 forkNvSubtree 7 0) [] (by decide)
      (by decide) hpd⟩

/-! ## Reordering siblings -/

/-- C10 (as stated, refuted): exchanging the labels of the siblings 2 and 3 of
`crossModel` gives `crossSwappedModel`; both satisfy the invariants of the
spec, but the entry that couples the joint 2 of `crossModel` with its child 4
holds `0`, the value it had before the call, while the entry that couples
their images 3 and 4 in `crossSwappedModel` is `1`. -/
theorem crba_relabelling_counterexample :
    crossModel.RelabelledBy crossSwappedModel swap23 [] [] ∧
    crossModel.TreeInvariants crossNvSubtree ∧
    crossSwappedModel.TreeInvariants crossSwappedNvSubtree ∧
    (exData 5 crossNvSubtree 0 0).SizedFor crossModel ∧
    (exData 5 crossSwappedNvSubtree 0 0).SizedFor crossSwappedModel ∧
    crossModel.inSubtree 2 4 = true ∧
    (crba crossModel (exData 5 crossNvSubtree 0 0) []).map
      (fun d => d.M.coeff ((crossModel.joints 2).idx_v + 0)
        ((crossModel.joints 4).idx_v + 0)) = some 0 ∧
    (crba crossSwappedModel (exData 5 crossSwappedNvSubtree 0 0) []).map
      (fun d => d.M.coeff ((crossSwappedModel.joints (swap23 2)).idx_v + 0)
        ((crossSwappedModel.joints (swap23 4)).idx_v + 0)) = some 1 :=
  ⟨⟨rfl, rfl, by decide, by decide, fun _ _ _ => ⟨rfl, rfl, rfl, rfl⟩⟩,
    by decide, by decide, by decide, by decide, by decide, by decide, by decide⟩

/-- C10 (amended): if a relabelling of the joints turns a model into another one and
both satisfy the invariants of the spec with depth-first numbering, then the
matrices that `crba` produces for the two coincide on every entry that couples
a degree of freedom of a joint `i` with one of a joint `j` of the subtree of
`i`, up to the relabelling. -/
theorem crba_relabelling_invariant {R : Type} [CommRing R] (m1 m2 : Model R)
    (σ : Nat → Nat) (q1 q2 : List R) (d1 d2 : Data R)
    (hR : m1.RelabelledBy m2 σ q1 q2)
    (hT1 : m1.TreeInvariants d1.nvSubtree) (hD1 : m1.DepthFirst) (hS1 : d1.SizedFor m1)
    (hT2 : m2.TreeInvariants d2.nvSubtree) (hD2 : m2.DepthFirst) (hS2 : d2.SizedFor m2) :
    ∃ r1 r2, crba m1 d1 q1 = some r1 ∧ crba m2 d2 q2 = some r2 ∧
      ∀ i j a b, 1 ≤ i → i < m1.nbody → j < m1.nbody → m1.inSubtree i j = true →
        a < (m1.joints i).nv → b < (m1.joints j).nv →
        r2.M.coeff ((m2.joints (σ i)).idx_v + a) ((m2.joints (σ j)).idx_v + b) =
          r1.M.coeff ((m1.joints i).idx_v + a) ((m1.joints j).idx_v + b) := by
  refine ⟨crbaW m1 d1 q1, crbaW m2 d2 q2,
    crba_eq_crbaW hS1 hT1.indexBounds.accessBounds q1,
    crba_eq_crbaW hS2 hT2.indexBounds.accessBounds q2, ?_⟩
  intro i j a b hi1 hi hj hs ha hb
  have hj1 : 1 ≤ j := by
    have := Model.le_of_inSubtree hT1.1 i j hj hs; omega
  obtain ⟨hσi1, hσi, _⟩ := hR.2.2.1 i hi hi1
  obtain ⟨_, hσj, _⟩ := hR.2.2.1 j hj hj1
  rw [← hR.1] at hσi hσj
  rw [crbaW_M_eq_kineticEnergyEntry hT1.1 (hT1.subtreeColumns hD1) q1 hi hi1 ha hj hs hb,
    crbaW_M_eq_kineticEnergyEntry hT2.1 (hT2.subtreeColumns hD2) q2 hσi hσi1
      (by rw [(hR.2.2.2.2 i hi hi1).1]; exact ha) hσj
      ((hR.inSubtree_relabel hT1.1 hT2.1 hi hi1 j hj).2 hs)
      (by rw [(hR.2.2.2.2 j hj hj1).1]; exact hb),
    hR.kineticEnergyEntry_eq hT1.1 hT2.1 hi hi1 hj hj1]

theorem crba_relabelling_invariant_witness :
    forkModel.RelabelledBy forkModel swap23 [] [] ∧
    forkModel.TreeInvariants (exData 4 forkNvSubtree 7 0).nvSubtree ∧ forkModel.DepthFirst ∧
    (exData 4 forkNvSubtree 7 0).SizedFor forkModel ∧
    forkModel.TreeInvariants (exData 4 forkNvSubtree 3 angularZ).nvSubtree ∧
    (exData 4 forkNvSubtree 3 angularZ).SizedFor forkModel ∧
    ∃ r1 r2, crba forkModel (exData 4 forkNvSubtree 7 0) [] = some r1 ∧
      crba forkModel (exData 4 forkNvSubtree 3 angularZ) [] = some r2 ∧
      ∀ i j a b, 1 ≤ i → i < forkModel.nbody → j < forkModel.nbody →
        forkModel.inSubtree i j = true →
        a < (forkModel.joints i).nv → b < (forkModel.joints j).nv →
        r2.M.coeff ((forkModel.joints (swap23 i)).idx_v + a)
            ((forkModel.joints (swap23 j)).idx_v + b) =
          r1.M.coeff ((forkModel.joints i).idx_v + a) ((forkModel.joints j).idx_v + b) :=
  have hR : forkModel.RelabelledBy forkModel swap23 [] [] :=
    ⟨rfl, rfl, by decide, by decide, fun _ _ _ => ⟨rfl, rfl, rfl, rfl⟩⟩
  ⟨hR, by decide, by decide, by decide, by decide, by decide,
    crba_relabelling_invariant forkModel forkModel swap23 [] []
      (exData 4 forkNvSubtree 7 0) (exData 4 forkNvSubtree 3 angularZ) hR (by decide)
      (by decide) (by decide) (by decide) (by decide) (by decide)⟩

/-! ## What the backward loop leaves alone in `Ycrb` and `Fcrb` -/

section BufferFrameLemmas
variable {R : Type} [CommRing R]

/-- The backward step of joint `i` changes `Fcrb[x]` only for `x = i` and for
`x` the parent of `i` when that parent is not the root. -/
theorem bwd_write_Fcrb_elem (model : Model R) (i : Nat) (d : Data R) (x : Nat)
    (hx : x ≠ i) (hxp : ¬ (0 < model.parents i ∧ x = model.parents i)) :
    (CrbaBackwardStep.write model i d).Fcrb.elem x = d.Fcrb.elem x := by
  unfold CrbaBackwardStep.write; dsimp only
  by_cases hp : 0 < model.parents i
  · have hne : x ≠ model.parents i := fun h => hxp ⟨hp, h⟩
    simp [hp, hne, hx, StdVector.set_elem]
  · simp [hp, hx, StdVector.set_elem]

theorem backwardW_Fcrb_elem (model : Model R) (n : Nat) (d : Data R) (x : Nat)
    (h : ∀ t, 1 ≤ t → t ≤ n → x ≠ t ∧ ¬ (0 < model.parents t ∧ x = model.parents t)) :
    (crba.backwardW model n d).Fcrb.elem x = d.Fcrb.elem x := by
  induction n generalizing d with
  | zero => rfl
  | succ n ih =>
    rw [crba.backwardW, ih _ (fun t h1 h2 => h t h1 (by omega)),
      bwd_write_Fcrb_elem model _ d x (h (n + 1) (by omega) le_rfl).1
        (h (n + 1) (by omega) le_rfl).2]

theorem backwardW_Ycrb_elem (model : Model R) (n : Nat) (d : Data R) (x : Nat)
    (h : ∀ t, 1 ≤ t → t ≤ n → ¬ (0 < model.parents t ∧ x = model.parents t)) :
    (crba.backwardW model n d).Ycrb.elem x = d.Ycrb.elem x := by
  induction n generalizing d with
  | zero => rfl
  | succ n ih =>
    rw [crba.backwardW, ih _ (fun t h1 h2 => h t h1 (by omega)), bwd_write_Ycrb,
      if_neg (h (n + 1) (by omega) le_rfl)]

end BufferFrameLemmas

/-! ## The forward pass -/

/-- C12: for every joint `i` with `1 ≤ i ≤ nbody - 1`, after `crba` the relative
placement is `liMi[i] = jointPlacements[i] * M` with `M` the placement that the
`calc` of joint `i` produces from `q`; and right after the forward loop, before
any backward step, `Ycrb[i] = inertias[i]` for every such `i`, while `M` and
every `Fcrb[k]` are still as they were before the call. -/
theorem crba_forward_pass {R : Type} [CommRing R] (model : Model R) (d : Data R)
    (q : List R) (hS : d.SizedFor model) (hA : model.AccessBounds d.nvSubtree) :
    ∃ dF d1, crba.forward model q (model.nbody - 1) d = some dF ∧
      crba.backward model (model.nbody - 1) dF = some d1 ∧ crba model d q = some d1 ∧
      (∀ i, 1 ≤ i → i ≤ model.nbody - 1 →
        d1.liMi.elem i = model.jointPlacements i * ((model.joints i).calc_ q).M ∧
        dF.Ycrb.elem i = model.inertias i) ∧
      dF.M = d.M ∧ dF.Fcrb = d.Fcrb := by
  have hn : model.nbody - 1 < model.nbody := by have := hS.1; omega
  refine ⟨crba.forwardW model q (model.nbody - 1) d, crbaW model d q, forward_eq hS q _ hn,
    ?_, crba_eq_crbaW hS hA q, ?_, forwardW_M model q _ d, forwardW_Fcrb model q _ d⟩
  · exact backward_eq _ (sizedFor_forwardW hS q _) (by rw [forwardW_nvSubtree]; exact hA) hn
  · intro i h1 hi
    refine ⟨(crbaW_kinematicsAt model d q i (by omega) h1).2, ?_⟩
    rw [forwardW_Ycrb, if_pos ⟨h1, hi⟩]

theorem crba_forward_pass_witness :
    (exData 4 forkNvSubtree 7 0).SizedFor forkModel ∧
    forkModel.AccessBounds (exData 4 forkNvSubtree 7 0).nvSubtree ∧
    ∃ dF d1, crba.forward forkModel [] (forkModel.nbody - 1) (exData 4 forkNvSubtree 7 0)
        = some dF ∧
      crba.backward forkModel (forkModel.nbody - 1) dF = some d1 ∧
      crba forkModel (exData 4 forkNvSubtree 7 0) [] = some d1 ∧
      (∀ i, 1 ≤ i → i ≤ forkModel.nbody - 1 →
        d1.liMi.elem i = forkModel.jointPlacements i * ((forkModel.joints i).calc_ []).M ∧
        dF.Ycrb.elem i = forkModel.inertias i) ∧
      dF.M = (exData 4 forkNvSubtree 7 0).M ∧ dF.Fcrb = (exData 4 forkNvSubtree 7 0).Fcrb :=
  ⟨by decide, by decide,
    crba_forward_pass forkModel (exData 4 forkNvSubtree 7 0) [] (by decide) (by decide)⟩

/-! ## The root -/

/-- C14: `crba` never processes the root: the entries `liMi[0]`, `Ycrb[0]` and
`Fcrb[0]` are after the call what they were before it (a joint whose parent is
the root adds nothing to `Ycrb[0]` and writes nothing to `Fcrb[0]`), and for a
model without joint (`nbody = 1`) the whole data is unchanged. -/
theorem crba_root_untouched {R : Type} [CommRing R] (model : Model R) (d : Data R)
    (q : List R) (hS : d.SizedFor model) (hA : model.AccessBounds d.nvSubtree) :
    ∃ d1, crba model d q = some d1 ∧ d1.liMi.elem 0 = d.liMi.elem 0 ∧
      d1.Ycrb.elem 0 = d.Ycrb.elem 0 ∧ d1.Fcrb.elem 0 = d.Fcrb.elem 0 ∧
      (model.nbody = 1 → d1 = d) := by
  have hno : ¬ (1 ≤ 0 ∧ 0 ≤ model.nbody - 1) := by omega
  refine ⟨crbaW model d q, crba_eq_crbaW hS hA q, ?_, ?_, ?_, ?_⟩
  · rw [crbaW, backwardW_liMi, forwardW_liMi, if_neg hno]
  · rw [crbaW, backwardW_Ycrb_elem, forwardW_Ycrb, if_neg hno]
    intro t h1 _ h; omega
  · rw [crbaW, backwardW_Fcrb_elem, forwardW_Fcrb]
    intro t h1 _
    exact ⟨by omega, fun h => by omega⟩
  · intro h1
    rw [crbaW, h1]
    rfl

theorem crba_root_untouched_witness :
    (exData 4 forkNvSubtree 7 0).SizedFor forkModel ∧
    forkModel.AccessBounds (exData 4 forkNvSubtree 7 0).nvSubtree ∧
    ∃ d1, crba forkModel (exData 4 forkNvSubtree 7 0) [] = some d1 ∧
      d1.liMi.elem 0 = (exData 4 forkNvSubtree 7 0).liMi.elem 0 ∧
      d1.Ycrb.elem 0 = (exData 4 forkNvSubtree 7 0).Ycrb.elem 0 ∧
      d1.Fcrb.elem 0 = (exData 4 forkNvSubtree 7 0).Fcrb.elem 0 ∧
      (forkModel.nbody = 1 → d1 = exData 4 forkNvSubtree 7 0) :=
  ⟨by decide, by decide,
    crba_root_untouched forkModel (exData 4 forkNvSubtree 7 0) [] (by decide) (by decide)⟩


/-! ## Symmetric diagonal blocks -/

section SymmetryLemmas
variable {R : Type} [CommRing R]

theorem Model.subtreeInertia_transpose (model : Model R) (q : List R) (i : Nat)
    (hsym : ∀ k ∈ model.subtree i, (model.inertias k).matrixᵀ = (model.inertias k).matrix) :
    (model.subtreeInertia q i)ᵀ = model.subtreeInertia q i := by
  unfold Model.subtreeInertia
  rw [Matrix.transpose_sum]
  apply Finset.sum_congr rfl
  intro k hk
  rw [SE3.act_matrix, Matrix.transpose_mul, Matrix.transpose_mul, Matrix.transpose_transpose,
    hsym k hk, Matrix.mul_assoc]

theorem dot_mulVec_symm (Y : Matrix6 R) (hY : Yᵀ = Y) (u v : Vector6 R) :
    u ⬝ᵥ (Y *ᵥ v) = v ⬝ᵥ (Y *ᵥ u) := by
  rw [← transpose_mulVec_dot, hY, Matrix.dotProduct_comm]

end SymmetryLemmas

/-- C17: for a model that satisfies the invariants of the spec and whose body inertias
are symmetric six by six matrices, the diagonal block that `crba` writes for
every joint `i ≥ 1` is symmetric:
`M[idxV(i)+a, idxV(i)+b] = M[idxV(i)+b, idxV(i)+a]` for all `a, b < nv(i)`. -/
theorem crba_diagonal_blocks_symmetric {R : Type} [CommRing R] (model : Model R)
    (d : Data R) (q : List R) (hT : model.TreeInvariants d.nvSubtree)
    (hS : d.SizedFor model)
    (hsym : ∀ k, 1 ≤ k → k < model.nbody →
      (model.inertias k).matrixᵀ = (model.inertias k).matrix) :
    ∃ d1, crba model d q = some d1 ∧ ∀ i, 1 ≤ i → i < model.nbody →
      ∀ a b, a < (model.joints i).nv → b < (model.joints i).nv →
        d1.M.coeff ((model.joints i).idx_v + a) ((model.joints i).idx_v + b) =
          d1.M.coeff ((model.joints i).idx_v + b) ((model.joints i).idx_v + a) := by
  refine ⟨crbaW model d q, crba_eq_crbaW hS hT.indexBounds.accessBounds q, ?_⟩
  intro i h1 hi a b ha hb
  rw [crbaW_M_diag d q hT hS.1 i h1 hi a ha b hb, crbaW_M_diag d q hT hS.1 i h1 hi b hb a ha]
  apply dot_mulVec_symm
  apply Model.subtreeInertia_transpose
  intro k hk
  rw [Model.mem_subtree] at hk
  have := Model.le_of_inSubtree hT.1 i k hk.1 hk.2
  exact hsym k (by omega) hk.1

theorem crba_diagonal_blocks_symmetric_witness :
    planarModel.TreeInvariants planarData.nvSubtree ∧ planarData.SizedFor planarModel ∧
    (∀ k, 1 ≤ k → k < planarModel.nbody →
      (planarModel.inertias k).matrixᵀ = (planarModel.inertias k).matrix) ∧
    ∃ d1, crba planarModel planarData [] = some d1 ∧ ∀ i, 1 ≤ i → i < planarModel.nbody →
      ∀ a b, a < (planarModel.joints i).nv → b < (planarModel.joints i).nv →
        d1.M.coeff ((planarModel.joints i).idx_v + a) ((planarModel.joints i).idx_v + b) =
          d1.M.coeff ((planarModel.joints i).idx_v + b) ((planarModel.joints i).idx_v + a) :=
  have hsym : ∀ k, 1 ≤ k → k < planarModel.nbody →
      (planarModel.inertias k).matrixᵀ = (planarModel.inertias k).matrix :=
    fun _ _ _ => Matrix.transpose_one
  ⟨by decide, by decide, hsym,
    crba_diagonal_blocks_symmetric planarModel planarData [] (by decide) (by decide) hsym⟩

/-! ## Columns of the force buffers outside the subtree -/

section ForceFrameLemmas
variable {R : Type} [CommRing R]

/-- The backward step of joint `t` leaves a column of `Fcrb[x]` alone unless it
is an own column of `x = t` or a subtree column of `t` in the buffer of the
parent `x` of `t`. -/
theorem bwd_write_Fcrb_col_frame (model : Model R) (t : Nat) (s : Data R)
    (hpt : model.parents t ≠ t) (x col : Nat)
    (hown : ¬ (x = t ∧ model.inJointCols t col))
    (hpar : ¬ ((0 < model.parents t ∧ x = model.parents t) ∧
      model.inSubtreeCols s.nvSubtree t col)) :
    ((CrbaBackwardStep.write model t s).Fcrb.elem x).col col = (s.Fcrb.elem x).col col := by
  rw [bwd_write_Fcrb model t s hpt]
  by_cases h1 : 0 < model.parents t ∧ x = model.parents t
  · rw [if_pos h1, if_neg (fun h => hpar ⟨h1, h⟩)]
  · rw [if_neg h1]
    by_cases h2 : x = t
    · rw [if_pos h2, ownForce, if_neg (fun h => hown ⟨h2, h⟩), h2]
    · rw [if_neg h2]

theorem backwardW_Fcrb_col_frame {model : Model R} (hp : model.ParentsBelow) (n : Nat)
    (hn : n < model.nbody) (d : Data R) (x col : Nat)
    (h : ∀ t, 1 ≤ t → t ≤ n → ¬ (x = t ∧ model.inJointCols t col) ∧
      ¬ ((0 < model.parents t ∧ x = model.parents t) ∧
        model.inSubtreeCols d.nvSubtree t col)) :
    ((crba.backwardW model n d).Fcrb.elem x).col col = (d.Fcrb.elem x).col col := by
  induction n generalizing d with
  | zero => rfl
  | succ n ih =>
    have hpt := hp (n + 1) hn (by omega)
    rw [crba.backwardW, ih (by omega),
      bwd_write_Fcrb_col_frame model _ d (by omega) x col (h (n + 1) (by omega) le_rfl).1
        (h (n + 1) (by omega) le_rfl).2]
    intro t h1 h2
    rw [bwd_write_nvSubtree]
    exact h t h1 (by omega)

/-- Under the invariants of the spec with nested subtree columns, no backward
step writes a column of `Fcrb[i]` outside the subtree columns of `i`. -/
theorem outside_subtree_cols_not_written {model : Model R} {nvS : Nat → Nat}
    (hT : model.TreeInvariants nvS) (hN : model.NestedSubtreeColumns nvS) {i col : Nat}
    (hcol : ¬ model.inSubtreeCols nvS i col) {t : Nat} (ht1 : 1 ≤ t) (ht : t < model.nbody) :
    ¬ (i = t ∧ model.inJointCols t col) ∧
      ¬ ((0 < model.parents t ∧ i = model.parents t) ∧ model.inSubtreeCols nvS t col) := by
  constructor
  · rintro ⟨rfl, h1, h2⟩
    have := (hT.indexBounds i ht ht1).2.1
    exact hcol ⟨h1, by omega⟩
  · rintro ⟨⟨h0, rfl⟩, h1, h2⟩
    obtain ⟨h3, h4⟩ := hN t ht ⟨ht1, h0⟩
    exact hcol ⟨by omega, by omega⟩

end ForceFrameLemmas

/-- C13: for a model that satisfies the invariants of the spec and in which the
column range of the subtree of every child lies inside that of its parent,
`crba` leaves every column of `Fcrb[i]` outside
`[idxV[i], idxV[i] + nvSubtree[i])` at the value it had before the call, for
every joint `i ≥ 1`; and no backward step, of `i` or of another joint, writes
there, in whatever state it runs. -/
theorem crba_Fcrb_outside_subtree_unchanged {R : Type} [CommRing R] (model : Model R)
    (d : Data R) (q : List R) (hT : model.TreeInvariants d.nvSubtree)
    (hN : model.NestedSubtreeColumns d.nvSubtree) (hS : d.SizedFor model) (i col : Nat)
    (hi : 1 ≤ i ∧ i < model.nbody) (hcol : ¬ model.inSubtreeCols d.nvSubtree i col) :
    ∃ d1, crba model d q = some d1 ∧
      (d1.Fcrb.elem i).col col = (d.Fcrb.elem i).col col ∧
      ∀ t (s : Data R), 1 ≤ t → t < model.nbody → s.nvSubtree = d.nvSubtree →
        ((CrbaBackwardStep.write model t s).Fcrb.elem i).col col = (s.Fcrb.elem i).col col := by
  refine ⟨crbaW model d q, crba_eq_crbaW hS hT.indexBounds.accessBounds q, ?_, ?_⟩
  · rw [crbaW, backwardW_Fcrb_col_frame hT.1 _ (by have := hS.1; omega), forwardW_Fcrb]
    intro t h1 h2
    rw [forwardW_nvSubtree]
    exact outside_subtree_cols_not_written hT hN hcol h1 (by omega)
  · intro t s h1 ht hs
    have hpt := hT.1 t ht h1
    have := outside_subtree_cols_not_written hT hN hcol h1 ht
    exact bwd_write_Fcrb_col_frame model t s (by omega) i col this.1 (by rw [hs]; exact this.2)

theorem crba_Fcrb_outside_subtree_unchanged_witness :
    forkModel.TreeInvariants (exData 4 forkNvSubtree 7 angularZ).nvSubtree ∧
    forkModel.NestedSubtreeColumns (exData 4 forkNvSubtree 7 angularZ).nvSubtree ∧
    (exData 4 forkNvSubtree 7 angularZ).SizedFor forkModel ∧
    (1 ≤ 2 ∧ 2 < forkModel.nbody) ∧
    ¬ forkModel.inSubtreeCols (exData 4 forkNvSubtree 7 angularZ).nvSubtree 2 2 ∧
    ∃ d1, crba forkModel (exData 4 forkNvSubtree 7 angularZ) [] = some d1 ∧
      (d1.Fcrb.elem 2).col 2 = ((exData 4 forkNvSubtree 7 angularZ).Fcrb.elem 2).col 2 ∧
      ∀ t (s : Data ℤ), 1 ≤ t → t < forkModel.nbody →
        s.nvSubtree = (exData 4 forkNvSubtree 7 angularZ).nvSubtree →
        ((CrbaBackwardStep.write forkModel t s).Fcrb.elem 2).col 2 = (s.Fcrb.elem 2).col 2 :=
  ⟨by decide, by decide, by decide, by decide, by decide,
    crba_Fcrb_outside_subtree_unchanged forkModel (exData 4 forkNvSubtree 7 angularZ) []
      (by decide) (by decide) (by decide) 2 2 (by decide) (by decide)⟩


/-! ## Content of the force buffers -/

section ForceContentLemmas
variable {R : Type} [CommRing R]

/-- The own columns of `Fcrb[c]` of every joint visited by the backward loop hold
the subtree inertia of `c` applied to the motion subspace of `c`. -/
theorem backwardW_Fcrb_own {model : Model R} (hp : model.ParentsBelow) {q : List R} (n : Nat)
    {d : Data R} (hk : d.KinematicsAt model q) (hn : n < model.nbody)
    (hY : d.CompositeUpTo model q n) :
    ∀ c, 1 ≤ c → c ≤ n → ∀ a, a < (model.joints c).nv →
      ((crba.backwardW model n d).Fcrb.elem c).col ((model.joints c).idx_v + a) =
        model.subtreeInertia q c *ᵥ model.S q c a := by
  induction n generalizing d with
  | zero => intro c h1 h2; omega
  | succ n ih =>
    intro c h1 hc a ha
    rw [crba.backwardW]
    by_cases hcn : c = n + 1
    · subst hcn
      have hpt := hp (n + 1) hn h1
      rw [backwardW_Fcrb_elem, bwd_write_Fcrb model _ d (by omega), if_neg (by omega),
        if_pos rfl, ownForce, if_pos ⟨by omega, by omega⟩, (hk (n + 1) hn h1).1,
        Inertia.mulMotion, Ycrb_eq_subtreeInertia hp hY _ (n + 1) hn h1 le_rfl le_rfl]
      · simp [Model.S]
      · intro t ht1 ht2
        have := hp t (by omega) ht1
        exact ⟨by omega, fun h => by omega⟩
    · exact ih (kinematicsAt_bwd_write hk _) (by omega)
        (compositeUpTo_bwd_write hp hk hn hY) c h1 (by omega) a ha

theorem crbaW_Fcrb_own {model : Model R} (hp : model.ParentsBelow) (d : Data R) (q : List R)
    (h0 : 0 < model.nbody) :
    ∀ c, 1 ≤ c → c < model.nbody → ∀ a, a < (model.joints c).nv →
      ((crbaW model d q).Fcrb.elem c).col ((model.joints c).idx_v + a) =
        model.subtreeInertia q c *ᵥ model.S q c a := by
  intro c h1 hc
  exact backwardW_Fcrb_own hp _ (kinematicsAt_forwardW model q d) (by omega)
    (compositeUpTo_forwardW q d) c h1 (by omega)

/-- With subtree columns that hold exactly the degrees of freedom of the subtree,
the subtree columns of a child in the buffer of its parent are the columns of the
child moved by `liMi`. -/
theorem crbaW_Fcrb_parent {model : Model R} {d : Data R}
    (hT : model.TreeInvariants d.nvSubtree) (hD : model.DepthFirst) (q : List R)
    (h0 : 0 < model.nbody) {c : Nat} (hc1 : 1 ≤ c) (hc : c < model.nbody)
    (hpc : 0 < model.parents c) {col : Nat} (hcol : model.inSubtreeCols d.nvSubtree c col) :
    ((crbaW model d q).Fcrb.elem (model.parents c)).col col =
      ((crbaW model d q).liMi.elem c).actForce (((crbaW model d q).Fcrb.elem c).col col) := by
  obtain ⟨j, b, hj, hs, hb, rfl⟩ := hT.col_covered hD hc hc1 hcol
  obtain ⟨hF1, hF2⟩ := (crbaW_invariants hT.1 (hT.subtreeColumns hD) q h0).1 c hc (by omega)
    j hj hs b hb
  rw [hF1, hF2 hpc, (crbaW_kinematicsAt model d q c hc hc1).2, SE3.actForce, Model.forceCol,
    Model.forceCol, Model.iMk_child hT.1 q hc hc1 hj hs]
  simp only [Matrix.mulVec_mulVec, Matrix.mul_assoc]

end ForceContentLemmas

/-- C15 (as stated, refuted): in `crossModel` joint 3 is a child of joint 1 and owns the
column 2, but after `crba` the column 2 of `Fcrb[1]` is not the action of
`liMi[3]` on the column 2 of `Fcrb[3]`: the backward step of joint 2, whose
column block also covers the column 2, has overwritten it. -/
theorem crba_force_content_counterexample :
    crossModel.TreeInvariants crossNvSubtree ∧
    (exData 5 crossNvSubtree 0 0).SizedFor crossModel ∧
    (1 ≤ 3 ∧ crossModel.parents 3 = 1) ∧
    crossModel.inSubtreeCols crossNvSubtree 3 2 ∧
    (crba crossModel (exData 5 crossNvSubtree 0 0) []).map
      (fun d => ((d.Fcrb.elem 1).col 2 5,
        (d.liMi.elem 3).actForce ((d.Fcrb.elem 3).col 2) 5)) = some (0, 1) := by
  decide

/-- C15 (amended): for a model that satisfies the invariants of the spec and a data sized
for it, after `crba` the own columns of `Fcrb[i]` of every joint `i ≥ 1` are
`Ycrb[i] * S_i` with `Ycrb[i]` the inertia of the subtree of `i`; and if the
joints are numbered depth-first, then for every joint `c ≥ 1` whose parent `p`
is not the root the columns `[idxV(c), idxV(c) + nvSubtree[c])` of `Fcrb[p]`
are the action of `liMi[c]` on the same columns of `Fcrb[c]`, whatever
`Fcrb[p]` held before. -/
theorem crba_force_content {R : Type} [CommRing R] (model : Model R) (d : Data R)
    (q : List R) (hT : model.TreeInvariants d.nvSubtree) (hS : d.SizedFor model) :
    ∃ d1, crba model d q = some d1 ∧
      (∀ i, 1 ≤ i → i < model.nbody →
        (d1.Ycrb.elem i).matrix = model.subtreeInertia q i ∧
        ∀ a, a < (model.joints i).nv →
          (d1.Fcrb.elem i).col ((model.joints i).idx_v + a) =
            (d1.Ycrb.elem i).mulMotion ((d1.joints i).S a)) ∧
      (model.DepthFirst → ∀ c, 1 ≤ c → c < model.nbody → 0 < model.parents c →
        ∀ col, model.inSubtreeCols d.nvSubtree c col →
          (d1.Fcrb.elem (model.parents c)).col col =
            (d1.liMi.elem c).actForce ((d1.Fcrb.elem c).col col)) := by
  refine ⟨crbaW model d q, crba_eq_crbaW hS hT.indexBounds.accessBounds q, ?_, ?_⟩
  · intro i h1 hi
    have hY := Ycrb_eq_subtreeInertia hT.1 (crbaW_compositeUpTo hT.1 d q hS.1) _ i hi h1
      (Nat.zero_le _) le_rfl
    refine ⟨hY, ?_⟩
    intro a ha
    rw [crbaW_Fcrb_own hT.1 d q hS.1 i h1 hi a ha, Inertia.mulMotion, hY,
      (crbaW_kinematicsAt model d q i hi h1).1]
    rfl
  · intro hD c hc1 hc hpc col hcol
    exact crbaW_Fcrb_parent hT hD q hS.1 hc1 hc hpc hcol

theorem crba_force_content_witness :
    forkModel.TreeInvariants (exData 4 forkNvSubtree 7 angularZ).nvSubtree ∧
    (exData 4 forkNvSubtree 7 angularZ).SizedFor forkModel ∧ forkModel.DepthFirst ∧
    ∃ d1, crba forkModel (exData 4 forkNvSubtree 7 angularZ) [] = some d1 ∧
      (∀ i, 1 ≤ i → i < forkModel.nbody →
        (d1.Ycrb.elem i).matrix = forkModel.subtreeInertia [] i ∧
        ∀ a, a < (forkModel.joints i).nv →
          (d1.Fcrb.elem i).col ((forkModel.joints i).idx_v + a) =
            (d1.Ycrb.elem i).mulMotion ((d1.joints i).S a)) ∧
      (forkModel.DepthFirst → ∀ c, 1 ≤ c → c < forkModel.nbody → 0 < forkModel.parents c →
        ∀ col, forkModel.inSubtreeCols (exData 4 forkNvSubtree 7 angularZ).nvSubtree c col →
          (d1.Fcrb.elem (forkModel.parents c)).col col =
            (d1.liMi.elem c).actForce ((d1.Fcrb.elem c).col col)) :=
  ⟨by decide, by decide, by decide,
    crba_force_content forkModel (exData 4 forkNvSubtree 7 angularZ) [] (by decide)
      (by decide)⟩


/-! ## A second call on the same data -/

section ReplayLemmas
variable {R : Type} [CommRing R]

theorem StdVector.ext_of_fields {α : Type} {v w : StdVector α} (hs : v.size = w.size)
    (he : ∀ i, v.elem i = w.elem i) : v = w := by
  cases v; cases w
  simp only [StdVector.mk.injEq]
  exact ⟨hs, funext he⟩

theorem Matrix6x.ext_of_cols {F G : Matrix6x R} (hc : F.cols = G.cols)
    (he : ∀ c, F.col c = G.col c) : F = G := by
  cases F; cases G
  simp only [Matrix6x.mk.injEq]
  exact ⟨hc, funext he⟩

theorem MatrixXd.ext_of_coeffs {M N : MatrixXd R} (hr : M.rows = N.rows) (hc : M.cols = N.cols)
    (he : ∀ r c, M.coeff r c = N.coeff r c) : M = N := by
  cases M; cases N
  simp only [MatrixXd.mk.injEq]
  exact ⟨hr, hc, funext fun r => funext fun c => he r c⟩

theorem Data.ext_of_buffers {s t : Data R} (h1 : s.joints = t.joints) (h2 : s.liMi = t.liMi)
    (h3 : s.Ycrb = t.Ycrb) (h4 : s.M = t.M) (h5 : s.Fcrb = t.Fcrb)
    (h6 : s.nvSubtree = t.nvSubtree) : s = t := by
  cases s; cases t
  simp only [Data.mk.injEq]
  exact ⟨h1, h2, h3, h4, h5, h6⟩

theorem forwardW_liMi_size (model : Model R) (q : List R) (n : Nat) (d : Data R) :
    (crba.forwardW model q n d).liMi.size = d.liMi.size := by
  induction n with
  | zero => rfl
  | succ n ih => simpa [crba.forwardW, fwd_write_liMi_size] using ih

theorem forwardW_Ycrb_size (model : Model R) (q : List R) (n : Nat) (d : Data R) :
    (crba.forwardW model q n d).Ycrb.size = d.Ycrb.size := by
  induction n with
  | zero => rfl
  | succ n ih => simpa [crba.forwardW, fwd_write_Ycrb_size] using ih

theorem backwardW_Ycrb_size (model : Model R) (n : Nat) (d : Data R) :
    (crba.backwardW model n d).Ycrb.size = d.Ycrb.size := by
  induction n generalizing d with
  | zero => rfl
  | succ n ih => rw [crba.backwardW, ih, bwd_write_Ycrb_size]

theorem backwardW_Fcrb_size (model : Model R) (n : Nat) (d : Data R) :
    (crba.backwardW model n d).Fcrb.size = d.Fcrb.size := by
  induction n generalizing d with
  | zero => rfl
  | succ n ih => rw [crba.backwardW, ih, bwd_write_Fcrb_size]

theorem backwardW_Fcrb_cols (model : Model R) (n : Nat) (d : Data R) (x : Nat) :
    ((crba.backwardW model n d).Fcrb.elem x).cols = (d.Fcrb.elem x).cols := by
  induction n generalizing d with
  | zero => rfl
  | succ n ih => rw [crba.backwardW, ih, bwd_write_Fcrb_cols]

theorem backwardW_M_rows (model : Model R) (n : Nat) (d : Data R) :
    (crba.backwardW model n d).M.rows = d.M.rows := by
  induction n generalizing d with
  | zero => rfl
  | succ n ih => rw [crba.backwardW, ih, bwd_write_M_rows]

theorem backwardW_M_cols (model : Model R) (n : Nat) (d : Data R) :
    (crba.backwardW model n d).M.cols = d.M.cols := by
  induction n generalizing d with
  | zero => rfl
  | succ n ih => rw [crba.backwardW, ih, bwd_write_M_cols]

/-- In the second call the backward step of joint `n + 1` reads from `Fcrb[n + 1]`
what the first call read there. -/
theorem ownForce_replay {model : Model R} (hp : model.ParentsBelow) {n : Nat}
    (hn : n + 1 < model.nbody) {s1 s2 : Data R}
    (h : s2.Replays s1 (crba.backwardW model n (CrbaBackwardStep.write model (n + 1) s1)))
    (col : Nat) : ownForce model (n + 1) s2 col = ownForce model (n + 1) s1 col := by
  obtain ⟨hj, _, hY, _, _, _, _, _, hF, _⟩ := h
  have hpt := hp (n + 1) hn (by omega)
  unfold ownForce
  by_cases hown : (model.joints (n + 1)).idx_v ≤ col ∧
      col < (model.joints (n + 1)).idx_v + (model.joints (n + 1)).nv
  · rw [if_pos hown, if_pos hown, hj, hY]
  · rw [if_neg hown, if_neg hown]
    rcases hF (n + 1) col with h1 | h1
    · exact h1
    · rw [h1, backwardW_Fcrb_elem, bwd_write_Fcrb model _ s1 (by omega), if_neg (by omega),
        if_pos rfl, ownForce, if_neg hown]
      intro t ht1 ht2
      have := hp t (by omega) ht1
      exact ⟨by omega, fun h => by omega⟩

/-- One backward step keeps the relation between the second call and the first. -/
theorem replays_bwd_write {model : Model R} (hp : model.ParentsBelow) {n : Nat}
    (hn : n + 1 < model.nbody) {s1 s2 : Data R}
    (h : s2.Replays s1 (crba.backwardW model n (CrbaBackwardStep.write model (n + 1) s1))) :
    (CrbaBackwardStep.write model (n + 1) s2).Replays (CrbaBackwardStep.write model (n + 1) s1)
      (crba.backwardW model n (CrbaBackwardStep.write model (n + 1) s1)) := by
  have hown := ownForce_replay hp hn h
  obtain ⟨hj, hl, hY, hnv, hr, hc, hFs, hFc, hF, hM⟩ := h
  have hpt := hp (n + 1) hn (by omega)
  have hpi : model.parents (n + 1) ≠ n + 1 := by omega
  refine ⟨?_, ?_, ?_, ?_, ?_, ?_, ?_, ?_, ?_, ?_⟩
  · rw [bwd_write_joints, bwd_write_joints, hj]
  · rw [bwd_write_liMi, bwd_write_liMi, hl]
  · apply StdVector.ext_of_fields
    · rw [bwd_write_Ycrb_size, bwd_write_Ycrb_size, hY]
    · intro x
      rw [bwd_write_Ycrb, bwd_write_Ycrb, hY, hl]
  · rw [bwd_write_nvSubtree, bwd_write_nvSubtree, hnv]
  · rw [bwd_write_M_rows, bwd_write_M_rows, hr]
  · rw [bwd_write_M_cols, bwd_write_M_cols, hc]
  · rw [bwd_write_Fcrb_size, bwd_write_Fcrb_size, hFs]
  · intro x
    rw [bwd_write_Fcrb_cols, bwd_write_Fcrb_cols, hFc]
  · intro x col
    rw [bwd_write_Fcrb model _ s2 hpi, bwd_write_Fcrb model _ s1 hpi, hnv, hl]
    by_cases h1 : 0 < model.parents (n + 1) ∧ x = model.parents (n + 1)
    · rw [if_pos h1, if_pos h1]
      by_cases h2 : (model.joints (n + 1)).idx_v ≤ col ∧
          col < (model.joints (n + 1)).idx_v + s1.nvSubtree (n + 1)
      · rw [if_pos h2, if_pos h2, hown]
        exact Or.inl rfl
      · rw [if_neg h2, if_neg h2]
        exact hF x col
    · rw [if_neg h1, if_neg h1]
      by_cases h2 : x = n + 1
      · rw [if_pos h2, if_pos h2, hown]
        exact Or.inl rfl
      · rw [if_neg h2, if_neg h2]
        exact hF x col
  · intro r c
    rw [bwd_write_M, bwd_write_M, hnv, hj]
    by_cases h1 : ((model.joints (n + 1)).idx_v ≤ r ∧
        r < (model.joints (n + 1)).idx_v + (model.joints (n + 1)).nv) ∧
        ((model.joints (n + 1)).idx_v ≤ c ∧
          c < (model.joints (n + 1)).idx_v + s1.nvSubtree (n + 1))
    · rw [if_pos h1, if_pos h1, hown]
      exact Or.inl rfl
    · rw [if_neg h1, if_neg h1]
      exact hM r c

/-- A backward loop that starts from a state related to the one of the first call
ends in the state in which the first call ended. -/
theorem backwardW_replay {model : Model R} (hp : model.ParentsBelow) (n : Nat)
    (hn : n < model.nbody) {s1 s2 : Data R}
    (h : s2.Replays s1 (crba.backwardW model n s1)) :
    crba.backwardW model n s2 = crba.backwardW model n s1 := by
  induction n generalizing s1 s2 with
  | zero =>
    obtain ⟨hj, hl, hY, hnv, hr, hc, hFs, hFc, hF, hM⟩ := h
    apply Data.ext_of_buffers hj hl hY _ _ hnv
    · exact MatrixXd.ext_of_coeffs hr hc (fun r c => (hM r c).elim id id)
    · exact StdVector.ext_of_fields hFs
        (fun x => Matrix6x.ext_of_cols (hFc x) (fun col => (hF x col).elim id id))
  | succ n ih =>
    rw [crba.backwardW, crba.backwardW]
    rw [crba.backwardW] at h
    exact ih (by omega) (replays_bwd_write hp hn h)

/-- Calling `crba` on the data that a first call has left gives that data
again. -/
theorem crbaW_idempotent {model : Model R} (hp : model.ParentsBelow) (d : Data R)
    (q : List R) (h0 : 0 < model.nbody) :
    crbaW model (crbaW model d q) q = crbaW model d q := by
  have hrange : ∀ j, ¬ (1 ≤ j ∧ j ≤ model.nbody - 1) →
      (crbaW model d q).Ycrb.elem j = (crba.forwardW model q (model.nbody - 1) d).Ycrb.elem j := by
    intro j hj
    rw [crbaW, backwardW_Ycrb_elem]
    intro t ht1 ht2 hc
    have := hp t (by omega) ht1
    omega
  rw [crbaW]
  conv_rhs => rw [crbaW]
  apply backwardW_replay hp _ (by omega)
  rw [← crbaW]
  refine ⟨?_, ?_, ?_, ?_, ?_, ?_, ?_, ?_, ?_, ?_⟩
  · funext j
    rw [forwardW_joints, forwardW_joints]
    by_cases hj : 1 ≤ j ∧ j ≤ model.nbody - 1
    · rw [if_pos hj, if_pos hj]
    · rw [if_neg hj, if_neg hj, crbaW, backwardW_joints, forwardW_joints, if_neg hj]
  · apply StdVector.ext_of_fields
    · rw [forwardW_liMi_size, forwardW_liMi_size, crbaW, backwardW_liMi, forwardW_liMi_size]
    · intro j
      rw [forwardW_liMi, forwardW_liMi]
      by_cases hj : 1 ≤ j ∧ j ≤ model.nbody - 1
      · rw [if_pos hj, if_pos hj]
      · rw [if_neg hj, if_neg hj, crbaW, backwardW_liMi, forwardW_liMi, if_neg hj]
  · apply StdVector.ext_of_fields
    · rw [forwardW_Ycrb_size, forwardW_Ycrb_size, crbaW, backwardW_Ycrb_size,
        forwardW_Ycrb_size]
    · intro j
      rw [forwardW_Ycrb, forwardW_Ycrb]
      by_cases hj : 1 ≤ j ∧ j ≤ model.nbody - 1
      · rw [if_pos hj, if_pos hj]
      · rw [if_neg hj, if_neg hj, hrange j hj, forwardW_Ycrb, if_neg hj]
  · rw [forwardW_nvSubtree, forwardW_nvSubtree, crbaW, backwardW_nvSubtree,
      forwardW_nvSubtree]
  · rw [forwardW_M, crbaW, backwardW_M_rows]
  · rw [forwardW_M, crbaW, backwardW_M_cols]
  · rw [forwardW_Fcrb, crbaW, backwardW_Fcrb_size]
  · intro x
    rw [forwardW_Fcrb, crbaW, backwardW_Fcrb_cols]
  · intro x col
    rw [forwardW_Fcrb]
    exact Or.inr rfl
  · intro r c
    rw [forwardW_M]
    exact Or.inr rfl

end ReplayLemmas

/-- C16: for a model with `parent[i] < i`, calling `crba` twice in a row on the same data
leaves the whole data (joint data, `liMi`, `Ycrb`, `Fcrb`, `M`) in the state in
which the first call left it. -/
theorem crba_idempotent {R : Type} [CommRing R] (model : Model R) (d : Data R) (q : List R)
    (hp : model.ParentsBelow) (hS : d.SizedFor model)
    (hA : model.AccessBounds d.nvSubtree) :
    ∃ d1 d2, crba model d q = some d1 ∧ crba model d1 q = some d2 ∧ d2 = d1 := by
  have hS1 : (crbaW model d q).SizedFor model :=
    sizedFor_backwardW _ (sizedFor_forwardW hS q _)
  have hA1 : model.AccessBounds (crbaW model d q).nvSubtree := by
    rw [crbaW, backwardW_nvSubtree, forwardW_nvSubtree]; exact hA
  exact ⟨crbaW model d q, crbaW model (crbaW model d q) q, crba_eq_crbaW hS hA q,
    crba_eq_crbaW hS1 hA1 q, crbaW_idempotent hp d q hS.1⟩

theorem crba_idempotent_witness :
    crossModel.ParentsBelow ∧ (exData 5 crossNvSubtree 7 angularZ).SizedFor crossModel ∧
    crossModel.AccessBounds (exData 5 crossNvSubtree 7 angularZ).nvSubtree ∧
    ∃ d1 d2, crba crossModel (exData 5 crossNvSubtree 7 angularZ) [] = some d1 ∧
      crba crossModel d1 [] = some d2 ∧ d2 = d1 :=
  ⟨by decide, by decide, by decide,
    crba_idempotent crossModel (exData 5 crossNvSubtree 7 angularZ) [] (by decide)
      (by decide) (by decide)⟩


/-! ## The two-joint serial chain -/

section TwoLinkLemmas
variable {R : Type} [CommRing R]

theorem angularZ_dot (v : Vector6 R) : angularZ ⬝ᵥ v = v 5 := by
  simp [angularZ, Matrix.dotProduct]

theorem mulVec_angularZ (A : Matrix6 R) (r : Fin 6) : (A *ᵥ angularZ) r = A r 5 := by
  simp [angularZ, Matrix.mulVec, Matrix.dotProduct]

theorem blocks6_mul (A B C D A1 B1 C1 D1 : Matrix (Fin 3) (Fin 3) R) :
    blocks6 A B C D * blocks6 A1 B1 C1 D1 =
      blocks6 (A * A1 + B * C1) (A * B1 + B * D1) (C * A1 + D * C1) (C * B1 + D * D1) := by
  unfold blocks6
  rw [Matrix.submatrix_mul_equiv, Matrix.fromBlocks_multiply]

theorem blocks6_transpose (A B C D : Matrix (Fin 3) (Fin 3) R) :
    (blocks6 A B C D)ᵀ = blocks6 Aᵀ Cᵀ Bᵀ Dᵀ := by
  unfold blocks6
  rw [Matrix.transpose_submatrix, Matrix.fromBlocks_transpose]

theorem blocks6_add (A B C D A1 B1 C1 D1 : Matrix (Fin 3) (Fin 3) R) :
    blocks6 A B C D + blocks6 A1 B1 C1 D1 =
      blocks6 (A + A1) (B + B1) (C + C1) (D + D1) := by
  unfold blocks6
  rw [← Matrix.fromBlocks_add]; rfl

theorem blocks6_apply_five (A B C D : Matrix (Fin 3) (Fin 3) R) :
    blocks6 A B C D 5 5 = D 2 2 := rfl

/-- The three scalars that `crba` computes for the two-joint chain, in closed form. -/
theorem twoLink_entries (c s : R) (hcs : c * c + s * s = 1) :
    angularZ ⬝ᵥ (Inertia.ofPointMass (1 : R) ![1, 0, 0] +
        (SE3.ofRotationTranslation 1 ![1, 0, 0] *
          SE3.ofRotationTranslation (rotationZ c s) ![0, 0, 0]).act
          (Inertia.ofPointMass 1 ![1, 0, 0])).mulMotion angularZ = 3 + 2 * c ∧
    angularZ ⬝ᵥ (SE3.ofRotationTranslation 1 ![1, 0, 0] *
          SE3.ofRotationTranslation (rotationZ c s) ![0, 0, 0]).actForce
          ((Inertia.ofPointMass 1 ![1, 0, 0]).mulMotion angularZ) = 1 + c ∧
    angularZ ⬝ᵥ (Inertia.ofPointMass (1 : R) ![1, 0, 0]).mulMotion angularZ = 1 := by
  refine ⟨?_, ?_, ?_⟩
  · simp only [Inertia.mulMotion, angularZ_dot, mulVec_angularZ, Inertia.add_matrix,
      SE3.act_matrix, SE3.mul_toDualActionMatrix, Inertia.ofPointMass,
      SE3.ofRotationTranslation, blocks6_mul, blocks6_transpose, blocks6_add,
      blocks6_apply_five]
    simp only [Matrix.mul_apply, Matrix.add_apply, Matrix.transpose_apply, Matrix.neg_apply,
      Matrix.smul_apply, Matrix.zero_apply, Fin.sum_univ_three]
    simp [skew, rotationZ, Matrix.vecHead, Matrix.vecTail]
    linear_combination hcs
  · simp only [Inertia.mulMotion, SE3.actForce, Matrix.mulVec_mulVec, angularZ_dot,
      mulVec_angularZ, SE3.mul_toDualActionMatrix, Inertia.ofPointMass,
      SE3.ofRotationTranslation, blocks6_mul, blocks6_apply_five]
    simp only [Matrix.mul_apply, Matrix.add_apply, Matrix.neg_apply,
      Matrix.smul_apply, Matrix.zero_apply, Fin.sum_univ_three]
    simp [skew, rotationZ, Matrix.vecHead, Matrix.vecTail]
    ring
  · simp only [Inertia.mulMotion, angularZ_dot, mulVec_angularZ, Inertia.ofPointMass,
      blocks6_apply_five]
    simp only [Matrix.mul_apply, Matrix.neg_apply, Matrix.smul_apply, Fin.sum_univ_three]
    simp [skew, Matrix.vecHead, Matrix.vecTail]

/-- The matrix that the two loops produce for the two-joint chain, over any ring
of scalars with functions `cos` and `sin` of unit square sum. -/
theorem twoLink_crbaW (cos sin : R → R)
    (hcs : ∀ x, cos x * cos x + sin x * sin x = 1) (d : Data R) (q1 q2 : R)
    (hnv : d.nvSubtree 1 = 2 ∧ d.nvSubtree 2 = 1) :
    (crbaW (twoLinkModel cos sin) d [q1, q2]).M.coeff 0 0 = 3 + 2 * cos q2 ∧
    (crbaW (twoLinkModel cos sin) d [q1, q2]).M.coeff 0 1 = 1 + cos q2 ∧
    (crbaW (twoLinkModel cos sin) d [q1, q2]).M.coeff 1 1 = 1 := by
  have h2 : (twoLinkModel cos sin).nbody - 1 = 2 := rfl
  have hp2 : (twoLinkModel cos sin).parents 2 ≠ 2 := by simp [twoLinkModel]
  obtain ⟨e1, e2, e3⟩ := twoLink_entries (cos q2) (sin q2) (hcs q2)
  rw [crbaW, h2]
  simp only [crba.backwardW, crba.forwardW]
  refine ⟨?_, ?_, ?_⟩
  · simp only [bwd_write_M, ownForce, bwd_write_nvSubtree, bwd_write_joints, bwd_write_Ycrb,
      bwd_write_liMi, fwd_write_nvSubtree, fwd_write_joints, fwd_write_Ycrb, fwd_write_liMi]
    simp [twoLinkModel, JointModelRZ, hnv.1, hnv.2, Model.liMi]
    exact e1
  · simp only [bwd_write_M, ownForce, bwd_write_nvSubtree, bwd_write_joints, bwd_write_Ycrb,
      bwd_write_liMi, fwd_write_nvSubtree, fwd_write_joints, fwd_write_Ycrb, fwd_write_liMi,
      bwd_write_Fcrb _ _ _ hp2]
    simp [twoLinkModel, JointModelRZ, hnv.1, hnv.2, Model.liMi]
    exact e2
  · simp only [bwd_write_M, ownForce, bwd_write_nvSubtree, bwd_write_joints, bwd_write_Ycrb,
      bwd_write_liMi, fwd_write_nvSubtree, fwd_write_joints, fwd_write_Ycrb, fwd_write_liMi]
    simp [twoLinkModel, JointModelRZ, hnv.1, hnv.2, Model.liMi]
    exact e3

end TwoLinkLemmas

/-- C11: for the chain root, joint 1, joint 2 of two revolute joints of axis z, joint 2
at unit distance from joint 1 and each body a unit point mass at unit distance
from its joint along the link, over the real numbers and for every
configuration `(q1, q2)`, `crba` returns a data whose matrix has
`M[0,0] = 3 + 2 cos q2`, `M[0,1] = 1 + cos q2` and `M[1,1] = 1`. -/
theorem crba_two_link_chain (d : Data ℝ) (q1 q2 : ℝ)
    (hS : d.SizedFor (twoLinkModel Real.cos Real.sin))
    (hnv : d.nvSubtree 1 = 2 ∧ d.nvSubtree 2 = 1) :
    ∃ d1, crba (twoLinkModel Real.cos Real.sin) d [q1, q2] = some d1 ∧
      d1.M.coeff 0 0 = 3 + 2 * Real.cos q2 ∧
      d1.M.coeff 0 1 = 1 + Real.cos q2 ∧
      d1.M.coeff 1 1 = 1 := by
  have hA : (twoLinkModel Real.cos Real.sin).AccessBounds d.nvSubtree := by
    intro i hi h1
    have hi12 : i = 1 ∨ i = 2 := by simp only [twoLinkModel] at hi; omega
    rcases hi12 with rfl | rfl
    · simp [twoLinkModel, JointModelRZ, hnv.1]
    · simp [twoLinkModel, JointModelRZ, hnv.2]
  have hcs : ∀ x : ℝ, Real.cos x * Real.cos x + Real.sin x * Real.sin x = 1 := by
    intro x
    have h := Real.cos_sq_add_sin_sq x
    rw [pow_two, pow_two] at h
    exact h
  exact ⟨_, crba_eq_crbaW hS hA [q1, q2], twoLink_crbaW Real.cos Real.sin hcs d q1 q2 hnv⟩

theorem crba_two_link_chain_witness :
    (twoLinkData : Data ℝ).SizedFor (twoLinkModel Real.cos Real.sin) ∧
    ((twoLinkData : Data ℝ).nvSubtree 1 = 2 ∧ (twoLinkData : Data ℝ).nvSubtree 2 = 1) ∧
    ∃ d1, crba (twoLinkModel Real.cos Real.sin) twoLinkData [0, 0] = some d1 ∧
      d1.M.coeff 0 0 = 3 + 2 * Real.cos 0 ∧
      d1.M.coeff 0 1 = 1 + Real.cos 0 ∧
      d1.M.coeff 1 1 = 1 :=
  ⟨by decide, ⟨rfl, rfl⟩,
    crba_two_link_chain twoLinkData 0 0 (by decide) ⟨rfl, rfl⟩⟩


end se3
